import Mathlib

/-!
# OSPF_Redes: the graph store and the SPF (Dijkstra) computation of `dijkstra.cpp`

Shallow embedding of the class `grafo`.

* `int` values are modelled as `Int`; the only arithmetic on them that can leave the
  32-bit range is the sum `distancias[u] + peso` of the relaxation, which is wrapped
  to two's complement by `wrap32`.
* `std::vector` is modelled as `List`; an index is an `Int`, read with `leer` and
  written with `escribir`.
* `std::priority_queue` with `std::greater` is modelled as the list of its entries:
  `top` is the least pair in the lexicographic order of `std::pair`, `pop` removes one
  copy of it.
* The two loops that are not bounded by a container size (the `while` over the queue
  and the `for` that follows `previo`) take a fuel argument and return `none` when it
  runs out; a result obtained with some fuel is the result with any larger fuel
  (`calcular_mono`), and `reporta` says that some fuel gives the result.

The definitions come first: the embedding, the vocabulary of the specification (walks,
well-formed stores, stores built by the interface), the loop invariants, and two
variants of the method that the claims compare it with: the run in which every
subscript is checked, and the run without the early exit. The theorems follow: general
lemmas and, each after the lemmas it rests on, the claims `C1` to `C20`.
-/

namespace OSPF

/-! ## Machine integers and vectors -/

/-- The constant `INF`: `std::numeric_limits<int>::max()` for a 32-bit `int`. -/
def INF : Int := 2147483647

/-- Two's complement wrap of an integer to the 32-bit `int` range. -/
def wrap32 (x : Int) : Int := (x + 2147483648) % 4294967296 - 2147483648

/-- The value is representable as a 32-bit `int`. -/
def esInt32 (x : Int) : Prop := -2147483648 ≤ x ∧ x ≤ 2147483647

instance esInt32.decidable (x : Int) : Decidable (esInt32 x) :=
  inferInstanceAs (Decidable (-2147483648 ≤ x ∧ x ≤ 2147483647))

/-- Read `xs[i]`; `d` stands for the (undefined) value of an out-of-range read. -/
def leer {α : Type} (xs : List α) (i : Int) (d : α) : α :=
  if i < 0 then d else xs.getD i.toNat d

/-- Write `xs[i] = x`; an out-of-range write leaves the vector as it is. -/
def escribir {α : Type} (xs : List α) (i : Int) (x : α) : List α :=
  if i < 0 then xs else xs.set i.toNat x

/-! ## The graph store -/

/-- The class `grafo`: `nodo[i]` is the flat adjacency record
`[idVecino1, peso1, idVecino2, peso2, ...]` of node `i`, `departamentos[i]` its name. -/
structure grafo where
  nodo : List (List Int)
  departamentos : List String
deriving DecidableEq

/-- The constructor `grafo()`. -/
def grafo.vacio : grafo := { nodo := [], departamentos := [] }

/-- The scan of `obtenerIdNodo` over the names from position `i` on. -/
def obtenerIdNodoDesde (nombre : String) : List String → Nat → Int
  | [], _ => -1
  | d :: ds, i => if d = nombre then (i : Int) else obtenerIdNodoDesde nombre ds (i + 1)

/-- The method `obtenerIdNodo`: the first index carrying the name, or `-1`. The
conversion of the `size_t` index to `int` in `return i` is taken to be exact: a store
with 2^31 names or more is out of reach. -/
def grafo.obtenerIdNodo (g : grafo) (nombre : String) : Int :=
  obtenerIdNodoDesde nombre g.departamentos 0

/-- The method `agregarNodo`. -/
def grafo.agregarNodo (g : grafo) (nombre : String) : grafo :=
  { nodo := g.nodo ++ [[]], departamentos := g.departamentos ++ [nombre] }

/-- The statement `nodo[i].push_back(x)`. -/
def pushBack (nodo : List (List Int)) (i : Int) (x : Int) : List (List Int) :=
  escribir nodo i (leer nodo i [] ++ [x])

/-- What a call of `agregarVertices` reports. -/
inductive ResultadoArista where
  | agregada
  | nodoNoExiste
deriving DecidableEq

/-- The method `agregarVertices`: the outcome and the store after the call. -/
def grafo.agregarVertices (g : grafo) (origen destino : String) (peso : Int) :
    ResultadoArista × grafo :=
  let idOrigen := g.obtenerIdNodo origen
  let idDestino := g.obtenerIdNodo destino
  if idOrigen = -1 ∨ idDestino = -1 then
    (ResultadoArista.nodoNoExiste, g)
  else
    let n1 := pushBack g.nodo idOrigen idDestino
    let n2 := pushBack n1 idOrigen peso
    let n3 := pushBack n2 idDestino idOrigen
    let n4 := pushBack n3 idDestino peso
    (ResultadoArista.agregada, { g with nodo := n4 })

/-! ## The SPF computation -/

/-- The working state of `calcularRutaMasCorta` (the vector `visitado` is declared in
the source but never read or written after its initialisation). -/
structure Estado where
  distancias : List Int
  previo : List Int
  pq : List (Int × Int)
deriving DecidableEq

/-- The read `distancias[v]`. -/
def Estado.dist (st : Estado) (v : Int) : Int := leer st.distancias v INF

/-- The read `previo[v]`. -/
def Estado.prev (st : Estado) (v : Int) : Int := leer st.previo v (-1)

/-- The order `operator<` of `std::pair<int, int>`, as a Boolean. -/
def menorPar (a b : Int × Int) : Bool :=
  decide (a.1 < b.1) || (decide (a.1 = b.1) && decide (a.2 < b.2))

/-- The least entry of a non-empty queue whose first entry is `a`. -/
def minimoPar (a : Int × Int) : List (Int × Int) → Int × Int
  | [] => a
  | b :: resto => minimoPar (if menorPar b a then b else a) resto

/-- The call `pq.top()` of the min-queue; `none` when the queue is empty. -/
def top : List (Int × Int) → Option (Int × Int)
  | [] => none
  | a :: resto => some (minimoPar a resto)

/-- The relaxation of one adjacency entry `(v, peso)` of `u` (source lines 111-119). -/
def relajarArista (u v peso : Int) (st : Estado) : Estado :=
  let cand := wrap32 (st.dist u + peso)
  if cand < st.dist v then
    { distancias := escribir st.distancias v cand,
      previo := escribir st.previo v u,
      pq := (cand, v) :: st.pq }
  else st

/-- The loop `for (k = 0; k < nodo[u].size(); k += 2)` over the record of `u`.
A record of odd length would make the source read past its end; the model stops. -/
def relajar (u : Int) : List Int → Estado → Estado
  | v :: peso :: resto, st => relajar u resto (relajarArista u v peso st)
  | _, st => st

/-- The outcome of one iteration of the `while` loop. -/
inductive Paso where
  | sigue (st : Estado)
  | termina (st : Estado)
deriving DecidableEq

/-- One evaluation of the loop condition and body of `while (!pq.empty())`. -/
def paso (g : grafo) (idFin : Int) (st : Estado) : Paso :=
  match top st.pq with
  | none => Paso.termina st
  | some (d, u) =>
    let st1 : Estado := { st with pq := st.pq.erase (d, u) }
    if d > st1.dist u then Paso.sigue st1
    else if u = idFin then Paso.termina st1
    else Paso.sigue (relajar u (leer g.nodo u []) st1)

/-- The `while` loop, run for at most `fuel` iterations. -/
def bucle (g : grafo) (idFin : Int) : Nat → Estado → Option Estado
  | 0, _ => none
  | fuel + 1, st =>
    match paso g idFin st with
    | Paso.termina st1 => some st1
    | Paso.sigue st1 => bucle g idFin fuel st1

/-- The loop `for (int at = idFin; at != -1; at = previo[at])`, run for at most `fuel`
tests of its condition; `actual` is the variable `at` of the source, `camino` the vector
built so far. -/
def reconstruir (departamentos : List String) (previo : List Int) :
    Nat → Int → List String → Option (List String)
  | 0, _, _ => none
  | fuel + 1, actual, camino =>
    if actual = -1 then some camino
    else reconstruir departamentos previo fuel (leer previo actual (-1))
      (camino ++ [leer departamentos actual ""])

/-- What `calcularRutaMasCorta` reports: 'Nodos de inicio o fin no válidos', 'No hay
ruta posible', or the total cost together with the route. -/
inductive Salida where
  | nodosNoValidos
  | sinRuta
  | ruta (costo : Int) (camino : List String)
deriving DecidableEq

/-- The state before the `while` loop (source lines 76-93). -/
def estadoInicial (n : Nat) (idInicio : Int) : Estado :=
  { distancias := escribir (List.replicate n INF) idInicio 0,
    previo := List.replicate n (-1),
    pq := [(0, idInicio)] }

/-- The method `calcularRutaMasCorta`; `none` when a loop runs out of fuel. The source
prints the cost line before it reconstructs the path; `Salida.ruta` is the complete
report, cost line and route line. -/
def grafo.calcularRutaMasCorta (g : grafo) (inicio fin : String) (fuel : Nat) :
    Option Salida :=
  let idInicio := g.obtenerIdNodo inicio
  let idFin := g.obtenerIdNodo fin
  if idInicio = -1 ∨ idFin = -1 then some Salida.nodosNoValidos
  else
    match bucle g idFin fuel (estadoInicial g.departamentos.length idInicio) with
    | none => none
    | some st =>
      if st.dist idFin = INF then some Salida.sinRuta
      else
        match reconstruir g.departamentos st.previo fuel idFin [] with
        | none => none
        | some camino => some (Salida.ruta (st.dist idFin) camino.reverse)

/-- The topology loaded by `main`. -/
def redMain : grafo :=
  let g0 := grafo.vacio
  let g1 := ["A", "B", "1", "2", "3", "4", "5", "6", "7", "8", "9", "10"].foldl
    (fun g nombre => g.agregarNodo nombre) g0
  [("A", "1", 6), ("A", "2", 11), ("A", "3", 10), ("A", "4", 12),
   ("1", "2", 30), ("1", "5", 35), ("1", "6", 125),
   ("2", "3", 21), ("2", "6", 50), ("2", "7", 90),
   ("3", "7", 70), ("3", "8", 80),
   ("4", "8", 75),
   ("5", "6", 91), ("5", "9", 24),
   ("6", "10", 50),
   ("7", "10", 10), ("7", "B", 40),
   ("8", "B", 40),
   ("9", "10", 35),
   ("10", "B", 40)].foldl
    (fun g (e : String × String × Int) => (g.agregarVertices e.1 e.2.1 e.2.2).2) g1


/-- A store with two components: nodes `A`, `B`, `C` and the single edge `A-B(5)`. -/
def redPartida : grafo :=
  ((((grafo.vacio.agregarNodo "A").agregarNodo "B").agregarNodo "C").agregarVertices
    "A" "B" 5).2

/-- A store whose total edge weight is below `INF` while twice that total is not:
nodes `A`, `B`, `C`, edges `A-B(1073741829)` and `B-C(0)`. -/
def redDesborde : grafo :=
  (((((grafo.vacio.agregarNodo "A").agregarNodo "B").agregarNodo "C").agregarVertices
    "A" "B" 1073741829).2.agregarVertices "B" "C" 0).2

/-! ## Vocabulary of the specification -/

/-- The `(idVecino, peso)` pairs of a flat adjacency record, in order. -/
def pares : List Int → List (Int × Int)
  | v :: peso :: resto => (v, peso) :: pares resto
  | _ => []

/-- The pair `(v, w)` is an entry of the adjacency record of `u`. -/
def Arco (g : grafo) (u v w : Int) : Prop := (v, w) ∈ pares (leer g.nodo u [])

/-- The node indices `i0 .. ik` and the weights `w0 .. w(k-1)` form a walk through
the adjacency records: `(i(j+1), wj)` is an entry of the record of `ij`. -/
def esRecorrido (g : grafo) : List Int → List Int → Prop
  | [_], [] => True
  | i :: j :: resto, w :: ws => Arco g i j w ∧ esRecorrido g (j :: resto) ws
  | _, _ => False

/-- A walk from `a` to the second index with the given weight sum. -/
inductive Recorrido (g : grafo) (a : Int) : Int → Int → Prop
  | nulo : Recorrido g a a 0
  | paso {b c p w : Int} : Recorrido g a b p → Arco g b c w → Recorrido g a c (p + w)

/-- Well-formed store: one record per name, records of even length, neighbour ids
that are indices of registered nodes. -/
structure BienFormado (g : grafo) : Prop where
  longitud : g.nodo.length = g.departamentos.length
  par : ∀ r ∈ g.nodo, r.length % 2 = 0
  vecinos : ∀ r ∈ g.nodo, ∀ e ∈ pares r, 0 ≤ e.1 ∧ e.1 < (g.departamentos.length : Int)

/-- Every stored edge weight is non-negative. -/
def PesosNoNegativos (g : grafo) : Prop := ∀ r ∈ g.nodo, ∀ e ∈ pares r, 0 ≤ e.2

/-- Sum of the weights stored in one record. -/
def sumaRegistro (r : List Int) : Int := ((pares r).map Prod.snd).sum

/-- Sum of the weights stored in all records; an edge is stored in both directions. -/
def sumaPesos (g : grafo) : Int := (g.nodo.map sumaRegistro).sum

/-- Total edge-weight sum of the graph, every edge counted once. -/
def pesoTotal (g : grafo) : Int := sumaPesos g / 2

/-- The stores that calls of `agregarNodo` and `agregarVertices` (with `int` weights)
build from the empty store. -/
inductive Construido : grafo → Prop
  | vacio : Construido grafo.vacio
  | nodo {g : grafo} (nombre : String) : Construido g → Construido (g.agregarNodo nombre)
  | arista {g : grafo} (origen destino : String) (peso : Int) :
      esInt32 peso → Construido g → Construido (g.agregarVertices origen destino peso).2

/-- The run of `calcularRutaMasCorta` on `inicio`, `fin` ends and reports `r`. -/
def reporta (g : grafo) (inicio fin : String) (r : Salida) : Prop :=
  ∃ fuel, g.calcularRutaMasCorta inicio fin fuel = some r

/-! ## Invariants of the main loop -/

/-- Invariant of the `while` loop that holds with wrapped sums as well. `s` is the
source index; `A y v w` says which entries `(v, w)` of the record of `y` the loop has
relaxed since `y` was last taken from the queue with its current distance. -/
structure InvG (g : grafo) (s : Int) (A : Int → Int → Int → Prop) (st : Estado) : Prop where
  lenD : st.distancias.length = g.departamentos.length
  lenP : st.previo.length = g.departamentos.length
  rango : ∀ d ∈ st.distancias, -2147483648 ≤ d ∧ d ≤ INF
  cola : ∀ e ∈ st.pq, 0 ≤ e.2 ∧ e.2 < (g.departamentos.length : Int) ∧
    st.dist e.2 ≤ e.1 ∧ e.1 < INF
  orig : st.dist s ≤ 0
  pend : ∀ y, st.dist y < INF →
    (st.dist y, y) ∈ st.pq ∨ ∀ v w, A y v w → st.dist v ≤ wrap32 (st.dist y + w)
  alcanz : ∀ v, st.dist v < INF → ∃ p, Recorrido g s v p
  raiz : ∀ v, st.dist v < INF → st.prev v = -1 → v = s
  previos : ∀ v, st.prev v ≠ -1 → st.dist (st.prev v) < INF ∧ st.dist v < INF

/-- The measure that bounds the iterations of the `while` loop: every push lowers a
recorded distance, and a distance is never below the least `int`. -/
def medida (st : Estado) : Nat :=
  ((st.distancias.map (fun d => d + 2147483648)).sum).toNat + st.pq.length

/-- Two directed entries, written `(origin, neighbour, weight)`, join the same two
nodes. -/
def mismosExtremos (e f : Int × Int × Int) : Prop :=
  (e.1 = f.1 ∧ e.2.1 = f.2.1) ∨ (e.1 = f.2.1 ∧ e.2.1 = f.1)

/-- The predecessor links lead from `v` back to the source `s`: `nodos` lists the nodes
from `s` to `v` without repetition, `arcos` the entries `(previo[z], z, w)` used, each
with `distancias[z] = distancias[previo[z]] + w`. -/
inductive Cadena (g : grafo) (s : Int) (st : Estado) :
    Int → List Int → List (Int × Int × Int) → Prop
  | raiz : st.prev s = -1 → st.dist s = 0 → Cadena g s st s [s] []
  | paso {u v w : Int} {nodos : List Int} {arcos : List (Int × Int × Int)} :
      Cadena g s st u nodos arcos → st.prev v = u → v ∉ nodos → Arco g u v w →
      st.dist v = st.dist u + w → Cadena g s st v (nodos ++ [v]) (arcos ++ [(u, v, w)])

/-- Invariant of the `while` loop as long as no sum has left the `int` range. `proc`
lists the nodes whose entries have been relaxed, `m` is the distance of the last of
them. -/
structure InvP (g : grafo) (s : Int) (st : Estado) (proc : List Int) (m : Int) : Prop where
  nonneg : ∀ d ∈ st.distancias, 0 ≤ d
  nodup : st.pq.Nodup
  mcota : ∀ e ∈ st.pq, m ≤ e.1
  viejas : ∀ e ∈ st.pq, e.2 ∈ proc → st.dist e.2 < e.1
  procD : ∀ y ∈ proc, st.dist y ≤ m
  tocado : ∀ y, st.dist y < INF → (st.dist y, y) ∈ st.pq ∨ y ∈ proc
  raizP : st.dist s = 0 ∧ st.prev s = -1
  cadenas : ∀ y ∈ proc, ∃ nodos arcos, Cadena g s st y nodos arcos ∧ ∀ z ∈ nodos, z ∈ proc
  prevP : ∀ v, v ≠ s → st.dist v < INF →
    st.prev v ∈ proc ∧ ∃ w, Arco g (st.prev v) v w ∧ st.dist v = st.dist (st.prev v) + w

/-- A set of nodes that the predecessor links never leave and that holds every node
with a negative recorded distance. -/
def Cerrado (st : Estado) (C : Int → Prop) : Prop :=
  (∀ z, C z → st.prev z ≠ -1 ∧ C (st.prev z)) ∧ (∀ z, st.dist z < 0 → C z)

/-- Some node has a recorded distance so small that a walk from it to the source `s`
still has a negative total. -/
def Hundido (g : grafo) (s : Int) (st : Estado) : Prop :=
  ∃ x R, Recorrido g x s R ∧ st.dist x + R < 0

/-- The three phases of a run between two iterations of the `while` loop: no sum has
left the `int` range yet; or the source has been given a predecessor; or some sum has
wrapped and the negative distances are confined to a closed set. -/
def Fase (g : grafo) (s : Int) (st : Estado) : Prop :=
  (∃ proc m, InvP g s st proc m) ∨ st.prev s ≠ -1 ∨
  ((∃ C, Cerrado st C) ∧ Hundido g s st)

/-- The phases of a run while the entries of `u` are being relaxed. -/
def FaseU (g : grafo) (s : Int) (st : Estado) (u : Int) : Prop :=
  (∃ proc m, InvP g s st proc m ∧ u ∈ proc ∧ st.dist u = m) ∨ st.prev s ≠ -1 ∨
  ((∃ C, Cerrado st C ∧ C u) ∧ Hundido g s st)

/-! ## Further stores used as concrete inputs -/

/-- The store after `agregarNodo("A")` twice. -/
def redDuplicada : grafo := (grafo.vacio.agregarNodo "A").agregarNodo "A"

/-- A store whose single edge weighs `INF`: nodes `A`, `B`, edge `A-B(2147483647)`. -/
def redCentinela : grafo :=
  (((grafo.vacio.agregarNodo "A").agregarNodo "B").agregarVertices "A" "B" 2147483647).2

/-! ## Runs observed from outside -/

/-- The states in which the condition of the `while` loop is evaluated during the run
from `idInicio` to `idFin`. -/
inductive Alcanzado (g : grafo) (idInicio idFin : Int) : Estado → Prop
  | inicio : Alcanzado g idInicio idFin (estadoInicial g.departamentos.length idInicio)
  | paso {st st1 : Estado} : Alcanzado g idInicio idFin st →
      paso g idFin st = Paso.sigue st1 → Alcanzado g idInicio idFin st1

/-- The values of `distancias[u]` that the sums `distancias[u] + peso` of source line 115
read while the record of `u` is relaxed from the state `st`. -/
def lecturasRelajar (u : Int) : List Int → Estado → List Int
  | v :: peso :: resto, st => st.dist u :: lecturasRelajar u resto (relajarArista u v peso st)
  | _, _ => []

/-- A walk from `s` that visits no node twice: `nodos` lists its nodes in order, `arcos`
the entries `(origin, neighbour, weight)` it follows. -/
inductive Senda (g : grafo) (s : Int) : Int → List Int → List (Int × Int × Int) → Prop
  | raiz : Senda g s s [s] []
  | paso {u v w : Int} {nodos : List Int} {arcos : List (Int × Int × Int)} :
      Senda g s u nodos arcos → v ∉ nodos → Arco g u v w →
      Senda g s v (nodos ++ [v]) (arcos ++ [(u, v, w)])

/-! ## The computation with every subscript checked -/

/-- Outcome of a run in which every subscript is checked. -/
inductive Corrida (α : Type) where
  | listo (a : α)
  | sinCombustible
  | fueraDeRango
deriving DecidableEq

/-- The outcome of a run of the unchecked model, read as a checked outcome. -/
def Corrida.deOpcion {α : Type} : Option α → Corrida α
  | some a => Corrida.listo a
  | none => Corrida.sinCombustible

/-- The read `xs[i]`, refused when `i` is not an index of `xs`. -/
def leerV {α : Type} (xs : List α) (i : Int) (d : α) : Option α :=
  if 0 ≤ i ∧ i < (xs.length : Int) then some (leer xs i d) else none

/-- The write `xs[i] = x`, refused when `i` is not an index of `xs`. -/
def escribirV {α : Type} (xs : List α) (i : Int) (x : α) : Option (List α) :=
  if 0 ≤ i ∧ i < (xs.length : Int) then some (escribir xs i x) else none

/-- The relaxation of one entry (source lines 111-119) with the subscripts
`distancias[u]`, `distancias[v]` and `previo[v]` checked. -/
def relajarAristaV (u v peso : Int) (st : Estado) : Option Estado :=
  match leerV st.distancias u INF, leerV st.distancias v INF with
  | some du, some dv =>
    let cand := wrap32 (du + peso)
    if cand < dv then
      match escribirV st.distancias v cand, escribirV st.previo v u with
      | some ds, some ps => some { distancias := ds, previo := ps, pq := (cand, v) :: st.pq }
      | _, _ => none
    else some st
  | _, _ => none

/-- The loop over the record of `u` with the reads `nodo[u][k]` and `nodo[u][k + 1]`
checked: a record of odd length makes the last read leave the record. -/
def relajarV (u : Int) : List Int → Estado → Option Estado
  | [], st => some st
  | [_], _ => none
  | v :: peso :: resto, st =>
    match relajarAristaV u v peso st with
    | some st1 => relajarV u resto st1
    | none => none

/-- One iteration of the `while` loop with the subscripts `distancias[u]` and `nodo[u]`
checked. -/
def pasoV (g : grafo) (idFin : Int) (st : Estado) : Option Paso :=
  match top st.pq with
  | none => some (Paso.termina st)
  | some (d, u) =>
    let st1 : Estado := { st with pq := st.pq.erase (d, u) }
    match leerV st1.distancias u INF with
    | none => none
    | some du =>
      if d > du then some (Paso.sigue st1)
      else if u = idFin then some (Paso.termina st1)
      else
        match leerV g.nodo u [] with
        | none => none
        | some registro =>
          match relajarV u registro st1 with
          | none => none
          | some st2 => some (Paso.sigue st2)

/-- The `while` loop over checked iterations. -/
def bucleV (g : grafo) (idFin : Int) : Nat → Estado → Corrida Estado
  | 0, _ => Corrida.sinCombustible
  | fuel + 1, st =>
    match pasoV g idFin st with
    | none => Corrida.fueraDeRango
    | some (Paso.termina st1) => Corrida.listo st1
    | some (Paso.sigue st1) => bucleV g idFin fuel st1

/-- The path loop with the subscripts `departamentos[at]` and `previo[at]` checked. -/
def reconstruirV (departamentos : List String) (previo : List Int) :
    Nat → Int → List String → Corrida (List String)
  | 0, _, _ => Corrida.sinCombustible
  | fuel + 1, actual, camino =>
    if actual = -1 then Corrida.listo camino
    else
      match leerV departamentos actual "", leerV previo actual (-1) with
      | some nombre, some anterior =>
        reconstruirV departamentos previo fuel anterior (camino ++ [nombre])
      | _, _ => Corrida.fueraDeRango

/-- The method `calcularRutaMasCorta` with every subscript checked: `distancias[idInicio]`
before the loop, the subscripts of the two loops, and `distancias[idFin]` after the
`while` loop. -/
def grafo.calcularRutaMasCortaV (g : grafo) (inicio fin : String) (fuel : Nat) :
    Corrida Salida :=
  let idInicio := g.obtenerIdNodo inicio
  let idFin := g.obtenerIdNodo fin
  if idInicio = -1 ∨ idFin = -1 then Corrida.listo Salida.nodosNoValidos
  else
    match escribirV (List.replicate g.departamentos.length INF) idInicio 0 with
    | none => Corrida.fueraDeRango
    | some ds =>
      match bucleV g idFin fuel (Estado.mk ds (List.replicate g.departamentos.length (-1))
          [(0, idInicio)]) with
      | Corrida.sinCombustible => Corrida.sinCombustible
      | Corrida.fueraDeRango => Corrida.fueraDeRango
      | Corrida.listo st =>
        match leerV st.distancias idFin INF with
        | none => Corrida.fueraDeRango
        | some costo =>
          if costo = INF then Corrida.listo Salida.sinRuta
          else
            match reconstruirV g.departamentos st.previo fuel idFin [] with
            | Corrida.sinCombustible => Corrida.sinCombustible
            | Corrida.fueraDeRango => Corrida.fueraDeRango
            | Corrida.listo camino => Corrida.listo (Salida.ruta costo camino.reverse)

/-! ## The computation without the early exit -/

/-- One iteration of the `while` loop with the line `if (u == idFin) break;` removed. -/
def pasoCompleto (g : grafo) (st : Estado) : Paso :=
  match top st.pq with
  | none => Paso.termina st
  | some (d, u) =>
    let st1 : Estado := { st with pq := st.pq.erase (d, u) }
    if d > st1.dist u then Paso.sigue st1
    else Paso.sigue (relajar u (leer g.nodo u []) st1)

/-- The `while` loop without the early exit, run for at most `fuel` iterations: it is
left when the queue is empty. -/
def bucleCompleto (g : grafo) : Nat → Estado → Option Estado
  | 0, _ => none
  | fuel + 1, st =>
    match pasoCompleto g st with
    | Paso.termina st1 => some st1
    | Paso.sigue st1 => bucleCompleto g fuel st1

/-- The method `calcularRutaMasCorta` with the line `if (u == idFin) break;` removed and
nothing else changed. -/
def grafo.calcularSinSalidaTemprana (g : grafo) (inicio fin : String) (fuel : Nat) :
    Option Salida :=
  let idInicio := g.obtenerIdNodo inicio
  let idFin := g.obtenerIdNodo fin
  if idInicio = -1 ∨ idFin = -1 then some Salida.nodosNoValidos
  else
    match bucleCompleto g fuel (estadoInicial g.departamentos.length idInicio) with
    | none => none
    | some st =>
      if st.dist idFin = INF then some Salida.sinRuta
      else
        match reconstruir g.departamentos st.previo fuel idFin [] with
        | none => none
        | some camino => some (Salida.ruta (st.dist idFin) camino.reverse)

/-- From `st` to `st1` no recorded distance has grown, and a node whose distance is the
same has kept its predecessor. -/
def Desciende (st st1 : Estado) : Prop :=
  st1.distancias.length = st.distancias.length ∧ st1.previo.length = st.previo.length ∧
  ∀ z, st1.dist z ≤ st.dist z ∧ (st1.dist z = st.dist z → st1.prev z = st.prev z)

/-! ## Vectors -/

theorem length_escribir {α : Type} (xs : List α) (i : Int) (x : α) :
    (escribir xs i x).length = xs.length := by
  unfold escribir
  split <;> simp

theorem leer_escribir_eq {α : Type} (xs : List α) (i : Int) (x d : α)
    (h0 : 0 ≤ i) (h1 : i < (xs.length : Int)) : leer (escribir xs i x) i d = x := by
  unfold leer escribir
  have hlt : i.toNat < xs.length := by omega
  simp [not_lt.mpr h0, List.getD_eq_getElem?_getD, List.getElem?_set, hlt]

theorem leer_escribir_ne {α : Type} (xs : List α) (i j : Int) (x d : α)
    (h : i ≠ j) : leer (escribir xs i x) j d = leer xs j d := by
  unfold leer escribir
  by_cases hj : j < 0
  · simp [hj]
  · by_cases hi : i < 0
    · simp [hi]
    · have hne : i.toNat ≠ j.toNat := by omega
      simp [hi, hj, List.getD_eq_getElem?_getD, List.getElem?_set, hne]

theorem leer_mem {α : Type} (xs : List α) (i : Int) (d : α)
    (h0 : 0 ≤ i) (h1 : i < (xs.length : Int)) : leer xs i d ∈ xs := by
  unfold leer
  have hlt : i.toNat < xs.length := by omega
  simp [not_lt.mpr h0, List.getD_eq_getElem?_getD, List.getElem?_eq_getElem hlt]

theorem leer_fuera {α : Type} (xs : List α) (i : Int) (d : α)
    (h : i < 0 ∨ (xs.length : Int) ≤ i) : leer xs i d = d := by
  unfold leer
  by_cases hi : i < 0
  · simp [hi]
  · have hge : xs.length ≤ i.toNat := by omega
    simp [hi, List.getD_eq_getElem?_getD, List.getElem?_eq_none hge]

theorem mem_escribir {α : Type} (xs : List α) (i : Int) (x y : α)
    (h : y ∈ escribir xs i x) : y = x ∨ y ∈ xs := by
  unfold escribir at h
  split at h
  · exact Or.inr h
  · rcases List.mem_or_eq_of_mem_set h with h1 | h1
    · exact Or.inr h1
    · exact Or.inl h1

theorem leer_replicate {α : Type} (n : Nat) (a d : α) (i : Int)
    (h0 : 0 ≤ i) (h1 : i < (n : Int)) : leer (List.replicate n a) i d = a := by
  have h := leer_mem (List.replicate n a) i d h0 (by simpa using h1)
  exact List.eq_of_mem_replicate h

/-! ## 32-bit wrap -/

theorem wrap32_rango (x : Int) : -2147483648 ≤ wrap32 x ∧ wrap32 x ≤ 2147483647 := by
  unfold wrap32
  omega

theorem wrap32_id (x : Int) (h0 : -2147483648 ≤ x) (h1 : x ≤ 2147483647) : wrap32 x = x := by
  unfold wrap32
  omega

theorem wrap32_le (x : Int) (h0 : -2147483648 ≤ x) : wrap32 x ≤ x := by
  unfold wrap32
  omega

/-! ## Name lookup -/

theorem obtenerIdNodoDesde_spec (nombre : String) (ds : List String) (i : Nat)
    (h : obtenerIdNodoDesde nombre ds i ≠ -1) :
    (i : Int) ≤ obtenerIdNodoDesde nombre ds i ∧
    obtenerIdNodoDesde nombre ds i < (i : Int) + ds.length ∧
    ds.getD (obtenerIdNodoDesde nombre ds i - i).toNat "" = nombre := by
  induction ds generalizing i with
  | nil => simp [obtenerIdNodoDesde] at h
  | cons d ds ih =>
    unfold obtenerIdNodoDesde at h ⊢
    by_cases hd : d = nombre
    · simp [hd]
    · simp only [hd, if_false] at h ⊢
      obtain ⟨h1, h2, h3⟩ := ih (i + 1) h
      refine ⟨by omega, by simp only [List.length_cons]; push_cast at h2 ⊢; omega, ?_⟩
      have : (obtenerIdNodoDesde nombre ds (i + 1) - (i : Int)).toNat
          = (obtenerIdNodoDesde nombre ds (i + 1) - ((i + 1 : Nat) : Int)).toNat + 1 := by
        push_cast at h1 ⊢; omega
      rw [this, List.getD_cons_succ]
      exact h3

theorem obtenerIdNodo_spec (g : grafo) (nombre : String) (h : g.obtenerIdNodo nombre ≠ -1) :
    0 ≤ g.obtenerIdNodo nombre ∧ g.obtenerIdNodo nombre < (g.departamentos.length : Int) ∧
    leer g.departamentos (g.obtenerIdNodo nombre) "" = nombre := by
  obtain ⟨h1, h2, h3⟩ := obtenerIdNodoDesde_spec nombre g.departamentos 0 h
  unfold grafo.obtenerIdNodo at *
  refine ⟨by simpa using h1, by simpa using h2, ?_⟩
  unfold leer
  have : ¬ obtenerIdNodoDesde nombre g.departamentos 0 < 0 := by simpa using h1
  simpa [this] using h3

/-! ## The priority queue -/

/-- Lexicographic `≤` on pairs, the negation of `menorPar` the other way round. -/
theorem menorPar_false_iff (a b : Int × Int) :
    menorPar b a = false ↔ a.1 < b.1 ∨ (a.1 = b.1 ∧ a.2 ≤ b.2) := by
  unfold menorPar
  simp only [Bool.or_eq_false_iff, Bool.and_eq_false_iff, decide_eq_false_iff_not]
  constructor
  · rintro ⟨h1, h2⟩
    omega
  · intro h
    omega

theorem minimoPar_mem (a : Int × Int) (q : List (Int × Int)) :
    minimoPar a q = a ∨ minimoPar a q ∈ q := by
  induction q generalizing a with
  | nil => simp [minimoPar]
  | cons b q ih =>
    unfold minimoPar
    rcases ih (if menorPar b a then b else a) with h | h
    · rw [h]
      split
      · right; simp
      · left; rfl
    · right; exact List.mem_cons_of_mem _ h

theorem minimoPar_le (a : Int × Int) (q : List (Int × Int)) :
    menorPar a (minimoPar a q) = false ∧ ∀ x ∈ q, menorPar x (minimoPar a q) = false := by
  induction q generalizing a with
  | nil =>
    simp [minimoPar, menorPar]
  | cons b q ih =>
    unfold minimoPar
    obtain ⟨h1, h2⟩ := ih (if menorPar b a then b else a)
    have key : ∀ x y z : Int × Int, menorPar x y = false → menorPar y z = false →
        menorPar x z = false := by
      intro x y z hxy hyz
      rw [menorPar_false_iff] at *
      omega
    by_cases hba : menorPar b a = true
    · simp only [hba, if_true] at h1 h2 ⊢
      have hab : menorPar a b = false := by
        have := hba
        unfold menorPar at this ⊢
        simp only [Bool.or_eq_true, Bool.and_eq_true, decide_eq_true_eq] at this
        simp only [Bool.or_eq_false_iff, Bool.and_eq_false_iff, decide_eq_false_iff_not]
        omega
      refine ⟨key _ _ _ hab h1, ?_⟩
      intro x hx
      rcases List.mem_cons.mp hx with rfl | hx
      · exact h1
      · exact h2 x hx
    · have hba' : menorPar b a = false := by simpa using hba
      simp only [hba', Bool.false_eq_true, if_false] at h1 h2 ⊢
      refine ⟨h1, ?_⟩
      intro x hx
      rcases List.mem_cons.mp hx with rfl | hx
      · exact key _ _ _ hba' h1
      · exact h2 x hx

theorem top_none (q : List (Int × Int)) (h : top q = none) : q = [] := by
  cases q with
  | nil => rfl
  | cons a q => simp [top] at h

theorem top_mem (q : List (Int × Int)) (e : Int × Int) (h : top q = some e) : e ∈ q := by
  cases q with
  | nil => simp [top] at h
  | cons a q =>
    simp only [top, Option.some.injEq] at h
    rcases minimoPar_mem a q with h1 | h1
    · rw [← h, h1]; simp
    · rw [← h]; exact List.mem_cons_of_mem _ h1

theorem top_le (q : List (Int × Int)) (e : Int × Int) (h : top q = some e) :
    ∀ x ∈ q, e.1 < x.1 ∨ (e.1 = x.1 ∧ e.2 ≤ x.2) := by
  cases q with
  | nil => simp [top] at h
  | cons a q =>
    simp only [top, Option.some.injEq] at h
    obtain ⟨h1, h2⟩ := minimoPar_le a q
    rw [h] at h1 h2
    intro x hx
    rw [← menorPar_false_iff]
    rcases List.mem_cons.mp hx with rfl | hx
    · exact h1
    · exact h2 x hx

theorem top_le_fst (q : List (Int × Int)) (e : Int × Int) (h : top q = some e) :
    ∀ x ∈ q, e.1 ≤ x.1 := by
  intro x hx
  rcases top_le q e h x hx with h1 | h1 <;> omega

/-! ## The inner loop as a fold over the pairs of the record -/

theorem relajar_eq_foldl (u : Int) (r : List Int) (st : Estado) :
    relajar u r st = (pares r).foldl (fun s e => relajarArista u e.1 e.2 s) st := by
  induction r using pares.induct generalizing st with
  | case1 v peso resto ih =>
    simp only [relajar, pares, List.foldl_cons]
    exact ih _
  | case2 r h =>
    cases r with
    | nil => simp [relajar, pares]
    | cons a r =>
      cases r with
      | nil => simp [relajar, pares]
      | cons b r => exact absurd rfl (h a b r)

/-! ## The main loop: fuel, invariants, termination -/

theorem bucle_mono (g : grafo) (t : Int) (fuel : Nat) (st st1 : Estado)
    (h : bucle g t fuel st = some st1) (k : Nat) : bucle g t (fuel + k) st = some st1 := by
  induction fuel generalizing st with
  | zero => simp [bucle] at h
  | succ f ih =>
    have : f + 1 + k = (f + k) + 1 := by omega
    rw [this]
    unfold bucle at h ⊢
    cases hp : paso g t st with
    | termina s => simpa [hp] using h
    | sigue s =>
      simp only [hp] at h ⊢
      exact ih s h

theorem bucle_mono_le (g : grafo) (t : Int) (f1 f2 : Nat) (st st1 : Estado)
    (h : bucle g t f1 st = some st1) (hle : f1 ≤ f2) : bucle g t f2 st = some st1 := by
  obtain ⟨k, rfl⟩ := Nat.exists_eq_add_of_le hle
  exact bucle_mono g t f1 st st1 h k

/-- An invariant of the iterations holds in the state in which the loop is left. -/
theorem bucle_inv (g : grafo) (t : Int) (Inv : Estado → Prop)
    (hpaso : ∀ st st1, Inv st → paso g t st = Paso.sigue st1 → Inv st1)
    (fuel : Nat) (st st1 : Estado) (h0 : Inv st) (h : bucle g t fuel st = some st1) :
    ∃ st0, Inv st0 ∧ paso g t st0 = Paso.termina st1 := by
  induction fuel generalizing st with
  | zero => simp [bucle] at h
  | succ f ih =>
    unfold bucle at h
    cases hp : paso g t st with
    | termina s =>
      simp only [hp, Option.some.injEq] at h
      exact ⟨st, h0, by rw [hp, h]⟩
    | sigue s =>
      simp only [hp] at h
      exact ih s (hpaso st s h0 hp) h

/-- A measure that every iteration decreases bounds the number of iterations. -/
theorem bucle_termina (g : grafo) (t : Int) (Inv : Estado → Prop) (M : Estado → Nat)
    (hpaso : ∀ st st1, Inv st → paso g t st = Paso.sigue st1 → Inv st1 ∧ M st1 < M st)
    (fuel : Nat) (st : Estado) (h0 : Inv st) (hM : M st < fuel) :
    ∃ st1, bucle g t fuel st = some st1 := by
  induction fuel generalizing st with
  | zero => omega
  | succ f ih =>
    unfold bucle
    cases hp : paso g t st with
    | termina s => exact ⟨s, rfl⟩
    | sigue s =>
      obtain ⟨hi, hm⟩ := hpaso st s h0 hp
      exact ih s hi (by omega)

theorem reconstruir_mono (deps : List String) (prev : List Int) (fuel : Nat) (a : Int)
    (acc r : List String) (h : reconstruir deps prev fuel a acc = some r) (k : Nat) :
    reconstruir deps prev (fuel + k) a acc = some r := by
  induction fuel generalizing a acc with
  | zero => simp [reconstruir] at h
  | succ f ih =>
    have : f + 1 + k = (f + k) + 1 := by omega
    rw [this]
    unfold reconstruir at h ⊢
    by_cases ha : a = -1
    · simpa [ha] using h
    · simp only [ha, if_false] at h ⊢
      exact ih _ _ h

/-! ## Fuel and determinism of `calcularRutaMasCorta` -/

theorem calcular_mono (g : grafo) (inicio fin : String) (fuel : Nat) (r : Salida)
    (h : g.calcularRutaMasCorta inicio fin fuel = some r) (k : Nat) :
    g.calcularRutaMasCorta inicio fin (fuel + k) = some r := by
  unfold grafo.calcularRutaMasCorta at h ⊢
  simp only at h ⊢
  split
  · rename_i hinv
    simpa [hinv] using h
  · rename_i hinv
    simp only [hinv, if_false] at h
    cases hb : bucle g (g.obtenerIdNodo fin) fuel
        (estadoInicial g.departamentos.length (g.obtenerIdNodo inicio)) with
    | none => simp [hb] at h
    | some st =>
      simp only [hb] at h
      rw [bucle_mono g _ fuel _ st hb k]
      simp only
      split
      · rename_i hinf
        simpa [hinf] using h
      · rename_i hinf
        simp only [hinf, if_false] at h
        cases hr : reconstruir g.departamentos st.previo fuel (g.obtenerIdNodo fin) [] with
        | none => simp [hr] at h
        | some c =>
          simp only [hr] at h
          rw [reconstruir_mono _ _ fuel _ _ c hr k]
          exact h

theorem reporta_unico (g : grafo) (inicio fin : String) (r1 r2 : Salida)
    (h1 : reporta g inicio fin r1) (h2 : reporta g inicio fin r2) : r1 = r2 := by
  obtain ⟨f1, h1⟩ := h1
  obtain ⟨f2, h2⟩ := h2
  have e1 := calcular_mono g inicio fin f1 r1 h1 f2
  have e2 := calcular_mono g inicio fin f2 r2 h2 f1
  rw [Nat.add_comm] at e2
  rw [e1] at e2
  exact Option.some.inj e2

/-! ## `agregarVertices` -/

theorem leer_pushBack_eq (nodo : List (List Int)) (i x : Int)
    (h0 : 0 ≤ i) (h1 : i < (nodo.length : Int)) :
    leer (pushBack nodo i x) i [] = leer nodo i [] ++ [x] := by
  unfold pushBack
  exact leer_escribir_eq _ _ _ _ h0 h1

theorem leer_pushBack_ne (nodo : List (List Int)) (i j x : Int) (h : i ≠ j) :
    leer (pushBack nodo i x) j [] = leer nodo j [] := by
  unfold pushBack
  exact leer_escribir_ne _ _ _ _ _ h

theorem length_pushBack (nodo : List (List Int)) (i x : Int) :
    (pushBack nodo i x).length = nodo.length := by
  unfold pushBack
  exact length_escribir _ _ _

theorem agregarVertices_ok (g : grafo) (o d : String) (w : Int)
    (ho : g.obtenerIdNodo o ≠ -1) (hd : g.obtenerIdNodo d ≠ -1) :
    (g.agregarVertices o d w).1 = ResultadoArista.agregada ∧
    (g.agregarVertices o d w).2.departamentos = g.departamentos ∧
    (g.agregarVertices o d w).2.nodo =
      pushBack (pushBack (pushBack (pushBack g.nodo (g.obtenerIdNodo o) (g.obtenerIdNodo d))
        (g.obtenerIdNodo o) w) (g.obtenerIdNodo d) (g.obtenerIdNodo o)) (g.obtenerIdNodo d) w := by
  unfold grafo.agregarVertices
  simp [ho, hd]

theorem agregarVertices_falla (g : grafo) (o d : String) (w : Int)
    (h : g.obtenerIdNodo o = -1 ∨ g.obtenerIdNodo d = -1) :
    g.agregarVertices o d w = (ResultadoArista.nodoNoExiste, g) := by
  unfold grafo.agregarVertices
  simp [h]

/-- The records after a successful `agregarVertices`, read index by index. -/
theorem leer_agregarVertices (g : grafo) (o d : String) (w : Int)
    (hlen : g.nodo.length = g.departamentos.length)
    (ho : g.obtenerIdNodo o ≠ -1) (hd : g.obtenerIdNodo d ≠ -1) (i : Int) :
    leer (g.agregarVertices o d w).2.nodo i [] =
      if i = g.obtenerIdNodo o then
        if i = g.obtenerIdNodo d then leer g.nodo i [] ++ [i, w, i, w]
        else leer g.nodo i [] ++ [g.obtenerIdNodo d, w]
      else if i = g.obtenerIdNodo d then leer g.nodo i [] ++ [g.obtenerIdNodo o, w]
      else leer g.nodo i [] := by
  obtain ⟨ho0, ho1, _⟩ := obtenerIdNodo_spec g o ho
  obtain ⟨hd0, hd1, _⟩ := obtenerIdNodo_spec g d hd
  rw [← hlen] at ho1 hd1
  rw [(agregarVertices_ok g o d w ho hd).2.2]
  by_cases hio : i = g.obtenerIdNodo o
  · by_cases hid : i = g.obtenerIdNodo d
    · have hod : g.obtenerIdNodo o = g.obtenerIdNodo d := by rw [← hio, ← hid]
      simp only [hio, if_true, hod]
      rw [leer_pushBack_eq _ _ _ hd0 (by simpa [length_pushBack] using hd1),
        leer_pushBack_eq _ _ _ hd0 (by simpa [length_pushBack] using hd1),
        leer_pushBack_eq _ _ _ hd0 (by simpa [length_pushBack] using hd1),
        leer_pushBack_eq _ _ _ hd0 (by simpa [length_pushBack] using hd1)]
      simp
    · have hne : g.obtenerIdNodo d ≠ g.obtenerIdNodo o := by
        intro h; exact hid (hio.trans h.symm)
      simp only [hio, if_true, if_neg hne.symm]
      rw [leer_pushBack_ne _ _ _ _ hne, leer_pushBack_ne _ _ _ _ hne,
        leer_pushBack_eq _ _ _ ho0 (by simpa [length_pushBack] using ho1),
        leer_pushBack_eq _ _ _ ho0 (by simpa [length_pushBack] using ho1)]
      simp
  · by_cases hid : i = g.obtenerIdNodo d
    · have hne : g.obtenerIdNodo o ≠ g.obtenerIdNodo d := by
        intro h; exact hio (hid.trans h.symm)
      subst hid
      rw [if_neg hio, if_pos rfl]
      rw [leer_pushBack_eq _ _ _ hd0 (by simpa [length_pushBack] using hd1),
        leer_pushBack_eq _ _ _ hd0 (by simpa [length_pushBack] using hd1),
        leer_pushBack_ne _ _ _ _ hne, leer_pushBack_ne _ _ _ _ hne]
      simp
    · simp only [if_neg hio, if_neg hid]
      rw [leer_pushBack_ne _ _ _ _ (Ne.symm hid), leer_pushBack_ne _ _ _ _ (Ne.symm hid),
        leer_pushBack_ne _ _ _ _ (Ne.symm hio), leer_pushBack_ne _ _ _ _ (Ne.symm hio)]

theorem length_agregarVertices (g : grafo) (o d : String) (w : Int) :
    (g.agregarVertices o d w).2.nodo.length = g.nodo.length ∧
    (g.agregarVertices o d w).2.departamentos = g.departamentos := by
  unfold grafo.agregarVertices
  simp only
  split
  · exact ⟨rfl, rfl⟩
  · simp [length_pushBack]

/-! ## One relaxation -/

theorem dist_rango (st : Estado) (n : Nat) (hlen : st.distancias.length = n) (v : Int)
    (h : st.dist v ≠ INF) : 0 ≤ v ∧ v < (n : Int) := by
  by_contra hc
  apply h
  unfold Estado.dist
  apply leer_fuera
  rw [hlen]
  omega

theorem prev_rango (st : Estado) (n : Nat) (hlen : st.previo.length = n) (v : Int)
    (h : st.prev v ≠ -1) : 0 ≤ v ∧ v < (n : Int) := by
  by_contra hc
  apply h
  unfold Estado.prev
  apply leer_fuera
  rw [hlen]
  omega

theorem relajarArista_caso (u v w : Int) (st : Estado) :
    (¬ wrap32 (st.dist u + w) < st.dist v ∧ relajarArista u v w st = st) ∨
    (wrap32 (st.dist u + w) < st.dist v ∧
      relajarArista u v w st =
        { distancias := escribir st.distancias v (wrap32 (st.dist u + w)),
          previo := escribir st.previo v u,
          pq := (wrap32 (st.dist u + w), v) :: st.pq }) := by
  unfold relajarArista
  by_cases h : wrap32 (st.dist u + w) < st.dist v
  · right; simp [h]
  · left; simp [h]

theorem dist_escribir (ds ps : List Int) (q : List (Int × Int)) (v c z : Int)
    (h0 : 0 ≤ v) (h1 : v < (ds.length : Int)) :
    (Estado.mk (escribir ds v c) ps q).dist z = if z = v then c else (Estado.mk ds ps q).dist z := by
  unfold Estado.dist
  by_cases hz : z = v
  · subst hz
    simp only [if_true]
    exact leer_escribir_eq _ _ _ _ h0 h1
  · simp only [if_neg hz]
    exact leer_escribir_ne _ _ _ _ _ (Ne.symm hz)

theorem prev_escribir (ds ps : List Int) (q : List (Int × Int)) (v c z : Int)
    (h0 : 0 ≤ v) (h1 : v < (ps.length : Int)) :
    (Estado.mk ds (escribir ps v c) q).prev z = if z = v then c else (Estado.mk ds ps q).prev z := by
  unfold Estado.prev
  by_cases hz : z = v
  · subst hz
    simp only [if_true]
    exact leer_escribir_eq _ _ _ _ h0 h1
  · simp only [if_neg hz]
    exact leer_escribir_ne _ _ _ _ _ (Ne.symm hz)

/-- What one relaxation does to the three components, for an in-range neighbour. -/
theorem relajarArista_efecto (u v w : Int) (st : Estado)
    (h0 : 0 ≤ v) (h1 : v < (st.distancias.length : Int)) (h2 : v < (st.previo.length : Int)) :
    (¬ wrap32 (st.dist u + w) < st.dist v ∧ relajarArista u v w st = st) ∨
    (wrap32 (st.dist u + w) < st.dist v ∧
      (∀ z, (relajarArista u v w st).dist z =
        if z = v then wrap32 (st.dist u + w) else st.dist z) ∧
      (∀ z, (relajarArista u v w st).prev z = if z = v then u else st.prev z) ∧
      (relajarArista u v w st).pq = (wrap32 (st.dist u + w), v) :: st.pq ∧
      (relajarArista u v w st).distancias = escribir st.distancias v (wrap32 (st.dist u + w)) ∧
      (relajarArista u v w st).previo = escribir st.previo v u) := by
  rcases relajarArista_caso u v w st with h | ⟨h, e⟩
  · exact Or.inl h
  · right
    refine ⟨h, ?_, ?_, ?_, ?_, ?_⟩
    · intro z; rw [e]; exact dist_escribir _ _ _ _ _ _ h0 h1
    · intro z; rw [e]; exact prev_escribir _ _ _ _ _ _ h0 h2
    · rw [e]
    · rw [e]
    · rw [e]

theorem InvG_mono (g : grafo) (s : Int) (A B : Int → Int → Int → Prop) (st : Estado)
    (hAB : ∀ y v w, B y v w → A y v w) (h : InvG g s A st) : InvG g s B st :=
  { lenD := h.lenD, lenP := h.lenP, rango := h.rango, cola := h.cola, orig := h.orig,
    pend := fun y hy => (h.pend y hy).imp id (fun hr v w hb => hr v w (hAB y v w hb)),
    alcanz := h.alcanz, raiz := h.raiz, previos := h.previos }

theorem relajarArista_InvG (g : grafo) (s : Int) (A : Int → Int → Int → Prop) (st : Estado)
    (u v w : Int) (hI : InvG g s A st) (hu : st.dist u < INF)
    (hv0 : 0 ≤ v) (hv1 : v < (g.departamentos.length : Int)) (harc : Arco g u v w) :
    InvG g s (fun y z p => A y z p ∨ (y = u ∧ z = v ∧ p = w)) (relajarArista u v w st) ∧
    (relajarArista u v w st).dist u < INF := by
  have hvD : v < (st.distancias.length : Int) := by rw [hI.lenD]; exact hv1
  have hvP : v < (st.previo.length : Int) := by rw [hI.lenP]; exact hv1
  have hu0 : 0 ≤ u ∧ u < (g.departamentos.length : Int) :=
    dist_rango st _ hI.lenD u (by omega)
  rcases relajarArista_efecto u v w st hv0 hvD hvP with ⟨hno, e⟩ | ⟨hsi, hd, hp, hq, hD, hP⟩
  · rw [e]
    refine ⟨?_, hu⟩
    refine { lenD := hI.lenD, lenP := hI.lenP, rango := hI.rango, cola := hI.cola,
             orig := hI.orig, pend := ?_, alcanz := hI.alcanz, raiz := hI.raiz,
             previos := hI.previos }
    intro y hy
    rcases hI.pend y hy with h | h
    · exact Or.inl h
    · right
      intro z p hzp
      rcases hzp with hA | ⟨rfl, rfl, rfl⟩
      · exact h z p hA
      · omega
  · have hle : ∀ z, (relajarArista u v w st).dist z ≤ st.dist z := by
      intro z
      rw [hd z]
      split
      · rename_i hz; rw [hz]; omega
      · exact le_refl _
    have hwr := wrap32_rango (st.dist u + w)
    have hvINF : st.dist v ≤ INF := by
      have := hI.rango (st.dist v) (leer_mem _ _ _ hv0 hvD)
      exact this.2
    refine ⟨?_, lt_of_le_of_lt (hle u) hu⟩
    refine { lenD := ?_, lenP := ?_, rango := ?_, cola := ?_, orig := ?_, pend := ?_,
             alcanz := ?_, raiz := ?_, previos := ?_ }
    · rw [hD, length_escribir]; exact hI.lenD
    · rw [hP, length_escribir]; exact hI.lenP
    · intro d hdm
      rw [hD] at hdm
      rcases mem_escribir _ _ _ _ hdm with rfl | hm
      · exact ⟨hwr.1, by unfold INF; exact hwr.2⟩
      · exact hI.rango d hm
    · intro e he
      rw [hq] at he
      rcases List.mem_cons.mp he with rfl | he
      · refine ⟨hv0, hv1, ?_, ?_⟩
        · simp only; rw [hd v]; simp
        · simp only; omega
      · obtain ⟨a, b, c, d⟩ := hI.cola e he
        exact ⟨a, b, le_trans (hle _) c, d⟩
    · exact le_trans (hle s) hI.orig
    · intro y hy
      by_cases hyv : y = v
      · left
        rw [hq, hd y, if_pos hyv, hyv]
        exact List.mem_cons_self _ _
      · have hdy : (relajarArista u v w st).dist y = st.dist y := by rw [hd y, if_neg hyv]
        rw [hdy] at hy ⊢
        rcases hI.pend y hy with h | h
        · left; rw [hq]; exact List.mem_cons_of_mem _ h
        · right
          intro z p hzp
          rcases hzp with hA | ⟨rfl, rfl, rfl⟩
          · exact le_trans (hle z) (h z p hA)
          · rw [hd z, if_pos rfl]
    · intro z hz
      by_cases hzv : z = v
      · obtain ⟨p, hp⟩ := hI.alcanz u hu
        rw [hzv]
        exact ⟨p + w, Recorrido.paso hp harc⟩
      · rw [hd z, if_neg hzv] at hz
        exact hI.alcanz z hz
    · intro z hz hpz
      by_cases hzv : z = v
      · rw [hp z, if_pos hzv] at hpz
        omega
      · rw [hd z, if_neg hzv] at hz
        rw [hp z, if_neg hzv] at hpz
        exact hI.raiz z hz hpz
    · intro z hpz
      by_cases hzv : z = v
      · rw [hp z, if_pos hzv]
        refine ⟨lt_of_le_of_lt (hle u) hu, ?_⟩
        rw [hd z, if_pos hzv]
        omega
      · rw [hp z, if_neg hzv] at hpz ⊢
        obtain ⟨a, b⟩ := hI.previos z hpz
        exact ⟨lt_of_le_of_lt (hle _) a, lt_of_le_of_lt (hle _) b⟩

/-! ## The inner loop and one iteration keep the general invariant -/

theorem foldl_InvG (g : grafo) (s u : Int) (l : List (Int × Int)) :
    ∀ (A : Int → Int → Int → Prop) (st : Estado), InvG g s A st → st.dist u < INF →
    (∀ e ∈ l, 0 ≤ e.1 ∧ e.1 < (g.departamentos.length : Int) ∧ Arco g u e.1 e.2) →
    InvG g s (fun y z p => A y z p ∨ (y = u ∧ (z, p) ∈ l))
      (l.foldl (fun s e => relajarArista u e.1 e.2 s) st) ∧
    (l.foldl (fun s e => relajarArista u e.1 e.2 s) st).dist u < INF := by
  induction l with
  | nil =>
    intro A st hI hu _
    refine ⟨InvG_mono g s A _ st ?_ hI, hu⟩
    intro y v w h
    rcases h with h | ⟨_, h⟩
    · exact h
    · simp at h
  | cons e l ih =>
    intro A st hI hu hl
    obtain ⟨h0, h1, harc⟩ := hl e (List.mem_cons_self _ _)
    obtain ⟨hI1, hu1⟩ := relajarArista_InvG g s A st u e.1 e.2 hI hu h0 h1 harc
    obtain ⟨hI2, hu2⟩ := ih _ _ hI1 hu1 (fun x hx => hl x (List.mem_cons_of_mem _ hx))
    rw [List.foldl_cons]
    refine ⟨InvG_mono g s _ _ _ ?_ hI2, hu2⟩
    intro y v w h
    rcases h with h | ⟨h1, h2⟩
    · exact Or.inl (Or.inl h)
    · rcases List.mem_cons.mp h2 with h3 | h3
      · left; right
        refine ⟨h1, ?_, ?_⟩
        · exact congrArg Prod.fst h3
        · exact congrArg Prod.snd h3
      · exact Or.inr ⟨h1, h3⟩

theorem arco_mem (g : grafo) (y z w : Int) (h : Arco g y z w) :
    0 ≤ y ∧ y < (g.nodo.length : Int) ∧ leer g.nodo y [] ∈ g.nodo := by
  unfold Arco at h
  by_cases hy : 0 ≤ y ∧ y < (g.nodo.length : Int)
  · exact ⟨hy.1, hy.2, leer_mem _ _ _ hy.1 hy.2⟩
  · rw [leer_fuera _ _ _ (by omega)] at h
    simp [pares] at h

theorem arco_rango (g : grafo) (hwf : BienFormado g) (y z w : Int) (h : Arco g y z w) :
    0 ≤ z ∧ z < (g.departamentos.length : Int) := by
  obtain ⟨_, _, hm⟩ := arco_mem g y z w h
  exact hwf.vecinos _ hm (z, w) h

theorem arco_peso (g : grafo) (hpos : PesosNoNegativos g) (y z w : Int) (h : Arco g y z w) :
    0 ≤ w := by
  obtain ⟨_, _, hm⟩ := arco_mem g y z w h
  exact hpos _ hm (z, w) h

/-- How the loop is left. -/
theorem paso_termina (g : grafo) (t : Int) (st st1 : Estado)
    (h : paso g t st = Paso.termina st1) :
    st1.distancias = st.distancias ∧ st1.previo = st.previo ∧
    ((st.pq = [] ∧ st1 = st) ∨
     (∃ d, top st.pq = some (d, t) ∧ d ≤ st.dist t ∧
        st1 = { st with pq := st.pq.erase (d, t) })) := by
  unfold paso at h
  cases htop : top st.pq with
  | none =>
    simp only [htop, Paso.termina.injEq] at h
    subst h
    exact ⟨rfl, rfl, Or.inl ⟨top_none _ htop, rfl⟩⟩
  | some e =>
    obtain ⟨d, u⟩ := e
    simp only [htop] at h
    split at h
    · simp at h
    · rename_i hgt
      split at h
      · rename_i hut
        simp only [Paso.termina.injEq] at h
        subst h
        subst hut
        refine ⟨rfl, rfl, Or.inr ⟨d, rfl, ?_, rfl⟩⟩
        have : ¬ d > st.dist u := hgt
        omega
      · simp at h

/-- How the loop goes on. -/
theorem paso_sigue (g : grafo) (t : Int) (st st1 : Estado)
    (h : paso g t st = Paso.sigue st1) :
    ∃ d u, top st.pq = some (d, u) ∧
      ((d > st.dist u ∧ st1 = { st with pq := st.pq.erase (d, u) }) ∨
       (d ≤ st.dist u ∧ u ≠ t ∧
        st1 = (pares (leer g.nodo u [])).foldl (fun s e => relajarArista u e.1 e.2 s)
          { st with pq := st.pq.erase (d, u) })) := by
  unfold paso at h
  cases htop : top st.pq with
  | none => simp [htop] at h
  | some e =>
    obtain ⟨d, u⟩ := e
    simp only [htop] at h
    refine ⟨d, u, rfl, ?_⟩
    split at h
    · rename_i hgt
      simp only [Paso.sigue.injEq] at h
      exact Or.inl ⟨hgt, h.symm⟩
    · rename_i hgt
      split at h
      · simp at h
      · rename_i hut
        simp only [Paso.sigue.injEq] at h
        right
        have : ¬ d > st.dist u := hgt
        refine ⟨by omega, hut, ?_⟩
        rw [← h, relajar_eq_foldl]

theorem InvG_pop (g : grafo) (s : Int) (st : Estado) (d u : Int)
    (hI : InvG g s (Arco g) st) :
    InvG g s (fun y z p => y ≠ u ∧ Arco g y z p) { st with pq := st.pq.erase (d, u) } ∧
    (d ≠ st.dist u → InvG g s (Arco g) { st with pq := st.pq.erase (d, u) }) := by
  have base : ∀ A : Int → Int → Int → Prop,
      (∀ y, st.dist y < INF → (st.dist y, y) ∈ st.pq.erase (d, u) ∨
        ∀ v w, A y v w → st.dist v ≤ wrap32 (st.dist y + w)) →
      InvG g s A { st with pq := st.pq.erase (d, u) } := by
    intro A hp
    exact { lenD := hI.lenD, lenP := hI.lenP, rango := hI.rango,
            cola := fun e he => hI.cola e (List.mem_of_mem_erase he),
            orig := hI.orig, pend := hp, alcanz := hI.alcanz, raiz := hI.raiz,
            previos := hI.previos }
  constructor
  · apply base
    intro y hy
    by_cases hyu : y = u
    · right
      intro v w hA
      exact absurd hyu hA.1
    · rcases hI.pend y hy with h | h
      · left
        rw [List.mem_erase_of_ne]
        · exact h
        · intro he
          exact hyu (congrArg Prod.snd he)
      · right
        intro v w hA
        exact h v w hA.2
  · intro hne
    apply base
    intro y hy
    rcases hI.pend y hy with h | h
    · left
      rw [List.mem_erase_of_ne]
      · exact h
      · intro he
        have h1 := congrArg Prod.fst he
        have h2 := congrArg Prod.snd he
        simp only at h1 h2
        rw [h2] at h1
        exact hne h1.symm
    · exact Or.inr h

theorem paso_InvG (g : grafo) (hwf : BienFormado g) (s t : Int) (st st1 : Estado)
    (hI : InvG g s (Arco g) st) (h : paso g t st = Paso.sigue st1) :
    InvG g s (Arco g) st1 := by
  obtain ⟨d, u, htop, hc⟩ := paso_sigue g t st st1 h
  have hmem := top_mem _ _ htop
  obtain ⟨hu0, hu1, hud, hdI⟩ := hI.cola _ hmem
  simp only at hu0 hu1 hud hdI
  rcases hc with ⟨hgt, rfl⟩ | ⟨hle, _, rfl⟩
  · exact (InvG_pop g s st d u hI).2 (by omega)
  · have h0 := (InvG_pop g s st d u hI).1
    have hu : (Estado.mk st.distancias st.previo (st.pq.erase (d, u))).dist u < INF := by
      show st.dist u < INF
      omega
    have hl : ∀ e ∈ pares (leer g.nodo u []),
        0 ≤ e.1 ∧ e.1 < (g.departamentos.length : Int) ∧ Arco g u e.1 e.2 := by
      intro e he
      have harc : Arco g u e.1 e.2 := he
      obtain ⟨a, b⟩ := arco_rango g hwf u e.1 e.2 harc
      exact ⟨a, b, harc⟩
    obtain ⟨hI2, _⟩ := foldl_InvG g s u _ _ _ h0 hu hl
    refine InvG_mono g s _ _ _ ?_ hI2
    intro y v w harc
    by_cases hyu : y = u
    · right
      subst hyu
      exact ⟨rfl, harc⟩
    · exact Or.inl ⟨hyu, harc⟩

theorem estadoInicial_InvG (g : grafo) (s : Int) (h0 : 0 ≤ s)
    (h1 : s < (g.departamentos.length : Int)) :
    InvG g s (Arco g) (estadoInicial g.departamentos.length s) := by
  have hd : ∀ v, (estadoInicial g.departamentos.length s).dist v = if v = s then 0 else INF := by
    intro v
    unfold estadoInicial
    rw [dist_escribir _ _ _ _ _ _ h0 (by simpa using h1)]
    split
    · rfl
    · unfold Estado.dist
      by_cases hv : 0 ≤ v ∧ v < (g.departamentos.length : Int)
      · exact leer_replicate _ _ _ _ hv.1 hv.2
      · exact leer_fuera _ _ _ (by simp only [List.length_replicate]; omega)
  have hp : ∀ v, (estadoInicial g.departamentos.length s).prev v = -1 := by
    intro v
    unfold estadoInicial Estado.prev
    by_cases hv : 0 ≤ v ∧ v < (g.departamentos.length : Int)
    · exact leer_replicate _ _ _ _ hv.1 hv.2
    · exact leer_fuera _ _ _ (by simp only [List.length_replicate]; omega)
  have hs : ∀ v, (estadoInicial g.departamentos.length s).dist v < INF → v = s := by
    intro v hv
    rw [hd v] at hv
    by_contra hne
    simp [hne] at hv
  refine { lenD := ?_, lenP := ?_, rango := ?_, cola := ?_, orig := ?_, pend := ?_,
           alcanz := ?_, raiz := ?_, previos := ?_ }
  · simp [estadoInicial, length_escribir]
  · simp [estadoInicial]
  · intro d hdm
    unfold estadoInicial at hdm
    rcases mem_escribir _ _ _ _ hdm with rfl | hm
    · unfold INF; omega
    · rw [List.eq_of_mem_replicate hm]; unfold INF; omega
  · intro e he
    have : e = (0, s) := by simpa [estadoInicial] using he
    subst this
    refine ⟨h0, h1, ?_, ?_⟩
    · simp only; rw [hd s]; simp
    · unfold INF; simp
  · rw [hd s]; simp
  · intro y hy
    have := hs y hy
    subst this
    left
    rw [hd y]
    simp [estadoInicial]
  · intro v hv
    rw [hs v hv]
    exact ⟨0, Recorrido.nulo⟩
  · intro v hv _
    exact hs v hv
  · intro v hv
    exact absurd (hp v) hv

/-! ## Optimality of the recorded distance when the loop is left -/

theorem cota_recorrido (g : grafo) (s : Int) (st : Estado) (B : Int)
    (hI : InvG g s (Arco g) st) (hpos : PesosNoNegativos g) (hB : B ≤ INF)
    (hq : ∀ e ∈ st.pq, B ≤ e.1) :
    ∀ v p, Recorrido g s v p → p < B → st.dist v ≤ p := by
  intro v p hr
  induction hr with
  | nulo => intro _; exact hI.orig
  | @paso b c p w hr harc ih =>
    intro hlt
    have hw := arco_peso g hpos b c w harc
    have hb := ih (by omega)
    have hbI : st.dist b < INF := by omega
    rcases hI.pend b hbI with h | h
    · have := hq _ h
      simp only at this
      omega
    · have h1 := h c w harc
      have hbr := dist_rango st _ hI.lenD b (by omega)
      have hm := hI.rango (st.dist b) (leer_mem _ _ _ hbr.1 (by rw [hI.lenD]; exact hbr.2))
      have h2 := wrap32_le (st.dist b + w) (by omega)
      omega

theorem salida_optima (g : grafo) (s t : Int) (st0 st1 : Estado)
    (hI : InvG g s (Arco g) st0) (hpos : PesosNoNegativos g)
    (hfin : paso g t st0 = Paso.termina st1) (hne : st1.dist t ≠ INF) :
    ∀ p, Recorrido g s t p → st1.dist t ≤ p := by
  obtain ⟨hD, _, hc⟩ := paso_termina g t st0 st1 hfin
  have hdist : ∀ v, st1.dist v = st0.dist v := by
    intro v; unfold Estado.dist; rw [hD]
  intro p hr
  rw [hdist] at hne ⊢
  have htr := dist_rango st0 _ hI.lenD t hne
  have htI := (hI.rango (st0.dist t) (leer_mem _ _ _ htr.1 (by rw [hI.lenD]; exact htr.2))).2
  rcases hc with ⟨hq, _⟩ | ⟨d, htop, hle, _⟩
  · by_cases hp : p < INF
    · exact cota_recorrido g s st0 INF hI hpos (le_refl _) (by simp [hq]) t p hr hp
    · omega
  · by_contra hlt
    have hdt : st0.dist t ≤ d := (hI.cola _ (top_mem _ _ htop)).2.2.1
    have := cota_recorrido g s st0 (st0.dist t) hI hpos htI
      (fun e he => by have := top_le_fst _ _ htop e he; simp only at this; omega)
      t p hr (by omega)
    omega

/-! ## Path reconstruction: the endpoints -/

theorem reconstruir_extremos (g : grafo) (s : Int) (A : Int → Int → Int → Prop) (st : Estado)
    (hI : InvG g s A st) :
    ∀ (fuel : Nat) (a : Int) (acc r : List String), st.dist a < INF →
      reconstruir g.departamentos st.previo fuel a acc = some r →
      ∃ l, r = acc ++ l ∧ l.head? = some (leer g.departamentos a "") ∧
        l.getLast? = some (leer g.departamentos s "") := by
  intro fuel
  induction fuel with
  | zero => intro a acc r _ h; simp [reconstruir] at h
  | succ f ih =>
    intro a acc r ha h
    have har := dist_rango st _ hI.lenD a (by omega)
    unfold reconstruir at h
    have hne : a ≠ -1 := by omega
    simp only [hne, if_false] at h
    by_cases hp : st.prev a = -1
    · have hp' : leer st.previo a (-1) = -1 := hp
      rw [hp'] at h
      have has := hI.raiz a ha hp
      cases f with
      | zero => simp [reconstruir] at h
      | succ f2 =>
        unfold reconstruir at h
        simp only [if_true, Option.some.injEq] at h
        refine ⟨[leer g.departamentos a ""], h.symm, by simp, ?_⟩
        rw [has]; simp
    · obtain ⟨hpd, _⟩ := hI.previos a hp
      obtain ⟨l, hl, hh, hlast⟩ := ih (leer st.previo a (-1)) _ r hpd h
      refine ⟨leer g.departamentos a "" :: l, ?_, by simp, ?_⟩
      · rw [hl]; simp
      · cases l with
        | nil => simp at hh
        | cons x l => rw [List.getLast?_cons_cons]; exact hlast

/-! ## Termination of the main loop -/

theorem sum_map_set (f : Int → Int) : ∀ (ds : List Int) (i : Nat) (c d : Int),
    i < ds.length →
    ((ds.set i c).map f).sum = (ds.map f).sum - f (ds.getD i d) + f c := by
  intro ds
  induction ds with
  | nil => intro i c d h; simp at h
  | cons x ds ih =>
    intro i c d h
    cases i with
    | zero => simp; ring
    | succ i =>
      simp only [List.set_cons_succ, List.map_cons, List.sum_cons, List.getD_cons_succ]
      rw [ih i c d (by simpa using h)]
      ring

theorem suma_escribir (f : Int → Int) (ds : List Int) (v c d : Int)
    (h0 : 0 ≤ v) (h1 : v < (ds.length : Int)) :
    ((escribir ds v c).map f).sum = (ds.map f).sum - f (leer ds v d) + f c := by
  unfold escribir leer
  have hlt : v.toNat < ds.length := by omega
  simp only [not_lt.mpr h0, if_false]
  exact sum_map_set f ds v.toNat c d hlt

theorem potencial_nonneg (ds : List Int) (h : ∀ d ∈ ds, -2147483648 ≤ d) :
    0 ≤ (ds.map (fun d => d + 2147483648)).sum := by
  apply List.sum_nonneg
  intro x hx
  obtain ⟨d, hd, rfl⟩ := List.mem_map.mp hx
  have := h d hd
  omega

theorem relajarArista_medida (g : grafo) (s : Int) (A : Int → Int → Int → Prop) (st : Estado)
    (u v w : Int) (hI : InvG g s A st)
    (hv0 : 0 ≤ v) (hv1 : v < (g.departamentos.length : Int)) :
    medida (relajarArista u v w st) ≤ medida st := by
  have hvD : v < (st.distancias.length : Int) := by rw [hI.lenD]; exact hv1
  have hvP : v < (st.previo.length : Int) := by rw [hI.lenP]; exact hv1
  rcases relajarArista_efecto u v w st hv0 hvD hvP with ⟨_, e⟩ | ⟨hsi, _, _, hq, hD, _⟩
  · rw [e]
  · unfold medida
    have h2 := wrap32_rango (st.dist u + w)
    have h4 : 0 ≤ ((escribir st.distancias v (wrap32 (st.dist u + w))).map
        (fun d => d + 2147483648)).sum := by
      apply potencial_nonneg
      intro d hd
      rcases mem_escribir _ _ _ _ hd with rfl | hm
      · exact h2.1
      · exact (hI.rango d hm).1
    rw [hq, hD]
    rw [suma_escribir _ _ _ _ INF hv0 hvD] at h4 ⊢
    have h3 : wrap32 (st.dist u + w) < leer st.distancias v INF := hsi
    simp only [List.length_cons]
    generalize (st.distancias.map (fun d => d + 2147483648)).sum = S at h4 ⊢
    generalize leer st.distancias v INF = x at h3 h4 ⊢
    generalize wrap32 (st.dist u + w) = y at h2 h3 h4 ⊢
    omega

theorem foldl_medida (g : grafo) (s u : Int) (l : List (Int × Int)) :
    ∀ (A : Int → Int → Int → Prop) (st : Estado), InvG g s A st → st.dist u < INF →
    (∀ e ∈ l, 0 ≤ e.1 ∧ e.1 < (g.departamentos.length : Int) ∧ Arco g u e.1 e.2) →
    medida (l.foldl (fun s e => relajarArista u e.1 e.2 s) st) ≤ medida st := by
  induction l with
  | nil => intro A st _ _ _; exact le_refl _
  | cons e l ih =>
    intro A st hI hu hl
    obtain ⟨h0, h1, harc⟩ := hl e (List.mem_cons_self _ _)
    obtain ⟨hI1, hu1⟩ := relajarArista_InvG g s A st u e.1 e.2 hI hu h0 h1 harc
    have hm := relajarArista_medida g s A st u e.1 e.2 hI h0 h1
    have := ih _ _ hI1 hu1 (fun x hx => hl x (List.mem_cons_of_mem _ hx))
    rw [List.foldl_cons]
    omega

theorem paso_medida (g : grafo) (hwf : BienFormado g) (s t : Int) (st st1 : Estado)
    (hI : InvG g s (Arco g) st) (h : paso g t st = Paso.sigue st1) :
    medida st1 < medida st := by
  obtain ⟨d, u, htop, hc⟩ := paso_sigue g t st st1 h
  have hmem := top_mem _ _ htop
  obtain ⟨hu0, hu1, hud, hdI⟩ := hI.cola _ hmem
  simp only at hu0 hu1 hud hdI
  have hpop : medida { st with pq := st.pq.erase (d, u) } < medida st := by
    unfold medida
    simp only
    rw [List.length_erase_of_mem hmem]
    have := List.length_pos_of_mem hmem
    omega
  rcases hc with ⟨_, rfl⟩ | ⟨hle, _, rfl⟩
  · exact hpop
  · have h0 := (InvG_pop g s st d u hI).1
    have hu : (Estado.mk st.distancias st.previo (st.pq.erase (d, u))).dist u < INF := by
      show st.dist u < INF
      omega
    have hl : ∀ e ∈ pares (leer g.nodo u []),
        0 ≤ e.1 ∧ e.1 < (g.departamentos.length : Int) ∧ Arco g u e.1 e.2 := by
      intro e he
      have harc : Arco g u e.1 e.2 := he
      obtain ⟨a, b⟩ := arco_rango g hwf u e.1 e.2 harc
      exact ⟨a, b, harc⟩
    have := foldl_medida g s u _ _ _ h0 hu hl
    omega

/-- The main loop ends, on every well-formed store. -/
theorem bucle_total (g : grafo) (hwf : BienFormado g) (s t : Int) (st : Estado)
    (hI : InvG g s (Arco g) st) (fuel : Nat) (hf : medida st < fuel) :
    ∃ st1, bucle g t fuel st = some st1 :=
  bucle_termina g t (InvG g s (Arco g)) medida
    (fun a b ha hab => ⟨paso_InvG g hwf s t a b ha hab, paso_medida g hwf s t a b ha hab⟩)
    fuel st hI hf

theorem bucle_final (g : grafo) (hwf : BienFormado g) (s t : Int) (st st1 : Estado)
    (hI : InvG g s (Arco g) st) (fuel : Nat) (h : bucle g t fuel st = some st1) :
    ∃ st0, InvG g s (Arco g) st0 ∧ paso g t st0 = Paso.termina st1 :=
  bucle_inv g t (InvG g s (Arco g)) (fun a b ha hab => paso_InvG g hwf s t a b ha hab)
    fuel st st1 hI h

/-! ## Reading the result of `calcularRutaMasCorta` -/

theorem calcular_ruta (g : grafo) (a b : String) (fuel : Nat) (c : Int) (camino : List String)
    (h : g.calcularRutaMasCorta a b fuel = some (Salida.ruta c camino)) :
    g.obtenerIdNodo a ≠ -1 ∧ g.obtenerIdNodo b ≠ -1 ∧
    ∃ st r, bucle g (g.obtenerIdNodo b) fuel
        (estadoInicial g.departamentos.length (g.obtenerIdNodo a)) = some st ∧
      st.dist (g.obtenerIdNodo b) ≠ INF ∧ c = st.dist (g.obtenerIdNodo b) ∧
      reconstruir g.departamentos st.previo fuel (g.obtenerIdNodo b) [] = some r ∧
      camino = r.reverse := by
  unfold grafo.calcularRutaMasCorta at h
  simp only at h
  split at h
  · simp at h
  · rename_i hinv
    have hinv' : g.obtenerIdNodo a ≠ -1 ∧ g.obtenerIdNodo b ≠ -1 := by
      constructor
      · intro hc; exact hinv (Or.inl hc)
      · intro hc; exact hinv (Or.inr hc)
    refine ⟨hinv'.1, hinv'.2, ?_⟩
    cases hb : bucle g (g.obtenerIdNodo b) fuel
        (estadoInicial g.departamentos.length (g.obtenerIdNodo a)) with
    | none => simp [hb] at h
    | some st =>
      simp only [hb] at h
      split at h
      · simp at h
      · rename_i hinf
        cases hr : reconstruir g.departamentos st.previo fuel (g.obtenerIdNodo b) [] with
        | none => simp [hr] at h
        | some r =>
          simp only [hr, Option.some.injEq, Salida.ruta.injEq] at h
          exact ⟨st, r, rfl, hinf, h.1.symm, hr, h.2.symm⟩

theorem calcular_sinRuta (g : grafo) (a b : String) (fuel : Nat)
    (h : g.calcularRutaMasCorta a b fuel = some Salida.sinRuta) :
    g.obtenerIdNodo a ≠ -1 ∧ g.obtenerIdNodo b ≠ -1 ∧
    ∃ st, bucle g (g.obtenerIdNodo b) fuel
        (estadoInicial g.departamentos.length (g.obtenerIdNodo a)) = some st ∧
      st.dist (g.obtenerIdNodo b) = INF := by
  unfold grafo.calcularRutaMasCorta at h
  simp only at h
  split at h
  · simp at h
  · rename_i hinv
    have hinv' : g.obtenerIdNodo a ≠ -1 ∧ g.obtenerIdNodo b ≠ -1 := by
      constructor
      · intro hc; exact hinv (Or.inl hc)
      · intro hc; exact hinv (Or.inr hc)
    refine ⟨hinv'.1, hinv'.2, ?_⟩
    cases hb : bucle g (g.obtenerIdNodo b) fuel
        (estadoInicial g.departamentos.length (g.obtenerIdNodo a)) with
    | none => simp [hb] at h
    | some st =>
      simp only [hb] at h
      split at h
      · rename_i hinf
        exact ⟨st, rfl, hinf⟩
      · cases hr : reconstruir g.departamentos st.previo fuel (g.obtenerIdNodo b) [] with
        | none => simp [hr] at h
        | some r => simp [hr] at h

theorem calcular_sinRuta_intro (g : grafo) (a b : String) (fuel : Nat) (st : Estado)
    (ha : g.obtenerIdNodo a ≠ -1) (hb : g.obtenerIdNodo b ≠ -1)
    (hbu : bucle g (g.obtenerIdNodo b) fuel
        (estadoInicial g.departamentos.length (g.obtenerIdNodo a)) = some st)
    (hd : st.dist (g.obtenerIdNodo b) = INF) :
    g.calcularRutaMasCorta a b fuel = some Salida.sinRuta := by
  unfold grafo.calcularRutaMasCorta
  simp [ha, hb, hbu, hd]

theorem calcular_ruta_intro (g : grafo) (a b : String) (f1 f2 : Nat) (st : Estado)
    (r : List String)
    (ha : g.obtenerIdNodo a ≠ -1) (hb : g.obtenerIdNodo b ≠ -1)
    (hbu : bucle g (g.obtenerIdNodo b) f1
        (estadoInicial g.departamentos.length (g.obtenerIdNodo a)) = some st)
    (hd : st.dist (g.obtenerIdNodo b) ≠ INF)
    (hr : reconstruir g.departamentos st.previo f2 (g.obtenerIdNodo b) [] = some r) :
    g.calcularRutaMasCorta a b (max f1 f2) =
      some (Salida.ruta (st.dist (g.obtenerIdNodo b)) r.reverse) := by
  have h1 := bucle_mono_le g _ f1 (max f1 f2) _ st hbu (le_max_left _ _)
  obtain ⟨k, hk⟩ := Nat.exists_eq_add_of_le (le_max_right f1 f2)
  have h2 := reconstruir_mono _ _ f2 _ _ r hr k
  rw [← hk] at h2
  unfold grafo.calcularRutaMasCorta
  simp [ha, hb, h1, hd, h2]

/-! ## Walks as lists and as derivations -/

theorem Recorrido_cons (g : grafo) (a b c w p : Int) (harc : Arco g a b w)
    (h : Recorrido g b c p) : Recorrido g a c (w + p) := by
  induction h with
  | nulo =>
    have := Recorrido.paso (Recorrido.nulo (g := g) (a := a)) harc
    simpa using this
  | paso _ h2 ih =>
    have := Recorrido.paso ih h2
    rw [← add_assoc]
    exact this

theorem esRecorrido_Recorrido (g : grafo) : ∀ (nodos pesos : List Int) (a b : Int),
    esRecorrido g nodos pesos → nodos.head? = some a → nodos.getLast? = some b →
    Recorrido g a b pesos.sum := by
  intro nodos
  induction nodos with
  | nil => intro pesos a b h; simp [esRecorrido] at h
  | cons i resto ih =>
    intro pesos a b h hh hl
    simp only [List.head?_cons, Option.some.injEq] at hh
    subst hh
    cases resto with
    | nil =>
      cases pesos with
      | nil =>
        simp only [List.getLast?_singleton, Option.some.injEq] at hl
        subst hl
        simpa using Recorrido.nulo
      | cons w ws => simp [esRecorrido] at h
    | cons j resto =>
      cases pesos with
      | nil => simp [esRecorrido] at h
      | cons w ws =>
        simp only [esRecorrido] at h
        rw [List.getLast?_cons_cons] at hl
        have := ih ws j b h.2 (by simp) hl
        simp only [List.sum_cons]
        exact Recorrido_cons g i j b w _ h.1 this

theorem esRecorrido_snoc (g : grafo) (u v w : Int) (harc : Arco g u v w) :
    ∀ (nodos pesos : List Int), esRecorrido g nodos pesos → nodos.getLast? = some u →
      esRecorrido g (nodos ++ [v]) (pesos ++ [w]) := by
  intro nodos
  induction nodos with
  | nil => intro pesos h1 _; simp [esRecorrido] at h1
  | cons i resto ih =>
    intro pesos h1 h3
    cases resto with
    | nil =>
      cases pesos with
      | nil =>
        simp only [List.getLast?_singleton, Option.some.injEq] at h3
        subst h3
        simpa [esRecorrido] using harc
      | cons x ws => simp [esRecorrido] at h1
    | cons j resto =>
      cases pesos with
      | nil => simp [esRecorrido] at h1
      | cons x ws =>
        simp only [esRecorrido] at h1
        rw [List.getLast?_cons_cons] at h3
        have := ih ws h1.2 h3
        simp only [List.cons_append, esRecorrido]
        exact ⟨h1.1, this⟩

theorem mem_of_getLast {α : Type} (l : List α) (x : α) (h : l.getLast? = some x) : x ∈ l :=
  List.mem_of_mem_getLast? h

theorem Recorrido_esRecorrido (g : grafo) (a b p : Int) (h : Recorrido g a b p) :
    ∃ nodos pesos, esRecorrido g nodos pesos ∧ nodos.head? = some a ∧
      nodos.getLast? = some b ∧ pesos.sum = p := by
  induction h with
  | nulo => exact ⟨[a], [], by simp [esRecorrido], by simp, by simp, by simp⟩
  | @paso b c p w _ harc ih =>
    obtain ⟨nodos, pesos, h1, h2, h3, h4⟩ := ih
    refine ⟨nodos ++ [c], pesos ++ [w], esRecorrido_snoc g b c w harc nodos pesos h1 h3,
      ?_, by simp, by simp [h4]⟩
    cases nodos with
    | nil => simp at h2
    | cons i resto => simpa using h2

/-! ## Stores built by the interface are well formed -/

theorem pares_append_par (r r2 : List Int) (h : r.length % 2 = 0) :
    pares (r ++ r2) = pares r ++ pares r2 := by
  induction r using pares.induct with
  | case1 v peso resto ih =>
    simp only [List.cons_append, pares, List.cons.injEq, true_and]
    apply ih
    simp only [List.length_cons] at h
    omega
  | case2 r hr =>
    cases r with
    | nil => simp [pares]
    | cons a r =>
      cases r with
      | nil => simp at h
      | cons b r => exact absurd rfl (hr a b r)

theorem mem_iff_leer {α : Type} (xs : List α) (x d : α) :
    x ∈ xs ↔ ∃ i : Int, 0 ≤ i ∧ i < (xs.length : Int) ∧ leer xs i d = x := by
  constructor
  · intro h
    obtain ⟨n, hn, hx⟩ := List.mem_iff_getElem.mp h
    refine ⟨(n : Int), by omega, by omega, ?_⟩
    unfold leer
    have : ¬ ((n : Int) < 0) := by omega
    simp [this, List.getD_eq_getElem?_getD, List.getElem?_eq_getElem hn, hx]
  · rintro ⟨i, h0, h1, rfl⟩
    exact leer_mem _ _ _ h0 h1

theorem BienFormado_agregarNodo (g : grafo) (nombre : String) (h : BienFormado g) :
    BienFormado (g.agregarNodo nombre) := by
  unfold grafo.agregarNodo
  refine { longitud := ?_, par := ?_, vecinos := ?_ }
  · simp [h.longitud]
  · intro r hr
    simp only [List.mem_append, List.mem_singleton] at hr
    rcases hr with hr | rfl
    · exact h.par r hr
    · rfl
  · intro r hr e he
    simp only [List.mem_append, List.mem_singleton] at hr
    rcases hr with hr | rfl
    · have := h.vecinos r hr e he
      simp only [List.length_append, List.length_singleton]
      push_cast
      omega
    · simp [pares] at he

theorem BienFormado_agregarVertices (g : grafo) (o d : String) (w : Int) (h : BienFormado g) :
    BienFormado (g.agregarVertices o d w).2 := by
  by_cases hres : g.obtenerIdNodo o = -1 ∨ g.obtenerIdNodo d = -1
  · rw [agregarVertices_falla g o d w hres]
    exact h
  · have ho : g.obtenerIdNodo o ≠ -1 := fun hc => hres (Or.inl hc)
    have hd : g.obtenerIdNodo d ≠ -1 := fun hc => hres (Or.inr hc)
    obtain ⟨ho0, ho1, _⟩ := obtenerIdNodo_spec g o ho
    obtain ⟨hd0, hd1, _⟩ := obtenerIdNodo_spec g d hd
    obtain ⟨hlen, hdeps⟩ := length_agregarVertices g o d w
    have hrec : ∀ r ∈ (g.agregarVertices o d w).2.nodo, ∃ r0 ∈ g.nodo,
        r = r0 ∨ r = r0 ++ [g.obtenerIdNodo d, w] ∨ r = r0 ++ [g.obtenerIdNodo o, w] ∨
        r = r0 ++ [g.obtenerIdNodo o, w, g.obtenerIdNodo o, w] := by
      intro r hr
      obtain ⟨i, hi0, hi1, hi⟩ := (mem_iff_leer _ r []).mp hr
      rw [hlen] at hi1
      rw [leer_agregarVertices g o d w h.longitud ho hd i] at hi
      refine ⟨leer g.nodo i [], leer_mem _ _ _ hi0 hi1, ?_⟩
      split at hi
      · rename_i hio
        split at hi
        · right; right; right
          rw [← hi, ← hio]
        · right; left
          exact hi.symm
      · split at hi
        · right; right; left
          exact hi.symm
        · left
          exact hi.symm
    refine { longitud := ?_, par := ?_, vecinos := ?_ }
    · rw [hlen, hdeps]; exact h.longitud
    · intro r hr
      obtain ⟨r0, hr0, hc⟩ := hrec r hr
      have := h.par r0 hr0
      rcases hc with rfl | rfl | rfl | rfl
      · exact this
      · simp only [List.length_append, List.length_cons, List.length_nil]; omega
      · simp only [List.length_append, List.length_cons, List.length_nil]; omega
      · simp only [List.length_append, List.length_cons, List.length_nil]; omega
    · intro r hr e he
      obtain ⟨r0, hr0, hc⟩ := hrec r hr
      have hpar := h.par r0 hr0
      have hv := h.vecinos r0 hr0
      rw [hdeps]
      rcases hc with rfl | rfl | rfl | rfl
      · exact hv e he
      · rw [pares_append_par _ _ hpar] at he
        simp only [pares, List.mem_append, List.mem_singleton] at he
        rcases he with he | rfl
        · exact hv e he
        · exact ⟨hd0, hd1⟩
      · rw [pares_append_par _ _ hpar] at he
        simp only [pares, List.mem_append, List.mem_singleton] at he
        rcases he with he | rfl
        · exact hv e he
        · exact ⟨ho0, ho1⟩
      · rw [pares_append_par _ _ hpar] at he
        simp only [pares, List.mem_append, List.mem_cons, List.mem_singleton] at he
        rcases he with he | rfl | rfl | he
        · exact hv e he
        · exact ⟨ho0, ho1⟩
        · exact ⟨ho0, ho1⟩
        · simp at he

theorem Construido_BienFormado (g : grafo) (h : Construido g) : BienFormado g := by
  induction h with
  | vacio =>
    exact { longitud := rfl, par := by simp [grafo.vacio],
            vecinos := by simp [grafo.vacio] }
  | nodo nombre _ ih => exact BienFormado_agregarNodo _ nombre ih
  | arista o d w _ _ ih => exact BienFormado_agregarVertices _ o d w ih

theorem Construido_foldl_nodos (ns : List String) :
    ∀ g : grafo, Construido g → Construido (ns.foldl (fun g n => g.agregarNodo n) g) := by
  induction ns with
  | nil => intro g h; exact h
  | cons n ns ih => intro g h; exact ih _ (Construido.nodo n h)

theorem Construido_foldl_aristas (es : List (String × String × Int)) :
    ∀ g : grafo, Construido g → (∀ e ∈ es, esInt32 e.2.2) →
      Construido (es.foldl (fun g e => (g.agregarVertices e.1 e.2.1 e.2.2).2) g) := by
  induction es with
  | nil => intro g h _; exact h
  | cons e es ih =>
    intro g h hw
    exact ih _ (Construido.arista e.1 e.2.1 e.2.2 (hw e (List.mem_cons_self _ _)) h)
      (fun x hx => hw x (List.mem_cons_of_mem _ hx))

theorem redMain_Construido : Construido redMain := by
  unfold redMain
  apply Construido_foldl_aristas
  · apply Construido_foldl_nodos
    exact Construido.vacio
  · decide

/-- The store that `main` builds, written out. -/
theorem redMain_eq : redMain = grafo.mk
    [[2, 6, 3, 11, 4, 10, 5, 12], [8, 40, 9, 40, 11, 40], [0, 6, 3, 30, 6, 35, 7, 125],
     [0, 11, 2, 30, 4, 21, 7, 50, 8, 90], [0, 10, 3, 21, 8, 70, 9, 80], [0, 12, 9, 75],
     [2, 35, 7, 91, 10, 24], [2, 125, 3, 50, 6, 91, 11, 50], [3, 90, 4, 70, 11, 10, 1, 40],
     [4, 80, 5, 75, 1, 40], [6, 24, 11, 35], [7, 50, 8, 10, 10, 35, 1, 40]]
    ["A", "B", "1", "2", "3", "4", "5", "6", "7", "8", "9", "10"] := by
  decide!

theorem redMain_PesosNoNegativos : PesosNoNegativos redMain := by
  rw [redMain_eq]
  unfold PesosNoNegativos
  decide

/-- The run on a well-formed store from a registered source: the state in which the
loop is left satisfies the general invariant. -/
theorem calcular_final (g : grafo) (hwf : BienFormado g) (a b : String) (fuel : Nat)
    (st : Estado) (ha : g.obtenerIdNodo a ≠ -1)
    (h : bucle g (g.obtenerIdNodo b) fuel
      (estadoInicial g.departamentos.length (g.obtenerIdNodo a)) = some st) :
    ∃ st0, InvG g (g.obtenerIdNodo a) (Arco g) st0 ∧
      paso g (g.obtenerIdNodo b) st0 = Paso.termina st := by
  obtain ⟨h0, h1, _⟩ := obtenerIdNodo_spec g a ha
  exact bucle_final g hwf _ _ _ st (estadoInicial_InvG g _ h0 h1) fuel h

theorem calcular_total (g : grafo) (hwf : BienFormado g) (a b : String)
    (ha : g.obtenerIdNodo a ≠ -1) :
    ∃ N st, ∀ fuel, N ≤ fuel → bucle g (g.obtenerIdNodo b) fuel
      (estadoInicial g.departamentos.length (g.obtenerIdNodo a)) = some st := by
  obtain ⟨h0, h1, _⟩ := obtenerIdNodo_spec g a ha
  obtain ⟨st, hst⟩ := bucle_total g hwf _ (g.obtenerIdNodo b) _ (estadoInicial_InvG g _ h0 h1)
    (medida (estadoInicial g.departamentos.length (g.obtenerIdNodo a)) + 1) (by omega)
  exact ⟨_, st, fun fuel hf => bucle_mono_le g _ _ fuel _ st hst hf⟩

theorem InvG_dist_le (g : grafo) (s : Int) (A : Int → Int → Int → Prop) (st : Estado)
    (hI : InvG g s A st) (v : Int) : st.dist v ≤ INF := by
  by_cases hv : 0 ≤ v ∧ v < (st.distancias.length : Int)
  · exact (hI.rango _ (leer_mem _ _ _ hv.1 hv.2)).2
  · unfold Estado.dist
    rw [leer_fuera _ _ _ (by omega)]

/-- The run from a source equal to the target. -/
theorem calcular_mismo (g : grafo) (x : String) (hx : g.obtenerIdNodo x ≠ -1) (f : Nat) :
    g.calcularRutaMasCorta x x (f + 2) = some (Salida.ruta 0 [x]) := by
  obtain ⟨h0, h1, hname⟩ := obtenerIdNodo_spec g x hx
  have hd : ∀ q, (Estado.mk (escribir (List.replicate g.departamentos.length INF)
      (g.obtenerIdNodo x) 0) (List.replicate g.departamentos.length (-1)) q).dist
      (g.obtenerIdNodo x) = 0 := by
    intro q
    rw [dist_escribir _ _ _ _ _ _ h0 (by simpa using h1)]
    simp
  have hpaso : paso g (g.obtenerIdNodo x)
      (estadoInicial g.departamentos.length (g.obtenerIdNodo x)) =
      Paso.termina (Estado.mk
        (escribir (List.replicate g.departamentos.length INF) (g.obtenerIdNodo x) 0)
        (List.replicate g.departamentos.length (-1)) []) := by
    unfold paso estadoInicial
    simp only [top, minimoPar, List.erase_cons_head]
    rw [hd]
    simp
  have hb : bucle g (g.obtenerIdNodo x) (f + 2)
      (estadoInicial g.departamentos.length (g.obtenerIdNodo x)) =
      some (Estado.mk
        (escribir (List.replicate g.departamentos.length INF) (g.obtenerIdNodo x) 0)
        (List.replicate g.departamentos.length (-1)) []) := by
    show bucle g _ ((f + 1) + 1) _ = _
    unfold bucle
    rw [hpaso]
  have hr : reconstruir g.departamentos (List.replicate g.departamentos.length (-1)) (f + 2)
      (g.obtenerIdNodo x) [] = some [x] := by
    show reconstruir _ _ ((f + 1) + 1) _ _ = _
    unfold reconstruir
    simp only [hx, if_false]
    rw [leer_replicate _ _ _ _ h0 h1, hname]
    unfold reconstruir
    simp
  unfold grafo.calcularRutaMasCorta
  simp only [hx, or_self, if_false, hb, hd, hr]
  simp [INF]

theorem redPartida_sin_recorrido (v p : Int) (h : Recorrido redPartida 0 v p) :
    v = 0 ∨ v = 1 := by
  induction h with
  | nulo => exact Or.inl rfl
  | @paso b c p w _ harc ih =>
    have hnodo : redPartida.nodo = [[1, 5], [0, 5], []] := by decide
    unfold Arco at harc
    rw [hnodo] at harc
    rcases ih with rfl | rfl
    · simp [leer, pares] at harc
      omega
    · simp [leer, pares] at harc
      omega

/-! ## Arcs and stored weights of a store built by the interface -/

theorem arco_agregarNodo (g : grafo) (nombre : String) (y z p : Int) :
    Arco (g.agregarNodo nombre) y z p ↔ Arco g y z p := by
  unfold Arco grafo.agregarNodo
  simp only
  by_cases hy : 0 ≤ y ∧ y < (g.nodo.length : Int)
  · have : leer (g.nodo ++ [[]]) y [] = leer g.nodo y [] := by
      unfold leer
      have h1 : ¬ y < 0 := by omega
      have h2 : y.toNat < g.nodo.length := by omega
      simp [h1, List.getD_eq_getElem?_getD, List.getElem?_append_left h2]
    rw [this]
  · have h1 : leer g.nodo y [] = [] := leer_fuera _ _ _ (by omega)
    have h2 : leer (g.nodo ++ [[]]) y [] = [] := by
      by_cases hy2 : y = (g.nodo.length : Int)
      · unfold leer
        have h3 : ¬ y < 0 := by omega
        have h4 : y.toNat = g.nodo.length := by omega
        simp [h3, h4, List.getD_eq_getElem?_getD]
      · exact leer_fuera _ _ _ (by simp only [List.length_append, List.length_singleton]; omega)
    rw [h1, h2]

theorem arco_agregarVertices (g : grafo) (hwf : BienFormado g) (o d : String) (w : Int)
    (ho : g.obtenerIdNodo o ≠ -1) (hd : g.obtenerIdNodo d ≠ -1) (y z p : Int) :
    Arco (g.agregarVertices o d w).2 y z p ↔
      Arco g y z p ∨ (y = g.obtenerIdNodo o ∧ z = g.obtenerIdNodo d ∧ p = w) ∨
      (y = g.obtenerIdNodo d ∧ z = g.obtenerIdNodo o ∧ p = w) := by
  obtain ⟨ho0, ho1, _⟩ := obtenerIdNodo_spec g o ho
  obtain ⟨hd0, hd1, _⟩ := obtenerIdNodo_spec g d hd
  rw [← hwf.longitud] at ho1 hd1
  unfold Arco
  rw [leer_agregarVertices g o d w hwf.longitud ho hd y]
  have hpar : (leer g.nodo y []).length % 2 = 0 := by
    by_cases hy : 0 ≤ y ∧ y < (g.nodo.length : Int)
    · exact hwf.par _ (leer_mem _ _ _ hy.1 hy.2)
    · rw [leer_fuera _ _ _ (by omega)]; rfl
  by_cases hyo : y = g.obtenerIdNodo o
  · by_cases hyd : y = g.obtenerIdNodo d
    · rw [if_pos hyo, if_pos hyd, pares_append_par _ _ hpar]
      simp only [pares, List.mem_append, List.mem_cons, List.mem_singleton, Prod.mk.injEq,
        List.not_mem_nil, or_false]
      constructor
      · rintro (h | ⟨h1, h2⟩ | ⟨h1, h2⟩)
        · exact Or.inl h
        · exact Or.inr (Or.inl ⟨hyo, by rw [h1, ← hyd], h2⟩)
        · exact Or.inr (Or.inl ⟨hyo, by rw [h1, ← hyd], h2⟩)
      · rintro (h | ⟨_, h2, h3⟩ | ⟨_, h2, h3⟩)
        · exact Or.inl h
        · exact Or.inr (Or.inl ⟨by rw [h2, ← hyd], h3⟩)
        · exact Or.inr (Or.inl ⟨by rw [h2, ← hyo], h3⟩)
    · rw [if_pos hyo, if_neg hyd, pares_append_par _ _ hpar]
      simp only [pares, List.mem_append, List.mem_singleton, Prod.mk.injEq]
      constructor
      · rintro (h | ⟨h1, h2⟩)
        · exact Or.inl h
        · exact Or.inr (Or.inl ⟨hyo, h1, h2⟩)
      · rintro (h | ⟨_, h2, h3⟩ | ⟨h1, _, _⟩)
        · exact Or.inl h
        · exact Or.inr ⟨h2, h3⟩
        · exact absurd h1 hyd
  · by_cases hyd : y = g.obtenerIdNodo d
    · rw [if_neg hyo, if_pos hyd, pares_append_par _ _ hpar]
      simp only [pares, List.mem_append, List.mem_singleton, Prod.mk.injEq]
      constructor
      · rintro (h | ⟨h1, h2⟩)
        · exact Or.inl h
        · exact Or.inr (Or.inr ⟨hyd, h1, h2⟩)
      · rintro (h | ⟨h1, _, _⟩ | ⟨_, h2, h3⟩)
        · exact Or.inl h
        · exact absurd h1 hyo
        · exact Or.inr ⟨h2, h3⟩
    · rw [if_neg hyo, if_neg hyd]
      constructor
      · intro h; exact Or.inl h
      · rintro (h | ⟨h1, _, _⟩ | ⟨h1, _, _⟩)
        · exact h
        · exact absurd h1 hyo
        · exact absurd h1 hyd

/-- Undirectedness: in a store built by the interface every entry has its mirror entry. -/
theorem arco_simetrico (g : grafo) (hc : Construido g) (y z p : Int) (h : Arco g y z p) :
    Arco g z y p := by
  induction hc generalizing y z p with
  | vacio =>
    unfold Arco grafo.vacio leer at h
    simp [pares] at h
  | @nodo g0 nombre hc0 ih =>
    rw [arco_agregarNodo g0] at h ⊢
    exact ih y z p h
  | @arista g0 o d w _ hc0 ih =>
    have hwf := Construido_BienFormado g0 hc0
    by_cases hres : g0.obtenerIdNodo o = -1 ∨ g0.obtenerIdNodo d = -1
    · rw [agregarVertices_falla g0 o d w hres] at h ⊢
      exact ih y z p h
    · have ho : g0.obtenerIdNodo o ≠ -1 := fun hc => hres (Or.inl hc)
      have hd : g0.obtenerIdNodo d ≠ -1 := fun hc => hres (Or.inr hc)
      rw [arco_agregarVertices g0 hwf o d w ho hd] at h ⊢
      rcases h with h | ⟨h1, h2, h3⟩ | ⟨h1, h2, h3⟩
      · exact Or.inl (ih y z p h)
      · exact Or.inr (Or.inr ⟨h2, h1, h3⟩)
      · exact Or.inr (Or.inl ⟨h2, h1, h3⟩)

theorem Recorrido_trans (g : grafo) (a b c p q : Int) (h1 : Recorrido g a b p)
    (h2 : Recorrido g b c q) : Recorrido g a c (p + q) := by
  induction h2 with
  | nulo => simpa using h1
  | paso _ harc ih =>
    rw [← add_assoc]
    exact Recorrido.paso ih harc

theorem Recorrido_inverso (g : grafo) (hc : Construido g) (a b p : Int)
    (h : Recorrido g a b p) : Recorrido g b a p := by
  induction h with
  | nulo => exact Recorrido.nulo
  | @paso b c p w _ harc ih =>
    have h1 : Recorrido g c b w := by
      have := Recorrido.paso (Recorrido.nulo (g := g) (a := c)) (arco_simetrico g hc b c w harc)
      simpa using this
    have := Recorrido_trans g c b a w p h1 ih
    rw [add_comm]
    exact this

/-! ### The stored weights -/

theorem sum_map_set_gen {α : Type} (f : α → Int) : ∀ (xs : List α) (i : Nat) (c d : α),
    i < xs.length →
    ((xs.set i c).map f).sum = (xs.map f).sum - f (xs.getD i d) + f c := by
  intro xs
  induction xs with
  | nil => intro i c d h; simp at h
  | cons x xs ih =>
    intro i c d h
    cases i with
    | zero => simp; ring
    | succ i =>
      simp only [List.set_cons_succ, List.map_cons, List.sum_cons, List.getD_cons_succ]
      rw [ih i c d (by simpa using h)]
      ring

theorem suma_escribir_gen {α : Type} (f : α → Int) (xs : List α) (v : Int) (c d : α)
    (h0 : 0 ≤ v) (h1 : v < (xs.length : Int)) :
    ((escribir xs v c).map f).sum = (xs.map f).sum - f (leer xs v d) + f c := by
  unfold escribir leer
  have hlt : v.toNat < xs.length := by omega
  simp only [not_lt.mpr h0, if_false]
  exact sum_map_set_gen f xs v.toNat c d hlt

theorem sumaRegistro_append_par (r : List Int) (a b : Int) (h : r.length % 2 = 0) :
    sumaRegistro (r ++ [a, b]) = sumaRegistro r + b := by
  unfold sumaRegistro
  rw [pares_append_par _ _ h]
  simp [pares]

theorem sumaRegistro_append_uno (r : List Int) (a : Int) (h : r.length % 2 = 0) :
    sumaRegistro (r ++ [a]) = sumaRegistro r := by
  unfold sumaRegistro
  rw [pares_append_par _ _ h]
  simp [pares]

/-- The two `push_back` calls that append the pair `(b, w)` to the record of `a`. -/
theorem pushBack_par (nodo : List (List Int)) (a b w : Int)
    (h0 : 0 ≤ a) (h1 : a < (nodo.length : Int)) (hpar : ∀ r ∈ nodo, r.length % 2 = 0) :
    ((pushBack (pushBack nodo a b) a w).map sumaRegistro).sum =
      (nodo.map sumaRegistro).sum + w ∧
    (∀ r ∈ pushBack (pushBack nodo a b) a w, r.length % 2 = 0) ∧
    (pushBack (pushBack nodo a b) a w).length = nodo.length := by
  have hr := hpar _ (leer_mem nodo a [] h0 h1)
  have e1 : leer (pushBack nodo a b) a [] = leer nodo a [] ++ [b] :=
    leer_pushBack_eq nodo a b h0 h1
  have hl1 : (pushBack nodo a b).length = nodo.length := length_pushBack _ _ _
  refine ⟨?_, ?_, ?_⟩
  · unfold pushBack at e1 ⊢
    rw [suma_escribir_gen sumaRegistro _ a _ [] h0 (by rw [length_escribir]; exact h1), e1,
      suma_escribir_gen sumaRegistro _ a _ [] h0 h1]
    rw [List.append_assoc]
    simp only [List.singleton_append]
    rw [sumaRegistro_append_par _ _ _ hr, sumaRegistro_append_uno _ _ hr]
    ring
  · intro r hrm
    obtain ⟨i, hi0, hi1, rfl⟩ := (mem_iff_leer _ r []).mp hrm
    rw [length_pushBack, length_pushBack] at hi1
    by_cases hia : a = i
    · subst hia
      rw [leer_pushBack_eq _ _ _ h0 (by rw [hl1]; exact h1), e1]
      simp only [List.length_append, List.length_singleton]
      omega
    · rw [leer_pushBack_ne _ _ _ _ hia, leer_pushBack_ne _ _ _ _ hia]
      exact hpar _ (leer_mem _ _ _ hi0 hi1)
  · rw [length_pushBack, length_pushBack]

theorem sumaPesos_agregarNodo (g : grafo) (nombre : String) :
    sumaPesos (g.agregarNodo nombre) = sumaPesos g := by
  unfold sumaPesos grafo.agregarNodo
  simp [sumaRegistro, pares]

theorem sumaPesos_agregarVertices (g : grafo) (hwf : BienFormado g) (o d : String) (w : Int)
    (ho : g.obtenerIdNodo o ≠ -1) (hd : g.obtenerIdNodo d ≠ -1) :
    sumaPesos (g.agregarVertices o d w).2 = sumaPesos g + 2 * w := by
  obtain ⟨ho0, ho1, _⟩ := obtenerIdNodo_spec g o ho
  obtain ⟨hd0, hd1, _⟩ := obtenerIdNodo_spec g d hd
  rw [← hwf.longitud] at ho1 hd1
  unfold sumaPesos
  rw [(agregarVertices_ok g o d w ho hd).2.2]
  obtain ⟨s1, p1, l1⟩ := pushBack_par g.nodo _ (g.obtenerIdNodo d) w ho0 ho1 hwf.par
  obtain ⟨s2, _, _⟩ := pushBack_par _ _ (g.obtenerIdNodo o) w hd0 (by rw [l1]; exact hd1) p1
  rw [s2, s1]
  ring

/-- In a store built by the interface every edge is stored twice. -/
theorem sumaPesos_par (g : grafo) (hc : Construido g) : sumaPesos g = 2 * pesoTotal g := by
  have : sumaPesos g % 2 = 0 := by
    induction hc with
    | vacio => rfl
    | @nodo g0 nombre _ ih => rw [sumaPesos_agregarNodo]; exact ih
    | @arista g0 o d w _ hc0 ih =>
      by_cases hres : g0.obtenerIdNodo o = -1 ∨ g0.obtenerIdNodo d = -1
      · rw [agregarVertices_falla g0 o d w hres]; exact ih
      · have ho : g0.obtenerIdNodo o ≠ -1 := fun hc => hres (Or.inl hc)
        have hd : g0.obtenerIdNodo d ≠ -1 := fun hc => hres (Or.inr hc)
        rw [sumaPesos_agregarVertices g0 (Construido_BienFormado g0 hc0) o d w ho hd]
        omega
  unfold pesoTotal
  omega

theorem pesoTotal_agregarVertices (g : grafo) (hc : Construido g) (o d : String) (w : Int)
    (hw : esInt32 w) (ho : g.obtenerIdNodo o ≠ -1) (hd : g.obtenerIdNodo d ≠ -1) :
    pesoTotal (g.agregarVertices o d w).2 = pesoTotal g + w := by
  have h1 := sumaPesos_par _ (Construido.arista o d w hw hc)
  have h2 := sumaPesos_par g hc
  have h3 := sumaPesos_agregarVertices g (Construido_BienFormado g hc) o d w ho hd
  omega

/-! ## Entries that join different pairs of nodes weigh at most the total -/

theorem mismosExtremos_symm (e f : Int × Int × Int) (h : mismosExtremos e f) :
    mismosExtremos f e := by
  unfold mismosExtremos at *
  rcases h with ⟨h1, h2⟩ | ⟨h1, h2⟩
  · exact Or.inl ⟨h1.symm, h2.symm⟩
  · exact Or.inr ⟨h2.symm, h1.symm⟩

theorem suma_arcos_le_aux (g : grafo) (hc : Construido g)
    (hpos : ∀ y z p, Arco g y z p → 0 ≤ p) :
    0 ≤ pesoTotal g ∧
    ∀ L : List (Int × Int × Int), (∀ e ∈ L, Arco g e.1 e.2.1 e.2.2) →
      L.Pairwise (fun e f => ¬ mismosExtremos e f) →
      (L.map (fun e => e.2.2)).sum ≤ pesoTotal g := by
  induction hc with
  | vacio =>
    refine ⟨by decide, ?_⟩
    intro L hL _
    cases L with
    | nil => decide
    | cons e L =>
      have := hL e (List.mem_cons_self _ _)
      unfold Arco grafo.vacio leer at this
      simp [pares] at this
  | @nodo g0 nombre hc0 ih =>
    have hpos0 : ∀ y z p, Arco g0 y z p → 0 ≤ p := by
      intro y z p h
      exact hpos y z p ((arco_agregarNodo g0 nombre y z p).mpr h)
    obtain ⟨ih0, ih1⟩ := ih hpos0
    have hS : pesoTotal (g0.agregarNodo nombre) = pesoTotal g0 := by
      unfold pesoTotal; rw [sumaPesos_agregarNodo]
    rw [hS]
    refine ⟨ih0, ?_⟩
    intro L hL hP
    exact ih1 L (fun e he => (arco_agregarNodo g0 nombre _ _ _).mp (hL e he)) hP
  | @arista g0 o d w hw hc0 ih =>
    by_cases hres : g0.obtenerIdNodo o = -1 ∨ g0.obtenerIdNodo d = -1
    · rw [agregarVertices_falla g0 o d w hres] at hpos ⊢
      exact ih hpos
    · have ho : g0.obtenerIdNodo o ≠ -1 := fun hc => hres (Or.inl hc)
      have hd : g0.obtenerIdNodo d ≠ -1 := fun hc => hres (Or.inr hc)
      have hwf := Construido_BienFormado g0 hc0
      have harc := arco_agregarVertices g0 hwf o d w ho hd
      have hpos0 : ∀ y z p, Arco g0 y z p → 0 ≤ p := by
        intro y z p h
        exact hpos y z p ((harc y z p).mpr (Or.inl h))
      have hw0 : 0 ≤ w := hpos _ _ _ ((harc _ _ _).mpr (Or.inr (Or.inl ⟨rfl, rfl, rfl⟩)))
      obtain ⟨ih0, ih1⟩ := ih hpos0
      rw [pesoTotal_agregarVertices g0 hc0 o d w hw ho hd]
      refine ⟨by omega, ?_⟩
      intro L hL hP
      by_cases hall : ∀ e ∈ L, Arco g0 e.1 e.2.1 e.2.2
      · have := ih1 L hall hP
        omega
      · push_neg at hall
        obtain ⟨e, heL, hne⟩ := hall
        obtain ⟨l1, l2, rfl⟩ := List.append_of_mem heL
        have hnew : (e.1 = g0.obtenerIdNodo o ∧ e.2.1 = g0.obtenerIdNodo d ∧ e.2.2 = w) ∨
            (e.1 = g0.obtenerIdNodo d ∧ e.2.1 = g0.obtenerIdNodo o ∧ e.2.2 = w) := by
          rcases (harc _ _ _).mp (hL e heL) with h | h
          · exact absurd h hne
          · exact h
        have hew : e.2.2 = w := by rcases hnew with h | h <;> exact h.2.2
        rw [List.pairwise_append] at hP
        obtain ⟨hP1, hP2, hP3⟩ := hP
        rw [List.pairwise_cons] at hP2
        obtain ⟨hP4, hP5⟩ := hP2
        have hold : ∀ f ∈ l1 ++ l2, Arco g0 f.1 f.2.1 f.2.2 := by
          intro f hf
          have hfL : f ∈ l1 ++ e :: l2 := by
            rcases List.mem_append.mp hf with h | h
            · exact List.mem_append_left _ h
            · exact List.mem_append_right _ (List.mem_cons_of_mem _ h)
          have hnot : ¬ mismosExtremos e f := by
            rcases List.mem_append.mp hf with h | h
            · intro hm
              exact hP3 f h e (List.mem_cons_self _ _) (mismosExtremos_symm _ _ hm)
            · exact hP4 f h
          rcases (harc _ _ _).mp (hL f hfL) with h | h
          · exact h
          · exfalso
            apply hnot
            unfold mismosExtremos
            rcases hnew with ⟨a1, a2, _⟩ | ⟨a1, a2, _⟩ <;>
              rcases h with ⟨b1, b2, _⟩ | ⟨b1, b2, _⟩
            · exact Or.inl ⟨by rw [a1, b1], by rw [a2, b2]⟩
            · exact Or.inr ⟨by rw [a1, b2], by rw [a2, b1]⟩
            · exact Or.inr ⟨by rw [a1, b2], by rw [a2, b1]⟩
            · exact Or.inl ⟨by rw [a1, b1], by rw [a2, b2]⟩
        have hP' : (l1 ++ l2).Pairwise (fun e f => ¬ mismosExtremos e f) := by
          rw [List.pairwise_append]
          exact ⟨hP1, hP5, fun a ha b hb => hP3 a ha b (List.mem_cons_of_mem _ hb)⟩
        have := ih1 (l1 ++ l2) hold hP'
        simp only [List.map_append, List.sum_append, List.map_cons, List.sum_cons] at this ⊢
        omega

theorem suma_arcos_le (g : grafo) (hc : Construido g) (hpos : PesosNoNegativos g)
    (L : List (Int × Int × Int)) (hL : ∀ e ∈ L, Arco g e.1 e.2.1 e.2.2)
    (hP : L.Pairwise (fun e f => ¬ mismosExtremos e f)) :
    (L.map (fun e => e.2.2)).sum ≤ pesoTotal g :=
  (suma_arcos_le_aux g hc (arco_peso g hpos)).2 L hL hP

/-! ## Predecessor chains -/

theorem Cadena_props (g : grafo) (s : Int) (st : Estado) (v : Int) (nodos : List Int)
    (arcos : List (Int × Int × Int)) (h : Cadena g s st v nodos arcos) :
    nodos.Nodup ∧ nodos.getLast? = some v ∧ nodos.head? = some s ∧
    (∀ e ∈ arcos, Arco g e.1 e.2.1 e.2.2 ∧ e.1 ∈ nodos ∧ e.2.1 ∈ nodos ∧ e.1 ≠ e.2.1) ∧
    arcos.Pairwise (fun e f => ¬ mismosExtremos e f) ∧
    st.dist v = (arcos.map (fun e => e.2.2)).sum ∧
    esRecorrido g nodos (arcos.map (fun e => e.2.2)) := by
  induction h with
  | raiz _ h0 =>
    refine ⟨by simp, by simp, by simp, by simp, by simp, by simpa using h0, by simp [esRecorrido]⟩
  | @paso u v w nodos arcos hcad hprev hnot harc hdist ih =>
    obtain ⟨h1, h2, h3, h4, h5, h6, h7⟩ := ih
    have hu : u ∈ nodos := mem_of_getLast _ _ h2
    refine ⟨?_, by simp, ?_, ?_, ?_, ?_, ?_⟩
    · rw [List.nodup_append]
      refine ⟨h1, by simp, ?_⟩
      intro a ha hb
      simp only [List.mem_singleton] at hb
      subst hb
      exact hnot ha
    · cases nodos with
      | nil => simp at h3
      | cons a l => simpa using h3
    · intro e he
      rcases List.mem_append.mp he with he | he
      · obtain ⟨a, b, c, d⟩ := h4 e he
        exact ⟨a, List.mem_append_left _ b, List.mem_append_left _ c, d⟩
      · simp only [List.mem_singleton] at he
        subst he
        refine ⟨harc, List.mem_append_left _ hu, by simp, ?_⟩
        intro huv
        simp only at huv
        exact hnot (huv ▸ hu)
    · rw [List.pairwise_append]
      refine ⟨h5, by simp, ?_⟩
      intro a ha b hb
      simp only [List.mem_singleton] at hb
      subst hb
      obtain ⟨_, a1, a2, _⟩ := h4 a ha
      unfold mismosExtremos
      simp only
      rintro (⟨_, e2⟩ | ⟨e1, _⟩)
      · exact hnot (e2 ▸ a2)
      · exact hnot (e1 ▸ a1)
    · simp only [List.map_append, List.sum_append, List.map_cons, List.map_nil, List.sum_cons,
        List.sum_nil, add_zero]
      rw [hdist, h6]
    · simp only [List.map_append, List.map_cons, List.map_nil]
      exact esRecorrido_snoc g u v w harc _ _ h7 h2

theorem Cadena_rango (g : grafo) (hwf : BienFormado g) (s : Int) (hs : 0 ≤ s) (st : Estado)
    (v : Int) (nodos : List Int) (arcos : List (Int × Int × Int))
    (h : Cadena g s st v nodos arcos) : ∀ z ∈ nodos, 0 ≤ z := by
  induction h with
  | raiz _ _ =>
    intro z hz
    simp only [List.mem_singleton] at hz
    rw [hz]; exact hs
  | @paso u v w nodos arcos _ _ _ harc _ ih =>
    intro z hz
    rcases List.mem_append.mp hz with h | h
    · exact ih z h
    · simp only [List.mem_singleton] at h
      rw [h]
      exact (arco_rango g hwf u v w harc).1

/-- A chain only depends on the predecessor and the distance of its own nodes. -/
theorem Cadena_congr (g : grafo) (s : Int) (st st2 : Estado) (v : Int) (nodos : List Int)
    (arcos : List (Int × Int × Int)) (h : Cadena g s st v nodos arcos)
    (hsame : ∀ z ∈ nodos, st2.prev z = st.prev z ∧ st2.dist z = st.dist z) :
    Cadena g s st2 v nodos arcos := by
  induction h with
  | raiz hp hd =>
    obtain ⟨a, b⟩ := hsame s (by simp)
    exact Cadena.raiz (by rw [a]; exact hp) (by rw [b]; exact hd)
  | @paso u v w nodos arcos hcad hprev hnot harc hdist ih =>
    have hu : u ∈ nodos := mem_of_getLast _ _ (Cadena_props g s st u nodos arcos hcad).2.1
    obtain ⟨a, b⟩ := hsame v (by simp)
    obtain ⟨_, b2⟩ := hsame u (List.mem_append_left _ hu)
    exact Cadena.paso (ih (fun z hz => hsame z (List.mem_append_left _ hz)))
      (by rw [a]; exact hprev) hnot harc (by rw [b, b2]; exact hdist)

/-- The path reconstruction follows a chain to its end. -/
theorem reconstruir_Cadena (g : grafo) (s : Int) (st : Estado) (v : Int) (nodos : List Int)
    (arcos : List (Int × Int × Int)) (h : Cadena g s st v nodos arcos)
    (hs : 0 ≤ s) (hrango : ∀ z ∈ nodos, 0 ≤ z) :
    ∀ (k : Nat) (acc : List String),
      reconstruir g.departamentos st.previo (nodos.length + 1 + k) v acc =
        some (acc ++ (nodos.map (fun i => leer g.departamentos i "")).reverse) := by
  induction h with
  | raiz hp _ =>
    intro k acc
    have hne : s ≠ -1 := by omega
    have hp' : leer st.previo s (-1) = -1 := hp
    simp only [List.length_singleton]
    have e : 1 + 1 + k = (k + 1) + 1 := by omega
    rw [e]
    unfold reconstruir
    simp only [hne, if_false, hp']
    unfold reconstruir
    simp
  | @paso u v w nodos arcos hcad hprev hnot harc hdist ih =>
    intro k acc
    have hv0 : 0 ≤ v := hrango v (by simp)
    have hne : v ≠ -1 := by omega
    have hp' : leer st.previo v (-1) = u := hprev
    have := ih (fun z hz => hrango z (List.mem_append_left _ hz)) k
      (acc ++ [leer g.departamentos v ""])
    simp only [List.length_append, List.length_singleton]
    have e : nodos.length + 1 + 1 + k = (nodos.length + 1 + k) + 1 := by omega
    rw [e]
    unfold reconstruir
    simp only [hne, if_false, hp']
    rw [this]
    simp

/-! ## The loop while no sum leaves the `int` range -/

theorem InvP_cambia_cola (g : grafo) (s : Int) (st : Estado) (proc : List Int) (m m2 : Int)
    (proc2 : List Int) (q : List (Int × Int)) (hP : InvP g s st proc m)
    (hnodup : q.Nodup) (hm : ∀ e ∈ q, m2 ≤ e.1)
    (hviejas : ∀ e ∈ q, e.2 ∈ proc2 → st.dist e.2 < e.1)
    (hprocD : ∀ y ∈ proc2, st.dist y ≤ m2)
    (htoc : ∀ y, st.dist y < INF → (st.dist y, y) ∈ q ∨ y ∈ proc2)
    (hcad : ∀ y ∈ proc2, ∃ nodos arcos, Cadena g s st y nodos arcos ∧ ∀ z ∈ nodos, z ∈ proc2)
    (hsub : ∀ y ∈ proc, y ∈ proc2) :
    InvP g s { st with pq := q } proc2 m2 := by
  refine { nonneg := hP.nonneg, nodup := hnodup, mcota := hm, viejas := hviejas,
           procD := hprocD, tocado := htoc, raizP := hP.raizP, cadenas := ?_, prevP := ?_ }
  · intro y hy
    obtain ⟨nodos, arcos, h1, h2⟩ := hcad y hy
    exact ⟨nodos, arcos, Cadena_congr g s st _ y nodos arcos h1 (fun z _ => ⟨rfl, rfl⟩), h2⟩
  · intro v hv hd
    obtain ⟨a, b⟩ := hP.prevP v hv hd
    exact ⟨hsub _ a, b⟩

theorem InvP_pop_viejo (g : grafo) (s : Int) (st : Estado) (proc : List Int) (m d u : Int)
    (hP : InvP g s st proc m) (hgt : d > st.dist u) :
    InvP g s { st with pq := st.pq.erase (d, u) } proc m := by
  apply InvP_cambia_cola g s st proc m m proc _ hP
  · exact hP.nodup.erase _
  · exact fun e he => hP.mcota e (List.mem_of_mem_erase he)
  · exact fun e he => hP.viejas e (List.mem_of_mem_erase he)
  · exact hP.procD
  · intro y hy
    rcases hP.tocado y hy with h | h
    · left
      rw [List.mem_erase_of_ne]
      · exact h
      · intro he
        have h1 := congrArg Prod.fst he
        have h2 := congrArg Prod.snd he
        simp only at h1 h2
        rw [h2] at h1
        omega
    · exact Or.inr h
  · exact hP.cadenas
  · exact fun y hy => hy

theorem InvP_pop_nuevo (g : grafo) (s : Int) (A : Int → Int → Int → Prop) (st : Estado)
    (proc : List Int) (m d u : Int)
    (hI : InvG g s A st) (hP : InvP g s st proc m) (htop : top st.pq = some (d, u))
    (hle : d ≤ st.dist u) :
    d = st.dist u ∧ u ∉ proc ∧
    InvP g s { st with pq := st.pq.erase (d, u) } (u :: proc) (st.dist u) := by
  have hmem := top_mem _ _ htop
  obtain ⟨_, _, hud, hdI⟩ := hI.cola _ hmem
  simp only at hud hdI
  have hd : d = st.dist u := by omega
  have hnot : u ∉ proc := by
    intro hu
    have := hP.viejas _ hmem hu
    simp only at this
    omega
  refine ⟨hd, hnot, ?_⟩
  have hmd : m ≤ d := hP.mcota _ hmem
  apply InvP_cambia_cola g s st proc m (st.dist u) (u :: proc) _ hP
  · exact hP.nodup.erase _
  · intro e he
    have := top_le_fst _ _ htop e (List.mem_of_mem_erase he)
    simp only at this
    omega
  · intro e he hep
    rcases List.mem_cons.mp hep with h | h
    · have h1 := (hI.cola e (List.mem_of_mem_erase he)).2.2.1
      have h2 : e ≠ (d, u) := by
        intro hc
        rw [hc] at he
        exact (List.Nodup.not_mem_erase hP.nodup) he
      rw [h] at h1 ⊢
      by_contra hc
      apply h2
      apply Prod.ext
      · simp only; omega
      · exact h
    · exact hP.viejas e (List.mem_of_mem_erase he) h
  · intro y hy
    rcases List.mem_cons.mp hy with h | h
    · rw [h]
    · have := hP.procD y h
      omega
  · intro y hy
    rcases hP.tocado y hy with h | h
    · by_cases hyu : y = u
      · right
        rw [hyu]
        exact List.mem_cons_self _ _
      · left
        rw [List.mem_erase_of_ne]
        · exact h
        · intro he
          exact hyu (congrArg Prod.snd he)
    · exact Or.inr (List.mem_cons_of_mem _ h)
  · intro y hy
    rcases List.mem_cons.mp hy with h | h
    · subst h
      by_cases hys : y = s
      · subst hys
        exact ⟨[y], [], Cadena.raiz hP.raizP.2 hP.raizP.1, by simp⟩
      · obtain ⟨hp1, w, hp2, hp3⟩ := hP.prevP y hys (by omega)
        obtain ⟨nodos, arcos, hc1, hc2⟩ := hP.cadenas _ hp1
        refine ⟨nodos ++ [y], arcos ++ [(st.prev y, y, w)],
          Cadena.paso hc1 rfl (fun hin => hnot (hc2 y hin)) hp2 hp3, ?_⟩
        intro z hz
        rcases List.mem_append.mp hz with h | h
        · exact List.mem_cons_of_mem _ (hc2 z h)
        · simp only [List.mem_singleton] at h
          rw [h]
          exact List.mem_cons_self _ _
    · obtain ⟨nodos, arcos, hc1, hc2⟩ := hP.cadenas y h
      exact ⟨nodos, arcos, hc1, fun z hz => List.mem_cons_of_mem _ (hc2 z hz)⟩
  · exact fun y hy => List.mem_cons_of_mem _ hy

theorem relajarArista_InvP (g : grafo) (s : Int) (A : Int → Int → Int → Prop) (st : Estado)
    (proc : List Int) (m u v w : Int)
    (hI : InvG g s A st) (hP : InvP g s st proc m) (hu : u ∈ proc) (hum : st.dist u = m)
    (huI : st.dist u < INF) (hw : 0 ≤ w) (hov : st.dist u + w ≤ INF)
    (hv0 : 0 ≤ v) (hv1 : v < (g.departamentos.length : Int)) (harc : Arco g u v w) :
    InvP g s (relajarArista u v w st) proc m ∧ (relajarArista u v w st).dist u = m := by
  have hvD : v < (st.distancias.length : Int) := by rw [hI.lenD]; exact hv1
  have hvP : v < (st.previo.length : Int) := by rw [hI.lenP]; exact hv1
  have hur := dist_rango st _ hI.lenD u (by omega)
  have hu0 : 0 ≤ st.dist u :=
    hP.nonneg _ (leer_mem _ _ _ hur.1 (by rw [hI.lenD]; exact hur.2))
  have hwrap : wrap32 (st.dist u + w) = st.dist u + w :=
    wrap32_id _ (by omega) (by unfold INF at hov; omega)
  rcases relajarArista_efecto u v w st hv0 hvD hvP with ⟨_, e⟩ | ⟨hsi, hd, hp, hq, hD, _⟩
  · rw [e]
    exact ⟨hP, hum⟩
  · rw [hwrap] at hsi hd hq hD
    have hvproc : v ∉ proc := by
      intro hvp
      have := hP.procD v hvp
      omega
    have hvu : v ≠ u := fun h => hvproc (h ▸ hu)
    have hvs : v ≠ s := by
      intro h
      rw [h, hP.raizP.1] at hsi
      omega
    have hdp : ∀ z ∈ proc, (relajarArista u v w st).dist z = st.dist z := by
      intro z hz
      have hzv : z ≠ v := fun h => hvproc (by rw [← h]; exact hz)
      rw [hd z, if_neg hzv]
    have hpp : ∀ z ∈ proc, (relajarArista u v w st).prev z = st.prev z := by
      intro z hz
      have hzv : z ≠ v := fun h => hvproc (by rw [← h]; exact hz)
      rw [hp z, if_neg hzv]
    refine ⟨?_, by rw [hdp u hu]; exact hum⟩
    refine { nonneg := ?_, nodup := ?_, mcota := ?_, viejas := ?_, procD := ?_, tocado := ?_,
             raizP := ?_, cadenas := ?_, prevP := ?_ }
    · intro x hx
      rw [hD] at hx
      rcases mem_escribir _ _ _ _ hx with rfl | hm
      · omega
      · exact hP.nonneg x hm
    · rw [hq, List.nodup_cons]
      refine ⟨?_, hP.nodup⟩
      intro hin
      have := (hI.cola _ hin).2.2.1
      simp only at this
      omega
    · intro e he
      rw [hq] at he
      rcases List.mem_cons.mp he with rfl | he
      · simp only; omega
      · exact hP.mcota e he
    · intro e he hep
      rw [hq] at he
      rcases List.mem_cons.mp he with rfl | he
      · exact absurd hep hvproc
      · rw [hdp _ hep]
        exact hP.viejas e he hep
    · intro y hy
      rw [hdp y hy]
      exact hP.procD y hy
    · intro y hy
      by_cases hyv : y = v
      · left
        rw [hq, hd y, if_pos hyv, hyv]
        exact List.mem_cons_self _ _
      · rw [hd y, if_neg hyv] at hy ⊢
        rcases hP.tocado y hy with h | h
        · left; rw [hq]; exact List.mem_cons_of_mem _ h
        · exact Or.inr h
    · constructor
      · rw [hd s, if_neg (Ne.symm hvs)]; exact hP.raizP.1
      · rw [hp s, if_neg (Ne.symm hvs)]; exact hP.raizP.2
    · intro y hy
      obtain ⟨nodos, arcos, hc1, hc2⟩ := hP.cadenas y hy
      refine ⟨nodos, arcos, Cadena_congr g s st _ y nodos arcos hc1 ?_, hc2⟩
      intro z hz
      exact ⟨hpp z (hc2 z hz), hdp z (hc2 z hz)⟩
    · intro z hzs hz
      by_cases hzv : z = v
      · rw [hp z, if_pos hzv]
        refine ⟨hu, w, ?_, ?_⟩
        · rw [hzv]; exact harc
        · rw [hd z, if_pos hzv, hdp u hu]
      · rw [hd z, if_neg hzv] at hz
        obtain ⟨a, w2, b, c⟩ := hP.prevP z hzs hz
        rw [hp z, if_neg hzv, hd z, if_neg hzv, hdp _ a]
        exact ⟨a, w2, b, c⟩

theorem foldl_InvP (g : grafo) (s u : Int) (proc : List Int) (m : Int) (hu : u ∈ proc)
    (hm : m < INF) (l : List (Int × Int)) :
    ∀ (A : Int → Int → Int → Prop) (st : Estado), InvG g s A st → InvP g s st proc m →
    st.dist u = m →
    (∀ e ∈ l, 0 ≤ e.1 ∧ e.1 < (g.departamentos.length : Int) ∧ Arco g u e.1 e.2 ∧
      0 ≤ e.2 ∧ m + e.2 ≤ INF) →
    InvP g s (l.foldl (fun s e => relajarArista u e.1 e.2 s) st) proc m := by
  induction l with
  | nil => intro A st _ hP _ _; exact hP
  | cons e l ih =>
    intro A st hI hP hum hl
    obtain ⟨h0, h1, harc, hw, hov⟩ := hl e (List.mem_cons_self _ _)
    obtain ⟨hI1, _⟩ := relajarArista_InvG g s A st u e.1 e.2 hI (by omega) h0 h1 harc
    obtain ⟨hP1, hum1⟩ := relajarArista_InvP g s A st proc m u e.1 e.2 hI hP hu hum
      (by omega) hw (by omega) h0 h1 harc
    rw [List.foldl_cons]
    exact ih _ _ hI1 hP1 hum1 (fun x hx => hl x (List.mem_cons_of_mem _ hx))

/-- Bound on a relaxed sum: the distance of a processed node is the weight of its
chain, whose entries join different pairs of nodes. -/
theorem cota_suma (g : grafo) (hc : Construido g) (hpos : PesosNoNegativos g) (s : Int)
    (st : Estado) (proc : List Int) (m u v w : Int) (hP : InvP g s st proc m)
    (hu : u ∈ proc) (harc : Arco g u v w) :
    st.dist u ≤ pesoTotal g ∧ w ≤ pesoTotal g := by
  obtain ⟨nodos, arcos, hc1, _⟩ := hP.cadenas u hu
  obtain ⟨_, _, _, h4, h5, h6, _⟩ := Cadena_props g s st u nodos arcos hc1
  constructor
  · rw [h6]
    exact suma_arcos_le g hc hpos arcos (fun e he => (h4 e he).1) h5
  · have := suma_arcos_le g hc hpos [(u, v, w)] (by simpa using harc) (by simp)
    simpa using this

theorem estadoInicial_lee (n : Nat) (s : Int) (h0 : 0 ≤ s) (h1 : s < (n : Int)) :
    (∀ v, (estadoInicial n s).dist v = if v = s then 0 else INF) ∧
    (∀ v, (estadoInicial n s).prev v = -1) := by
  constructor
  · intro v
    unfold estadoInicial
    rw [dist_escribir _ _ _ _ _ _ h0 (by simpa using h1)]
    split
    · rfl
    · unfold Estado.dist
      by_cases hv : 0 ≤ v ∧ v < (n : Int)
      · exact leer_replicate _ _ _ _ hv.1 hv.2
      · exact leer_fuera _ _ _ (by simp only [List.length_replicate]; omega)
  · intro v
    unfold estadoInicial Estado.prev
    by_cases hv : 0 ≤ v ∧ v < (n : Int)
    · exact leer_replicate _ _ _ _ hv.1 hv.2
    · exact leer_fuera _ _ _ (by simp only [List.length_replicate]; omega)

theorem estadoInicial_InvP (g : grafo) (s : Int) (h0 : 0 ≤ s)
    (h1 : s < (g.departamentos.length : Int)) :
    InvP g s (estadoInicial g.departamentos.length s) [] 0 := by
  obtain ⟨hd, hp⟩ := estadoInicial_lee g.departamentos.length s h0 h1
  have hs : ∀ v, (estadoInicial g.departamentos.length s).dist v < INF → v = s := by
    intro v hv
    rw [hd v] at hv
    by_contra hne
    simp [hne] at hv
  refine { nonneg := ?_, nodup := ?_, mcota := ?_, viejas := ?_, procD := ?_, tocado := ?_,
           raizP := ?_, cadenas := ?_, prevP := ?_ }
  · intro d hdm
    unfold estadoInicial at hdm
    rcases mem_escribir _ _ _ _ hdm with rfl | hm
    · exact le_refl _
    · rw [List.eq_of_mem_replicate hm]; unfold INF; omega
  · simp [estadoInicial]
  · intro e he
    have : e = (0, s) := by simpa [estadoInicial] using he
    rw [this]
  · intro e _ hep
    simp at hep
  · intro y hy
    simp at hy
  · intro y hy
    have := hs y hy
    subst this
    left
    rw [hd y]
    simp [estadoInicial]
  · exact ⟨by rw [hd s]; simp, hp s⟩
  · intro y hy
    simp at hy
  · intro v hv hdv
    exact absurd (hs v hdv) hv

/-! ## Runs in which twice the total weight fits in an `int` -/

theorem paso_InvP (g : grafo) (hc : Construido g) (hpos : PesosNoNegativos g)
    (h2S : 2 * pesoTotal g ≤ INF) (s t : Int) (st st1 : Estado)
    (hI : InvG g s (Arco g) st) (hP : ∃ proc m, InvP g s st proc m)
    (h : paso g t st = Paso.sigue st1) : ∃ proc m, InvP g s st1 proc m := by
  obtain ⟨proc, m, hP⟩ := hP
  have hwf := Construido_BienFormado g hc
  obtain ⟨d, u, htop, hcase⟩ := paso_sigue g t st st1 h
  have hmem := top_mem _ _ htop
  obtain ⟨_, _, hud, hdI⟩ := hI.cola _ hmem
  simp only at hud hdI
  rcases hcase with ⟨hgt, rfl⟩ | ⟨hle, _, rfl⟩
  · exact ⟨proc, m, InvP_pop_viejo g s st proc m d u hP hgt⟩
  · obtain ⟨hd, _, hP1⟩ := InvP_pop_nuevo g s _ st proc m d u hI hP htop hle
    have hI1 := (InvG_pop g s st d u hI).1
    refine ⟨u :: proc, st.dist u, ?_⟩
    apply foldl_InvP g s u (u :: proc) (st.dist u) (List.mem_cons_self _ _) (by omega) _ _ _
      hI1 hP1 rfl
    intro e he
    have harc : Arco g u e.1 e.2 := he
    obtain ⟨a, b⟩ := arco_rango g hwf u e.1 e.2 harc
    have hw := arco_peso g hpos u e.1 e.2 harc
    obtain ⟨c1, c2⟩ := cota_suma g hc hpos s _ (u :: proc) (st.dist u) u e.1 e.2 hP1
      (List.mem_cons_self _ _) harc
    have c1' : st.dist u ≤ pesoTotal g := c1
    exact ⟨a, b, harc, hw, by omega⟩

/-- The chain of the target in the state in which the loop is left. -/
theorem salida_cadena (g : grafo) (s t : Int) (st0 st1 : Estado) (proc : List Int) (m : Int)
    (hI : InvG g s (Arco g) st0) (hP : InvP g s st0 proc m)
    (hfin : paso g t st0 = Paso.termina st1) (hne : st1.dist t ≠ INF) :
    ∃ nodos arcos, Cadena g s st1 t nodos arcos := by
  obtain ⟨hD, hPr, hcase⟩ := paso_termina g t st0 st1 hfin
  have hdist : ∀ v, st1.dist v = st0.dist v := by
    intro v; unfold Estado.dist; rw [hD]
  have hprev : ∀ v, st1.prev v = st0.prev v := by
    intro v; unfold Estado.prev; rw [hPr]
  have hlt : st0.dist t < INF := by
    have := InvG_dist_le g s _ st0 hI t
    rw [hdist] at hne
    omega
  rcases hcase with ⟨hq, _⟩ | ⟨d, htop, hle, hst⟩
  · rcases hP.tocado t hlt with h | h
    · rw [hq] at h; simp at h
    · obtain ⟨nodos, arcos, hc1, _⟩ := hP.cadenas t h
      exact ⟨nodos, arcos, Cadena_congr g s st0 st1 t nodos arcos hc1
        (fun z _ => ⟨hprev z, hdist z⟩)⟩
  · obtain ⟨_, _, hP1⟩ := InvP_pop_nuevo g s _ st0 proc m d t hI hP htop hle
    rw [← hst] at hP1
    obtain ⟨nodos, arcos, hc1, _⟩ := hP1.cadenas t (List.mem_cons_self _ _)
    exact ⟨nodos, arcos, hc1⟩

/-- With the queue empty, every node a walk from the source reaches has a distance. -/
theorem alcanzable_tocado (g : grafo) (hc : Construido g) (hpos : PesosNoNegativos g)
    (h2S : 2 * pesoTotal g ≤ INF) (s : Int) (st : Estado) (proc : List Int) (m : Int)
    (hI : InvG g s (Arco g) st) (hP : InvP g s st proc m) (hq : st.pq = []) :
    ∀ v p, Recorrido g s v p → st.dist v < INF := by
  intro v p hr
  induction hr with
  | nulo => rw [hP.raizP.1]; unfold INF; omega
  | @paso b c p w _ harc ih =>
    have hb : b ∈ proc := by
      rcases hP.tocado b ih with h | h
      · rw [hq] at h; simp at h
      · exact h
    obtain ⟨c1, c2⟩ := cota_suma g hc hpos s st proc m b c w hP hb harc
    have hw := arco_peso g hpos b c w harc
    have hbr := dist_rango st _ hI.lenD b (by omega)
    have hb0 : 0 ≤ st.dist b :=
      hP.nonneg _ (leer_mem _ _ _ hbr.1 (by rw [hI.lenD]; exact hbr.2))
    rcases hI.pend b ih with h | h
    · rw [hq] at h; simp at h
    · have := h c w harc
      rw [wrap32_id _ (by omega) (by unfold INF at h2S; omega)] at this
      unfold INF at h2S ⊢
      omega

/-- Total correctness of the run when twice the total weight is at most `INF`: the run
ends; it reports `sinRuta` exactly when no walk joins the two indices, and otherwise a
cost that is the weight of the reported path, itself a walk, and the least weight of
all walks. -/
theorem calcular_correcto (g : grafo) (hc : Construido g) (hpos : PesosNoNegativos g)
    (h2S : 2 * pesoTotal g ≤ INF) (a b : String)
    (ha : g.obtenerIdNodo a ≠ -1) (hb : g.obtenerIdNodo b ≠ -1) :
    ∃ N, ∀ fuel, N ≤ fuel →
      (g.calcularRutaMasCorta a b fuel = some Salida.sinRuta ∧
        ¬ ∃ p, Recorrido g (g.obtenerIdNodo a) (g.obtenerIdNodo b) p) ∨
      (∃ nodos pesos, g.calcularRutaMasCorta a b fuel =
          some (Salida.ruta pesos.sum (nodos.map (fun i => leer g.departamentos i ""))) ∧
        esRecorrido g nodos pesos ∧ nodos.head? = some (g.obtenerIdNodo a) ∧
        nodos.getLast? = some (g.obtenerIdNodo b) ∧ nodos.Nodup ∧
        ∀ p, Recorrido g (g.obtenerIdNodo a) (g.obtenerIdNodo b) p → pesos.sum ≤ p) := by
  have hwf := Construido_BienFormado g hc
  obtain ⟨ha0, ha1, _⟩ := obtenerIdNodo_spec g a ha
  obtain ⟨N, st, hN⟩ := calcular_total g hwf a b ha
  have hb1 := hN N (le_refl _)
  obtain ⟨st0, ⟨hI, hP⟩, hfin⟩ := bucle_inv g (g.obtenerIdNodo b)
    (fun x => InvG g (g.obtenerIdNodo a) (Arco g) x ∧
      ∃ proc m, InvP g (g.obtenerIdNodo a) x proc m)
    (fun x y hx hxy => ⟨paso_InvG g hwf _ _ x y hx.1 hxy,
      paso_InvP g hc hpos h2S _ _ x y hx.1 hx.2 hxy⟩)
    N _ st ⟨estadoInicial_InvG g _ ha0 ha1, [], 0, estadoInicial_InvP g _ ha0 ha1⟩ hb1
  obtain ⟨proc, m, hP⟩ := hP
  obtain ⟨hD, hPr, hcase⟩ := paso_termina g _ st0 st hfin
  have hdist : ∀ v, st.dist v = st0.dist v := by
    intro v; unfold Estado.dist; rw [hD]
  by_cases hinf : st.dist (g.obtenerIdNodo b) = INF
  · refine ⟨N, fun fuel hfuel => Or.inl ⟨?_, ?_⟩⟩
    · exact calcular_sinRuta_intro g a b fuel st ha hb (hN fuel hfuel) hinf
    · rintro ⟨p, hp⟩
      rcases hcase with ⟨hq, _⟩ | ⟨d, htop, hle, _⟩
      · have := alcanzable_tocado g hc hpos h2S _ st0 proc m hI hP hq _ p hp
        rw [← hdist] at this
        omega
      · have := (hI.cola _ (top_mem _ _ htop)).2.2
        simp only at this
        rw [← hdist] at this
        omega
  · obtain ⟨nodos, arcos, hcad⟩ := salida_cadena g _ _ st0 st proc m hI hP hfin hinf
    obtain ⟨h1, h2, h3, h4, _, h6, h7⟩ := Cadena_props g _ st _ nodos arcos hcad
    have hrango : ∀ z ∈ nodos, 0 ≤ z := Cadena_rango g hwf _ ha0 st _ nodos arcos hcad
    have hrec := reconstruir_Cadena g _ st _ nodos arcos hcad ha0 hrango 0 []
    refine ⟨max N (nodos.length + 1), fun fuel hfuel => Or.inr
      ⟨nodos, arcos.map (fun e => e.2.2), ?_, h7, h3, h2, h1, ?_⟩⟩
    · have e1 := calcular_ruta_intro g a b N (nodos.length + 1 + 0) st _ ha hb hb1 hinf hrec
      have e2 := calcular_mono g a b _ _ e1 (fuel - max N (nodos.length + 1 + 0))
      have e3 : max N (nodos.length + 1 + 0) + (fuel - max N (nodos.length + 1 + 0)) = fuel := by
        simp only [add_zero] at hfuel ⊢
        omega
      rw [e3] at e2
      rw [e2, h6]
      simp
    · intro p hp
      rw [← h6]
      exact salida_optima g _ _ st0 st hI hpos hfin hinf p hp

/-! ## Consequences of total correctness -/

theorem redDesborde_eq : redDesborde =
    grafo.mk [[1, 1073741829], [0, 1073741829, 2, 0], [1, 0]] ["A", "B", "C"] := by
  decide

theorem redDesborde_Construido : Construido redDesborde := by
  unfold redDesborde
  exact Construido.arista _ _ _ (by decide) (Construido.arista _ _ _ (by decide)
    (Construido.nodo _ (Construido.nodo _ (Construido.nodo _ Construido.vacio))))

theorem redDesborde_bucle :
    bucle redDesborde 2 5 (estadoInicial 3 0) =
      some (Estado.mk [-2147483638, -1073741809, -1073741809] [1, 0, 1] [(1073741829, 2)]) := by
  rw [redDesborde_eq]
  decide!

theorem redDesborde_ciclo : ∀ (fuel : Nat) (a : Int) (acc : List String),
    a = 0 ∨ a = 1 ∨ a = 2 → reconstruir ["A", "B", "C"] [1, 0, 1] fuel a acc = none := by
  intro fuel
  induction fuel with
  | zero => intro a acc _; rfl
  | succ f ih =>
    intro a acc ha
    unfold reconstruir
    rcases ha with rfl | rfl | rfl
    · exact ih _ _ (Or.inr (Or.inl (by decide)))
    · exact ih _ _ (Or.inl (by decide))
    · exact ih _ _ (Or.inr (Or.inl (by decide)))

/-- On `redDesborde` the run from `A` to `C` never reports anything: the loop leaves a
cycle in `previo`, and the reconstruction of the path does not end. -/
theorem redDesborde_diverge (fuel : Nat) :
    redDesborde.calcularRutaMasCorta "A" "C" fuel = none := by
  have hA : redDesborde.obtenerIdNodo "A" = 0 := by decide
  have hC : redDesborde.obtenerIdNodo "C" = 2 := by decide
  have hlen : redDesborde.departamentos.length = 3 := by decide
  have hdeps : redDesborde.departamentos = ["A", "B", "C"] := by decide
  unfold grafo.calcularRutaMasCorta
  simp only [hA, hC, hlen]
  cases hb : bucle redDesborde 2 fuel (estadoInicial 3 0) with
  | none => simp
  | some st =>
    have e1 := bucle_mono_le redDesborde 2 fuel (max fuel 5) _ st hb (le_max_left _ _)
    have e2 := bucle_mono_le redDesborde 2 5 (max fuel 5) _ _ redDesborde_bucle
      (le_max_right _ _)
    rw [e1] at e2
    have hst := Option.some.inj e2
    subst hst
    have hne : (Estado.mk [-2147483638, -1073741809, -1073741809] [1, 0, 1]
        [(1073741829, 2)]).dist 2 ≠ INF := by decide
    simp only [hdeps]
    rw [redDesborde_ciclo fuel 2 [] (Or.inr (Or.inr rfl))]
    simp [hne]

/-! ## Runs in which a sum wraps: the reconstruction cannot end -/

theorem cota_desde (g : grafo) (s x : Int) (st : Estado) (B : Int)
    (hI : InvG g s (Arco g) st) (hpos : PesosNoNegativos g) (hB : B ≤ INF)
    (hq : ∀ e ∈ st.pq, B ≤ e.1) :
    ∀ v p, Recorrido g x v p → st.dist x + p < B → st.dist v ≤ st.dist x + p := by
  intro v p hr
  induction hr with
  | nulo => intro _; omega
  | @paso b c p w hr harc ih =>
    intro hlt
    have hw := arco_peso g hpos b c w harc
    have hb := ih (by omega)
    have hbI : st.dist b < INF := by omega
    rcases hI.pend b hbI with h | h
    · have := hq _ h
      simp only at this
      omega
    · have h1 := h c w harc
      have hbr := dist_rango st _ hI.lenD b (by omega)
      have hm := hI.rango (st.dist b) (leer_mem _ _ _ hbr.1 (by rw [hI.lenD]; exact hbr.2))
      have h2 := wrap32_le (st.dist b + w) (by omega)
      omega

theorem hundido_origen (g : grafo) (s : Int) (st : Estado)
    (hI : InvG g s (Arco g) st) (hpos : PesosNoNegativos g) (hH : Hundido g s st)
    (hq : ∀ e ∈ st.pq, 0 ≤ e.1) : st.dist s < 0 := by
  obtain ⟨x, R, hr, hlt⟩ := hH
  have := cota_desde g s x st 0 hI hpos (by unfold INF; omega) hq s R hr hlt
  omega

theorem reconstruir_sin_fin_raiz (g : grafo) (s : Int) (A : Int → Int → Int → Prop)
    (st : Estado) (hI : InvG g s A st) (hs : st.prev s ≠ -1) :
    ∀ (fuel : Nat) (a : Int) (acc : List String), st.dist a < INF →
      reconstruir g.departamentos st.previo fuel a acc = none := by
  intro fuel
  induction fuel with
  | zero => intro a acc _; rfl
  | succ f ih =>
    intro a acc ha
    have har := dist_rango st _ hI.lenD a (by omega)
    have hne : a ≠ -1 := by omega
    unfold reconstruir
    simp only [hne, if_false]
    have hp : st.prev a ≠ -1 := by
      intro hc
      have := hI.raiz a ha hc
      rw [this] at hc
      exact hs hc
    exact ih _ _ (hI.previos a hp).1

theorem reconstruir_sin_fin_cerrado (deps : List String) (st : Estado) (C : Int → Prop)
    (hC : Cerrado st C) :
    ∀ (fuel : Nat) (a : Int) (acc : List String), C a →
      reconstruir deps st.previo fuel a acc = none := by
  intro fuel
  induction fuel with
  | zero => intro a acc _; rfl
  | succ f ih =>
    intro a acc ha
    obtain ⟨h1, h2⟩ := hC.1 a ha
    have hne : a ≠ -1 := by
      intro hc
      apply h1
      rw [hc]
      unfold Estado.prev
      exact leer_fuera _ _ _ (Or.inl (by omega))
    unfold reconstruir
    simp only [hne, if_false]
    exact ih _ _ h2

/-- The part of a chain up to one of its nodes is the chain of that node; the nodes
after it are linked back to it. -/
theorem Cadena_prefijo (g : grafo) (s : Int) (st : Estado) (y : Int) (nodos : List Int)
    (arcos : List (Int × Int × Int)) (h : Cadena g s st y nodos arcos) (x : Int)
    (hx : x ∈ nodos) :
    ∃ n1 a1 n2, Cadena g s st x n1 a1 ∧ nodos = n1 ++ n2 ∧
      (∀ z ∈ n2, st.prev z ∈ n2 ∨ st.prev z = x) ∧ (x ≠ y → y ∈ n2) := by
  induction h with
  | raiz hp hd =>
    simp only [List.mem_singleton] at hx
    subst hx
    exact ⟨[x], [], [], Cadena.raiz hp hd, by simp, by simp, by simp⟩
  | @paso u v w nodos arcos hcad hprev hnot harc hdist ih =>
    by_cases hxv : x = v
    · subst hxv
      exact ⟨nodos ++ [x], arcos ++ [(u, x, w)], [], Cadena.paso hcad hprev hnot harc hdist,
        by simp, by simp, by simp⟩
    · have hxn : x ∈ nodos := by
        rcases List.mem_append.mp hx with h | h
        · exact h
        · simp only [List.mem_singleton] at h
          exact absurd h hxv
      obtain ⟨n1, a1, n2, h1, h2, h3, h4⟩ := ih hxn
      refine ⟨n1, a1, n2 ++ [v], h1, by rw [h2, List.append_assoc], ?_, fun _ => by simp⟩
      intro z hz
      rcases List.mem_append.mp hz with h | h
      · rcases h3 z h with h5 | h5
        · exact Or.inl (List.mem_append_left _ h5)
        · exact Or.inr h5
      · simp only [List.mem_singleton] at h
        subst h
        rw [hprev]
        by_cases hxu : x = u
        · exact Or.inr hxu.symm
        · exact Or.inl (List.mem_append_left _ (h4 hxu))

/-- The first sum that leaves the `int` range: it relaxes an entry that leads back into
the chain of `u`, so `previo` gets a cycle, and the distance written is so small that a
walk back to the source stays negative. -/
theorem desborde_Cerrado (g : grafo) (hc : Construido g) (hpos : PesosNoNegativos g)
    (hS : pesoTotal g < INF) (s : Int) (hs : 0 ≤ s) (A : Int → Int → Int → Prop)
    (st : Estado) (proc : List Int) (m u v w : Int)
    (hI : InvG g s A st) (hP : InvP g s st proc m) (hu : u ∈ proc)
    (huI : st.dist u < INF) (hov : ¬ st.dist u + w ≤ INF)
    (hv0 : 0 ≤ v) (hv1 : v < (g.departamentos.length : Int)) (harc : Arco g u v w) :
    (∃ C, Cerrado (relajarArista u v w st) C ∧ C u) ∧ Hundido g s (relajarArista u v w st) := by
  have hwf := Construido_BienFormado g hc
  have hvD : v < (st.distancias.length : Int) := by rw [hI.lenD]; exact hv1
  have hvP : v < (st.previo.length : Int) := by rw [hI.lenP]; exact hv1
  have hur := dist_rango st _ hI.lenD u (by omega)
  have hu0 : 0 ≤ st.dist u :=
    hP.nonneg _ (leer_mem _ _ _ hur.1 (by rw [hI.lenD]; exact hur.2))
  have hdv0 : 0 ≤ st.dist v := hP.nonneg _ (leer_mem _ _ _ hv0 hvD)
  have hnn : ∀ z, 0 ≤ st.dist z := by
    intro z
    by_cases hz : 0 ≤ z ∧ z < (st.distancias.length : Int)
    · exact hP.nonneg _ (leer_mem _ _ _ hz.1 hz.2)
    · unfold Estado.dist
      rw [leer_fuera _ _ _ (by omega)]
      unfold INF; omega
  obtain ⟨cu, cw⟩ := cota_suma g hc hpos s st proc m u v w hP hu harc
  have hw0 := arco_peso g hpos u v w harc
  have hwrap : wrap32 (st.dist u + w) = st.dist u + w - 4294967296 := by
    unfold wrap32
    unfold INF at hov hS
    omega
  obtain ⟨nodos, arcos, hcad, hsub⟩ := hP.cadenas u hu
  obtain ⟨k1, k2, k3, k4, k5, k6, k7⟩ := Cadena_props g s st u nodos arcos hcad
  -- the neighbour lies on the chain of `u`
  have hvn : v ∈ nodos := by
    by_contra hvn
    have hL := suma_arcos_le g hc hpos (arcos ++ [(u, v, w)])
      (by
        intro e he
        rcases List.mem_append.mp he with h | h
        · exact (k4 e h).1
        · simp only [List.mem_singleton] at h
          rw [h]; exact harc)
      (by
        rw [List.pairwise_append]
        refine ⟨k5, by simp, ?_⟩
        intro a ha b hb
        simp only [List.mem_singleton] at hb
        subst hb
        obtain ⟨_, a1, a2, _⟩ := k4 a ha
        unfold mismosExtremos
        simp only
        rintro (⟨_, e2⟩ | ⟨e1, _⟩)
        · exact hvn (e2 ▸ a2)
        · exact hvn (e1 ▸ a1))
    simp only [List.map_append, List.sum_append, List.map_cons, List.map_nil, List.sum_cons,
      List.sum_nil, add_zero] at hL
    rw [← k6] at hL
    omega
  have hvu : v ≠ u := by
    intro hvu
    have hL := suma_arcos_le g hc hpos (arcos ++ [(u, v, w)])
      (by
        intro e he
        rcases List.mem_append.mp he with h | h
        · exact (k4 e h).1
        · simp only [List.mem_singleton] at h
          rw [h]; exact harc)
      (by
        rw [List.pairwise_append]
        refine ⟨k5, by simp, ?_⟩
        intro a ha b hb
        simp only [List.mem_singleton] at hb
        subst hb
        obtain ⟨_, _, _, a3⟩ := k4 a ha
        unfold mismosExtremos
        simp only
        rintro (⟨e1, e2⟩ | ⟨e1, e2⟩)
        · exact a3 (by rw [e1, e2, hvu])
        · exact a3 (by rw [e1, e2, hvu]))
    simp only [List.map_append, List.sum_append, List.map_cons, List.map_nil, List.sum_cons,
      List.sum_nil, add_zero] at hL
    rw [← k6] at hL
    omega
  obtain ⟨n1, a1, n2, hc1, hsplit, hlinks, hun2⟩ := Cadena_prefijo g s st u nodos arcos hcad v hvn
  have hun2 : u ∈ n2 := hun2 hvu
  obtain ⟨q1, q2, q3, q4, q5, q6, q7⟩ := Cadena_props g s st v n1 a1 hc1
  have hvn1 : v ∈ n1 := mem_of_getLast _ _ q2
  have hdisj : ∀ z, z ∈ n1 → z ∈ n2 → False := by
    rw [hsplit, List.nodup_append] at k1
    exact fun z h1 h2 => k1.2.2 h1 h2
  have hrn : ∀ z ∈ nodos, 0 ≤ z := Cadena_rango g hwf s hs st u nodos arcos hcad
  -- the chain of `v` followed by the entry to `u` joins different pairs of nodes
  have hRw : st.dist v + w ≤ pesoTotal g := by
    have hL := suma_arcos_le g hc hpos (a1 ++ [(v, u, w)])
      (by
        intro e he
        rcases List.mem_append.mp he with h | h
        · exact (q4 e h).1
        · simp only [List.mem_singleton] at h
          rw [h]; exact arco_simetrico g hc u v w harc)
      (by
        rw [List.pairwise_append]
        refine ⟨q5, by simp, ?_⟩
        intro a ha b hb
        simp only [List.mem_singleton] at hb
        subst hb
        obtain ⟨_, b1, b2, _⟩ := q4 a ha
        unfold mismosExtremos
        simp only
        rintro (⟨_, e2⟩ | ⟨e1, _⟩)
        · exact hdisj u (e2 ▸ b2) hun2
        · exact hdisj u (e1 ▸ b1) hun2)
    simp only [List.map_append, List.sum_append, List.map_cons, List.map_nil, List.sum_cons,
      List.sum_nil, add_zero] at hL
    rw [← q6] at hL
    exact hL
  rcases relajarArista_efecto u v w st hv0 hvD hvP with ⟨hno, _⟩ | ⟨hsi, hd, hp, _, _, _⟩
  · exfalso
    rw [hwrap] at hno
    unfold INF at huI hS hov
    omega
  · rw [hwrap] at hd
    constructor
    · refine ⟨fun z => z ∈ n2 ∨ z = v, ⟨?_, ?_⟩, Or.inl hun2⟩
      · intro z hz
        rcases hz with hz | hz
        · have hzv : z ≠ v := fun h => hdisj v hvn1 (h ▸ hz)
          rw [hp z, if_neg hzv]
          have hlink := hlinks z hz
          refine ⟨?_, hlink⟩
          rcases hlink with h | h
          · have := hrn (st.prev z) (by rw [hsplit]; exact List.mem_append_right _ h)
            omega
          · omega
        · rw [hp z, if_pos hz]
          exact ⟨by omega, Or.inl hun2⟩
      · intro z hz
        by_cases hzv : z = v
        · exact Or.inr hzv
        · rw [hd z, if_neg hzv] at hz
          have := hnn z
          omega
    · refine ⟨v, st.dist v, ?_, ?_⟩
      · have := esRecorrido_Recorrido g n1 _ s v q7 q3 q2
        rw [← q6] at this
        exact Recorrido_inverso g hc s v _ this
      · rw [hd v, if_pos rfl]
        unfold INF at huI hS
        omega

/-! ## The phases of a run are preserved -/

theorem relajarArista_dist_le (g : grafo) (s : Int) (A : Int → Int → Int → Prop)
    (st : Estado) (u v w : Int) (hI : InvG g s A st)
    (hv0 : 0 ≤ v) (hv1 : v < (g.departamentos.length : Int)) (z : Int) :
    (relajarArista u v w st).dist z ≤ st.dist z := by
  have hvD : v < (st.distancias.length : Int) := by rw [hI.lenD]; exact hv1
  have hvP : v < (st.previo.length : Int) := by rw [hI.lenP]; exact hv1
  rcases relajarArista_efecto u v w st hv0 hvD hvP with ⟨_, e⟩ | ⟨hsi, hd, _, _, _, _⟩
  · rw [e]
  · rw [hd z]
    split
    · rename_i hz; rw [hz]; omega
    · exact le_refl _

theorem Hundido_mono (g : grafo) (s : Int) (st st2 : Estado)
    (hle : ∀ z, st2.dist z ≤ st.dist z) (h : Hundido g s st) : Hundido g s st2 := by
  obtain ⟨x, R, hr, hlt⟩ := h
  exact ⟨x, R, hr, by have := hle x; omega⟩

theorem relajarArista_FaseU (g : grafo) (hc : Construido g) (hpos : PesosNoNegativos g)
    (hS : pesoTotal g < INF) (s : Int) (hs : 0 ≤ s) (A : Int → Int → Int → Prop)
    (st : Estado) (u v w : Int)
    (hI : InvG g s A st) (hF : FaseU g s st u) (huI : st.dist u < INF)
    (hv0 : 0 ≤ v) (hv1 : v < (g.departamentos.length : Int)) (harc : Arco g u v w) :
    FaseU g s (relajarArista u v w st) u := by
  have hvD : v < (st.distancias.length : Int) := by rw [hI.lenD]; exact hv1
  have hvP : v < (st.previo.length : Int) := by rw [hI.lenP]; exact hv1
  have hur := dist_rango st _ hI.lenD u (by omega)
  rcases hF with ⟨proc, m, hP, hu, hum⟩ | hraiz | ⟨⟨C, hC, hCu⟩, hH⟩
  · by_cases hov : st.dist u + w ≤ INF
    · obtain ⟨hP1, hum1⟩ := relajarArista_InvP g s A st proc m u v w hI hP hu hum huI
        (arco_peso g hpos u v w harc) hov hv0 hv1 harc
      exact Or.inl ⟨proc, m, hP1, hu, hum1⟩
    · exact Or.inr (Or.inr
        (desborde_Cerrado g hc hpos hS s hs A st proc m u v w hI hP hu huI hov hv0 hv1 harc))
  · right; left
    rcases relajarArista_efecto u v w st hv0 hvD hvP with ⟨_, e⟩ | ⟨_, _, hp, _, _, _⟩
    · rw [e]; exact hraiz
    · rw [hp s]
      split
      · omega
      · exact hraiz
  · right; right
    refine ⟨?_, Hundido_mono g s st _ (relajarArista_dist_le g s A st u v w hI hv0 hv1) hH⟩
    rcases relajarArista_efecto u v w st hv0 hvD hvP with ⟨_, e⟩ | ⟨hsi, hd, hp, _, _, _⟩
    · rw [e]; exact ⟨C, hC, hCu⟩
    · refine ⟨fun z => C z ∨ z = v, ⟨?_, ?_⟩, Or.inl hCu⟩
      · intro z hz
        by_cases hzv : z = v
        · rw [hp z, if_pos hzv]
          exact ⟨by omega, Or.inl hCu⟩
        · rw [hp z, if_neg hzv]
          rcases hz with hz | hz
          · obtain ⟨a, b⟩ := hC.1 z hz
            exact ⟨a, Or.inl b⟩
          · exact absurd hz hzv
      · intro z hz
        by_cases hzv : z = v
        · exact Or.inr hzv
        · rw [hd z, if_neg hzv] at hz
          exact Or.inl (hC.2 z hz)

theorem foldl_FaseU (g : grafo) (hc : Construido g) (hpos : PesosNoNegativos g)
    (hS : pesoTotal g < INF) (s : Int) (hs : 0 ≤ s) (u : Int) (l : List (Int × Int)) :
    ∀ (A : Int → Int → Int → Prop) (st : Estado), InvG g s A st → FaseU g s st u →
    st.dist u < INF →
    (∀ e ∈ l, 0 ≤ e.1 ∧ e.1 < (g.departamentos.length : Int) ∧ Arco g u e.1 e.2) →
    FaseU g s (l.foldl (fun s e => relajarArista u e.1 e.2 s) st) u := by
  induction l with
  | nil => intro A st _ hF _ _; exact hF
  | cons e l ih =>
    intro A st hI hF huI hl
    obtain ⟨h0, h1, harc⟩ := hl e (List.mem_cons_self _ _)
    obtain ⟨hI1, hu1⟩ := relajarArista_InvG g s A st u e.1 e.2 hI huI h0 h1 harc
    have hF1 := relajarArista_FaseU g hc hpos hS s hs A st u e.1 e.2 hI hF huI h0 h1 harc
    rw [List.foldl_cons]
    exact ih _ _ hI1 hF1 hu1 (fun x hx => hl x (List.mem_cons_of_mem _ hx))

theorem FaseU_Fase (g : grafo) (s : Int) (st : Estado) (u : Int) (h : FaseU g s st u) :
    Fase g s st := by
  rcases h with ⟨proc, m, hP, _, _⟩ | h | ⟨⟨C, hC, _⟩, hH⟩
  · exact Or.inl ⟨proc, m, hP⟩
  · exact Or.inr (Or.inl h)
  · exact Or.inr (Or.inr ⟨⟨C, hC⟩, hH⟩)

theorem paso_Fase (g : grafo) (hc : Construido g) (hpos : PesosNoNegativos g)
    (hS : pesoTotal g < INF) (s : Int) (hs : 0 ≤ s) (t : Int) (st st1 : Estado)
    (hI : InvG g s (Arco g) st) (hF : Fase g s st)
    (h : paso g t st = Paso.sigue st1) : Fase g s st1 := by
  have hwf := Construido_BienFormado g hc
  obtain ⟨d, u, htop, hcase⟩ := paso_sigue g t st st1 h
  have hmem := top_mem _ _ htop
  obtain ⟨_, _, hud, hdI⟩ := hI.cola _ hmem
  simp only at hud hdI
  rcases hcase with ⟨hgt, rfl⟩ | ⟨hle, _, rfl⟩
  · rcases hF with ⟨proc, m, hP⟩ | hraiz | ⟨⟨C, hC⟩, hH⟩
    · exact Or.inl ⟨proc, m, InvP_pop_viejo g s st proc m d u hP hgt⟩
    · exact Or.inr (Or.inl hraiz)
    · exact Or.inr (Or.inr ⟨⟨C, hC⟩, hH⟩)
  · have hI1 := (InvG_pop g s st d u hI).1
    have hFU : FaseU g s { st with pq := st.pq.erase (d, u) } u := by
      rcases hF with ⟨proc, m, hP⟩ | hraiz | ⟨⟨C, hC⟩, hH⟩
      · obtain ⟨_, _, hP1⟩ := InvP_pop_nuevo g s _ st proc m d u hI hP htop hle
        exact Or.inl ⟨u :: proc, st.dist u, hP1, List.mem_cons_self _ _, rfl⟩
      · exact Or.inr (Or.inl hraiz)
      · by_cases hneg : st.dist u < 0
        · exact Or.inr (Or.inr ⟨⟨C, hC, hC.2 u hneg⟩, hH⟩)
        · right; left
          have hs0 := hundido_origen g s st hI hpos hH (by
            intro e he
            have := top_le_fst _ _ htop e he
            simp only at this
            omega)
          exact (hC.1 s (hC.2 s hs0)).1
    apply FaseU_Fase g s _ u
    apply foldl_FaseU g hc hpos hS s hs u _ _ _ hI1 hFU (by show st.dist u < INF; omega)
    intro e he
    have harc : Arco g u e.1 e.2 := he
    obtain ⟨a, b⟩ := arco_rango g hwf u e.1 e.2 harc
    exact ⟨a, b, harc⟩

/-- In the state in which the loop is left with a distance for the target, either the
predecessor links form a chain from the source to the target, or the reconstruction of
the path never ends. -/
theorem salida_Fase (g : grafo) (hpos : PesosNoNegativos g) (s t : Int) (st0 st1 : Estado)
    (hI : InvG g s (Arco g) st0) (hF : Fase g s st0)
    (hfin : paso g t st0 = Paso.termina st1) (hne : st1.dist t ≠ INF) :
    (∃ nodos arcos, Cadena g s st1 t nodos arcos) ∨
    (∀ fuel acc, reconstruir g.departamentos st1.previo fuel t acc = none) := by
  obtain ⟨hD, hPr, hcase⟩ := paso_termina g t st0 st1 hfin
  have hdist : ∀ v, st1.dist v = st0.dist v := by
    intro v; unfold Estado.dist; rw [hD]
  have hlt : st0.dist t < INF := by
    have := InvG_dist_le g s _ st0 hI t
    rw [hdist] at hne
    omega
  have hraiz : st0.prev s ≠ -1 →
      ∀ fuel acc, reconstruir g.departamentos st1.previo fuel t acc = none := by
    intro h fuel acc
    rw [hPr]
    exact reconstruir_sin_fin_raiz g s _ st0 hI h fuel t acc hlt
  rcases hF with ⟨proc, m, hP⟩ | h | ⟨⟨C, hC⟩, hH⟩
  · exact Or.inl (salida_cadena g s t st0 st1 proc m hI hP hfin hne)
  · exact Or.inr (hraiz h)
  · right
    have hkeys : (∀ e ∈ st0.pq, 0 ≤ e.1) →
        ∀ fuel acc, reconstruir g.departamentos st1.previo fuel t acc = none := by
      intro hk
      have hs0 := hundido_origen g s st0 hI hpos hH hk
      exact hraiz (hC.1 s (hC.2 s hs0)).1
    rcases hcase with ⟨hq, _⟩ | ⟨d, htop, hle, _⟩
    · exact hkeys (by rw [hq]; simp)
    · have hdt := (hI.cola _ (top_mem _ _ htop)).2.2.1
      simp only at hdt
      by_cases hneg : st0.dist t < 0
      · intro fuel acc
        rw [hPr]
        exact reconstruir_sin_fin_cerrado _ st0 C hC fuel t acc (hC.2 t hneg)
      · apply hkeys
        intro e he
        have := top_le_fst _ _ htop e he
        simp only at this
        omega

theorem estadoInicial_Fase (g : grafo) (s : Int) (h0 : 0 ≤ s)
    (h1 : s < (g.departamentos.length : Int)) :
    Fase g s (estadoInicial g.departamentos.length s) :=
  Or.inl ⟨[], 0, estadoInicial_InvP g s h0 h1⟩

/-- A reported path is the chain of the target, and the reported cost its weight. -/
theorem calcular_ruta_cadena (g : grafo) (hc : Construido g) (hpos : PesosNoNegativos g)
    (hS : pesoTotal g < INF) (a b : String) (fuel : Nat) (c : Int) (camino : List String)
    (h : g.calcularRutaMasCorta a b fuel = some (Salida.ruta c camino)) :
    ∃ nodos pesos, esRecorrido g nodos pesos ∧
      nodos.head? = some (g.obtenerIdNodo a) ∧ nodos.getLast? = some (g.obtenerIdNodo b) ∧
      nodos.Nodup ∧
      camino = nodos.map (fun i => leer g.departamentos i "") ∧ c = pesos.sum := by
  have hwf := Construido_BienFormado g hc
  obtain ⟨ha, hb, st, r, hbu, hne, hcd, hr, hcam⟩ := calcular_ruta g a b fuel c camino h
  obtain ⟨ha0, ha1, _⟩ := obtenerIdNodo_spec g a ha
  obtain ⟨st0, ⟨hI, hF⟩, hfin⟩ := bucle_inv g (g.obtenerIdNodo b)
    (fun x => InvG g (g.obtenerIdNodo a) (Arco g) x ∧ Fase g (g.obtenerIdNodo a) x)
    (fun x y hx hxy => ⟨paso_InvG g hwf _ _ x y hx.1 hxy,
      paso_Fase g hc hpos hS _ ha0 _ x y hx.1 hx.2 hxy⟩)
    fuel _ st ⟨estadoInicial_InvG g _ ha0 ha1, estadoInicial_Fase g _ ha0 ha1⟩ hbu
  rcases salida_Fase g hpos _ _ st0 st hI hF hfin hne with ⟨nodos, arcos, hcad⟩ | hnone
  · obtain ⟨h1, h2, h3, _, _, h6, h7⟩ := Cadena_props g _ st _ nodos arcos hcad
    have hrango := Cadena_rango g hwf _ ha0 st _ nodos arcos hcad
    have hrec := reconstruir_Cadena g _ st _ nodos arcos hcad ha0 hrango fuel []
    have hr2 := reconstruir_mono _ _ fuel _ _ r hr (nodos.length + 1)
    rw [Nat.add_comm] at hr2
    rw [hrec] at hr2
    have hr3 := Option.some.inj hr2
    refine ⟨nodos, arcos.map (fun e => e.2.2), h7, h3, h2, h1, ?_, ?_⟩
    · rw [hcam, ← hr3]
      simp
    · rw [hcd, h6]
  · rw [hnone fuel []] at hr
    exact absurd hr (by simp)

/-! ## Claims about the graph store -/

/-- C8. `agregarVertices` reports the missing node exactly when `obtenerIdNodo` fails on
the origin or on the destination, and in that case the store after the call is the
store before it (same names, same adjacency records, no half edge). -/
theorem agregarVertices_nodo_inexistente (g : grafo) (origen destino : String) (peso : Int) :
    ((g.agregarVertices origen destino peso).1 = ResultadoArista.nodoNoExiste ↔
      (g.obtenerIdNodo origen = -1 ∨ g.obtenerIdNodo destino = -1)) ∧
    ((g.obtenerIdNodo origen = -1 ∨ g.obtenerIdNodo destino = -1) →
      (g.agregarVertices origen destino peso).2 = g) := by
  constructor
  · constructor
    · intro h
      by_contra hc
      have ho : g.obtenerIdNodo origen ≠ -1 := fun e => hc (Or.inl e)
      have hd : g.obtenerIdNodo destino ≠ -1 := fun e => hc (Or.inr e)
      rw [(agregarVertices_ok g origen destino peso ho hd).1] at h
      exact absurd h (by decide)
    · intro h
      rw [agregarVertices_falla g origen destino peso h]
  · intro h
    rw [agregarVertices_falla g origen destino peso h]

theorem agregarVertices_nodo_inexistente_witness :
    redPartida.obtenerIdNodo "Z" = -1 ∧
    (redPartida.agregarVertices "A" "Z" 3).1 = ResultadoArista.nodoNoExiste ∧
    (redPartida.agregarVertices "A" "Z" 3).2 = redPartida :=
  have h := agregarVertices_nodo_inexistente redPartida "A" "Z" 3
  ⟨by decide, h.1.mpr (Or.inr (by decide)), h.2 (Or.inr (by decide))⟩

/-- C10. On a well-formed store, a call of `agregarVertices` whose two names resolve to
`u` and `v` is reported as added, keeps the names and the number of records, appends
`(v, peso)` to the record of `u` and `(u, peso)` to the record of `v` when `u ≠ v`,
appends `(u, peso), (u, peso)` to the record of `u` when `u = v`, and leaves every
other record as it was. -/
theorem agregarVertices_exito (g : grafo) (hwf : BienFormado g) (origen destino : String)
    (peso : Int) (ho : g.obtenerIdNodo origen ≠ -1) (hd : g.obtenerIdNodo destino ≠ -1) :
    (g.agregarVertices origen destino peso).1 = ResultadoArista.agregada ∧
    (g.agregarVertices origen destino peso).2.departamentos = g.departamentos ∧
    (g.agregarVertices origen destino peso).2.nodo.length = g.nodo.length ∧
    (g.obtenerIdNodo origen ≠ g.obtenerIdNodo destino →
      leer (g.agregarVertices origen destino peso).2.nodo (g.obtenerIdNodo origen) [] =
        leer g.nodo (g.obtenerIdNodo origen) [] ++ [g.obtenerIdNodo destino, peso] ∧
      leer (g.agregarVertices origen destino peso).2.nodo (g.obtenerIdNodo destino) [] =
        leer g.nodo (g.obtenerIdNodo destino) [] ++ [g.obtenerIdNodo origen, peso]) ∧
    (g.obtenerIdNodo origen = g.obtenerIdNodo destino →
      leer (g.agregarVertices origen destino peso).2.nodo (g.obtenerIdNodo origen) [] =
        leer g.nodo (g.obtenerIdNodo origen) [] ++
          [g.obtenerIdNodo origen, peso, g.obtenerIdNodo origen, peso]) ∧
    (∀ i : Int, i ≠ g.obtenerIdNodo origen → i ≠ g.obtenerIdNodo destino →
      leer (g.agregarVertices origen destino peso).2.nodo i [] = leer g.nodo i []) := by
  refine ⟨(agregarVertices_ok g origen destino peso ho hd).1,
    (length_agregarVertices g origen destino peso).2,
    (length_agregarVertices g origen destino peso).1, ?_, ?_, ?_⟩
  · intro hne
    constructor
    · rw [leer_agregarVertices g origen destino peso hwf.longitud ho hd]
      simp [hne]
    · rw [leer_agregarVertices g origen destino peso hwf.longitud ho hd]
      simp [Ne.symm hne]
  · intro he
    rw [leer_agregarVertices g origen destino peso hwf.longitud ho hd]
    simp [he]
  · intro i hio hid
    rw [leer_agregarVertices g origen destino peso hwf.longitud ho hd]
    simp [hio, hid]

theorem agregarVertices_exito_witness :
    BienFormado redPartida ∧ redPartida.obtenerIdNodo "B" ≠ -1 ∧
    redPartida.obtenerIdNodo "C" ≠ -1 ∧
    (redPartida.agregarVertices "B" "C" 7).1 = ResultadoArista.agregada ∧
    leer (redPartida.agregarVertices "B" "C" 7).2.nodo 1 [] = [0, 5, 2, 7] ∧
    leer (redPartida.agregarVertices "B" "C" 7).2.nodo 2 [] = [1, 7] :=
  have hwf : BienFormado redPartida :=
    { longitud := by decide, par := by decide, vecinos := by decide }
  have h := agregarVertices_exito redPartida hwf "B" "C" 7 (by decide) (by decide)
  ⟨hwf, by decide, by decide, h.1, (h.2.2.2.1 (by decide)).1, (h.2.2.2.1 (by decide)).2⟩

/-! ## Claims about `calcularRutaMasCorta` -/

/-- C1. Optimality: on a store built by `agregarNodo` and `agregarVertices` with
non-negative weights and a total edge weight below `INF`, a reported total cost is at
most the weight sum of every walk through the adjacency records from the source index
to the target index. -/
theorem calcularRutaMasCorta_optima (g : grafo) (hc : Construido g)
    (hpos : PesosNoNegativos g) (_hsum : pesoTotal g < INF) (inicio fin : String)
    (fuel : Nat) (c : Int) (camino : List String)
    (h : g.calcularRutaMasCorta inicio fin fuel = some (Salida.ruta c camino))
    (nodos pesos : List Int) (hw : esRecorrido g nodos pesos)
    (h1 : nodos.head? = some (g.obtenerIdNodo inicio))
    (h2 : nodos.getLast? = some (g.obtenerIdNodo fin)) : c ≤ pesos.sum := by
  obtain ⟨ha, _, st, r, hb, hne, hcd, _, _⟩ := calcular_ruta g inicio fin fuel c camino h
  obtain ⟨st0, hI, hfin⟩ :=
    calcular_final g (Construido_BienFormado g hc) inicio fin fuel st ha hb
  rw [hcd]
  exact salida_optima g _ _ st0 st hI hpos hfin hne _
    (esRecorrido_Recorrido g nodos pesos _ _ hw h1 h2)

theorem calcularRutaMasCorta_optima_witness :
    Construido redMain ∧ PesosNoNegativos redMain ∧ pesoTotal redMain < INF ∧
    redMain.calcularRutaMasCorta "A" "B" 15 = some (Salida.ruta 120 ["A", "3", "7", "B"]) ∧
    esRecorrido redMain [0, 5, 9, 1] [12, 75, 40] ∧ (120 : Int) ≤ [12, 75, 40].sum :=
  have hpos : PesosNoNegativos redMain := redMain_PesosNoNegativos
  have hsum : pesoTotal redMain < INF := by rw [redMain_eq]; decide
  have hrun : redMain.calcularRutaMasCorta "A" "B" 15 =
      some (Salida.ruta 120 ["A", "3", "7", "B"]) := by decide!
  have hw : esRecorrido redMain [0, 5, 9, 1] [12, 75, 40] := by
    rw [redMain_eq]; simp only [esRecorrido, Arco, and_true]; decide
  ⟨redMain_Construido, hpos, hsum, hrun, hw,
    calcularRutaMasCorta_optima redMain redMain_Construido hpos hsum "A" "B" 15 120 _ hrun
      [0, 5, 9, 1] [12, 75, 40] hw (by rw [redMain_eq]; decide) (by rw [redMain_eq]; decide)⟩

/-- C4. Path endpoints: on a well-formed store with non-negative weights, a reported
path is not empty, starts with the name of the source and ends with the name of the
target. -/
theorem calcularRutaMasCorta_extremos (g : grafo) (hwf : BienFormado g)
    (_hpos : PesosNoNegativos g) (inicio fin : String) (fuel : Nat) (c : Int)
    (camino : List String)
    (h : g.calcularRutaMasCorta inicio fin fuel = some (Salida.ruta c camino)) :
    camino ≠ [] ∧ camino.head? = some inicio ∧ camino.getLast? = some fin := by
  obtain ⟨ha, hb, st, r, hbu, hne, _, hr, hcam⟩ := calcular_ruta g inicio fin fuel c camino h
  obtain ⟨st0, hI, hfin⟩ := calcular_final g hwf inicio fin fuel st ha hbu
  obtain ⟨hD, hP, _⟩ := paso_termina g _ st0 st hfin
  have hdist : st0.dist (g.obtenerIdNodo fin) < INF := by
    have h1 : st0.dist (g.obtenerIdNodo fin) = st.dist (g.obtenerIdNodo fin) := by
      unfold Estado.dist; rw [hD]
    have h2 := InvG_dist_le g _ _ st0 hI (g.obtenerIdNodo fin)
    rw [h1] at h2 ⊢
    omega
  rw [hP] at hr
  obtain ⟨l, hl, hh, hlast⟩ := reconstruir_extremos g _ _ st0 hI fuel _ [] r hdist hr
  simp only [List.nil_append] at hl
  subst hl
  rw [(obtenerIdNodo_spec g fin hb).2.2] at hh
  rw [(obtenerIdNodo_spec g inicio ha).2.2] at hlast
  subst hcam
  refine ⟨?_, ?_, ?_⟩
  · intro hnil
    rw [List.reverse_eq_nil_iff] at hnil
    rw [hnil] at hh
    simp at hh
  · rw [List.head?_reverse]; exact hlast
  · rw [List.getLast?_reverse]; exact hh

theorem calcularRutaMasCorta_extremos_witness :
    BienFormado redMain ∧ PesosNoNegativos redMain ∧
    redMain.calcularRutaMasCorta "A" "B" 15 = some (Salida.ruta 120 ["A", "3", "7", "B"]) ∧
    ["A", "3", "7", "B"] ≠ [] ∧ ["A", "3", "7", "B"].head? = some "A" ∧
    ["A", "3", "7", "B"].getLast? = some "B" :=
  have hwf : BienFormado redMain := Construido_BienFormado _ redMain_Construido
  have hpos : PesosNoNegativos redMain := redMain_PesosNoNegativos
  have hrun : redMain.calcularRutaMasCorta "A" "B" 15 =
      some (Salida.ruta 120 ["A", "3", "7", "B"]) := by decide!
  have h := calcularRutaMasCorta_extremos redMain hwf hpos "A" "B" 15 120 _ hrun
  ⟨hwf, hpos, hrun, h.1, h.2.1, h.2.2⟩

/-- C5. Source equal to target: in every store state and for every registered name `x`,
the run from `x` to `x` ends (two units of fuel are enough) and reports the total cost
`0` and the path `[x]`. -/
theorem calcularRutaMasCorta_mismo_nodo (g : grafo) (x : String)
    (hx : g.obtenerIdNodo x ≠ -1) (fuel : Nat) (hfuel : 2 ≤ fuel) :
    g.calcularRutaMasCorta x x fuel = some (Salida.ruta 0 [x]) := by
  obtain ⟨k, rfl⟩ := Nat.exists_eq_add_of_le hfuel
  rw [Nat.add_comm]
  exact calcular_mismo g x hx k

theorem calcularRutaMasCorta_mismo_nodo_witness :
    redMain.obtenerIdNodo "7" ≠ -1 ∧
    redMain.calcularRutaMasCorta "7" "7" 2 = some (Salida.ruta 0 ["7"]) :=
  ⟨by rw [redMain_eq]; decide,
    calcularRutaMasCorta_mismo_nodo redMain "7" (by rw [redMain_eq]; decide) 2 (le_refl 2)⟩

/-- C7. Unreachable target: on a well-formed store with non-negative weights and for
registered names, when no walk through the adjacency records leads from the source
index to the target index, the run ends (for every large enough fuel) and reports
`sinRuta`, the 'No hay ruta posible' branch, hence neither a cost nor a path. -/
theorem calcularRutaMasCorta_inalcanzable (g : grafo) (hwf : BienFormado g)
    (_hpos : PesosNoNegativos g) (inicio fin : String)
    (hi : g.obtenerIdNodo inicio ≠ -1) (hf : g.obtenerIdNodo fin ≠ -1)
    (hno : ∀ nodos pesos, esRecorrido g nodos pesos →
      nodos.head? = some (g.obtenerIdNodo inicio) →
      nodos.getLast? ≠ some (g.obtenerIdNodo fin)) :
    ∃ N, ∀ fuel, N ≤ fuel → g.calcularRutaMasCorta inicio fin fuel = some Salida.sinRuta := by
  obtain ⟨N, st, hN⟩ := calcular_total g hwf inicio fin hi
  refine ⟨N, fun fuel hfuel => ?_⟩
  have hb := hN fuel hfuel
  obtain ⟨st0, hI, hfin⟩ := calcular_final g hwf inicio fin fuel st hi hb
  obtain ⟨hD, _, _⟩ := paso_termina g _ st0 st hfin
  apply calcular_sinRuta_intro g inicio fin fuel st hi hf hb
  have h1 : st.dist (g.obtenerIdNodo fin) = st0.dist (g.obtenerIdNodo fin) := by
    unfold Estado.dist; rw [hD]
  rw [h1]
  by_contra hne
  have hle := InvG_dist_le g _ _ st0 hI (g.obtenerIdNodo fin)
  obtain ⟨p, hp⟩ := hI.alcanz (g.obtenerIdNodo fin) (by omega)
  obtain ⟨nodos, pesos, hw, hh, hl, _⟩ := Recorrido_esRecorrido g _ _ p hp
  exact hno nodos pesos hw hh hl

theorem calcularRutaMasCorta_inalcanzable_witness :
    BienFormado redPartida ∧ PesosNoNegativos redPartida ∧
    redPartida.obtenerIdNodo "A" ≠ -1 ∧ redPartida.obtenerIdNodo "C" ≠ -1 ∧
    ∃ N, ∀ fuel, N ≤ fuel →
      redPartida.calcularRutaMasCorta "A" "C" fuel = some Salida.sinRuta :=
  have hwf : BienFormado redPartida :=
    { longitud := by decide, par := by decide, vecinos := by decide }
  have hpos : PesosNoNegativos redPartida := by unfold PesosNoNegativos; decide!
  ⟨hwf, hpos, by decide, by decide,
    calcularRutaMasCorta_inalcanzable redPartida hwf hpos "A" "C" (by decide) (by decide)
      (fun nodos pesos hw hh hl => by
        have hid : redPartida.obtenerIdNodo "A" = 0 := by decide
        have hid2 : redPartida.obtenerIdNodo "C" = 2 := by decide
        rw [hid] at hh
        rw [hid2] at hl
        have := redPartida_sin_recorrido 2 _
          (esRecorrido_Recorrido redPartida nodos pesos 0 2 hw hh hl)
        omega)⟩

/-- C3 (as the code behaves). On the topology loaded by `main`, the run from `A` to `B`
ends and reports the total cost 120 and the path `A -> 3 -> 7 -> B`; it reports
nothing else. -/
theorem main_reporta_120 :
    reporta redMain "A" "B" (Salida.ruta 120 ["A", "3", "7", "B"]) ∧
    ∀ r, reporta redMain "A" "B" r → r = Salida.ruta 120 ["A", "3", "7", "B"] :=
  have h : reporta redMain "A" "B" (Salida.ruta 120 ["A", "3", "7", "B"]) :=
    ⟨15, by decide!⟩
  ⟨h, fun r hr => reporta_unico redMain "A" "B" r _ hr h⟩

/-- C3 as stated fails: on the topology loaded by `main`, the run from `A` to `B` does
not report the total cost 127 with the path `A -> 2 -> 7 -> 10 -> B`. -/
theorem main_no_reporta_127 :
    ¬ reporta redMain "A" "B" (Salida.ruta 127 ["A", "2", "7", "10", "B"]) := by
  intro h
  have h2 : reporta redMain "A" "B" (Salida.ruta 120 ["A", "3", "7", "B"]) :=
    ⟨15, by decide!⟩
  have := reporta_unico redMain "A" "B" _ _ h h2
  exact absurd this (by decide)

/-- C9 (as the code behaves). Endpoint validation: in every store state and for all
names, the run reports `nodosNoValidos` (with any fuel) iff `obtenerIdNodo` fails on
the source or on the target, and then reports nothing else; when both resolve, on a
store built by the interface with non-negative weights in which twice the total edge
weight is at most `INF`, the run ends and reports either `sinRuta` or a cost with a
path. -/
theorem calcularRutaMasCorta_validacion (g : grafo) (inicio fin : String) :
    (∀ fuel, g.calcularRutaMasCorta inicio fin fuel = some Salida.nodosNoValidos ↔
      (g.obtenerIdNodo inicio = -1 ∨ g.obtenerIdNodo fin = -1)) ∧
    (Construido g → PesosNoNegativos g → 2 * pesoTotal g ≤ INF →
      g.obtenerIdNodo inicio ≠ -1 → g.obtenerIdNodo fin ≠ -1 →
      ∃ N, ∀ fuel, N ≤ fuel →
        g.calcularRutaMasCorta inicio fin fuel = some Salida.sinRuta ∨
        ∃ c camino, g.calcularRutaMasCorta inicio fin fuel = some (Salida.ruta c camino)) := by
  constructor
  · intro fuel
    constructor
    · intro h
      by_contra hc
      unfold grafo.calcularRutaMasCorta at h
      simp only [hc, if_false] at h
      split at h
      · simp at h
      · split at h
        · simp at h
        · split at h <;> simp at h
    · intro h
      unfold grafo.calcularRutaMasCorta
      simp [h]
  · intro hc hpos h2S ha hb
    obtain ⟨N, hN⟩ := calcular_correcto g hc hpos h2S inicio fin ha hb
    refine ⟨N, fun fuel hfuel => ?_⟩
    rcases hN fuel hfuel with ⟨h1, _⟩ | ⟨nodos, pesos, h1, _⟩
    · exact Or.inl h1
    · exact Or.inr ⟨_, _, h1⟩

theorem calcularRutaMasCorta_validacion_witness :
    redMain.calcularRutaMasCorta "A" "Z" 0 = some Salida.nodosNoValidos ∧
    ∃ N, ∀ fuel, N ≤ fuel →
      redMain.calcularRutaMasCorta "A" "B" fuel = some Salida.sinRuta ∨
      ∃ c camino, redMain.calcularRutaMasCorta "A" "B" fuel = some (Salida.ruta c camino) :=
  have h := calcularRutaMasCorta_validacion redMain "A" "B"
  have hz := calcularRutaMasCorta_validacion redMain "A" "Z"
  ⟨(hz.1 0).mpr (Or.inr (by rw [redMain_eq]; decide)),
    h.2 redMain_Construido redMain_PesosNoNegativos (by rw [redMain_eq]; decide)
      (by rw [redMain_eq]; decide) (by rw [redMain_eq]; decide)⟩

/-- C9 as stated fails: on `redDesborde` the names `A` and `C` are registered, and the
run from `A` to `C` yields no result at all, whatever the fuel. -/
theorem validacion_sin_resultado :
    redDesborde.obtenerIdNodo "A" ≠ -1 ∧ redDesborde.obtenerIdNodo "C" ≠ -1 ∧
    ∀ fuel, redDesborde.calcularRutaMasCorta "A" "C" fuel = none :=
  ⟨by decide, by decide, redDesborde_diverge⟩

/-- C2. Reported cost matches reported path: on a store built by `agregarNodo` and
`agregarVertices` with non-negative weights and a total edge weight below `INF`, a
reported path is a walk of the graph: there are node indices `i0 .. ik`, from the
source index to the target index, that carry the reported names in order, and weights
`w0 .. w(k-1)` such that `(i(j+1), wj)` is an entry of the record of `ij`; the
reported total cost is `w0 + ... + w(k-1)`. -/
theorem calcularRutaMasCorta_costo_del_camino (g : grafo) (hc : Construido g)
    (hpos : PesosNoNegativos g) (hsum : pesoTotal g < INF) (inicio fin : String)
    (fuel : Nat) (c : Int) (camino : List String)
    (h : g.calcularRutaMasCorta inicio fin fuel = some (Salida.ruta c camino)) :
    ∃ nodos pesos, esRecorrido g nodos pesos ∧
      nodos.head? = some (g.obtenerIdNodo inicio) ∧
      nodos.getLast? = some (g.obtenerIdNodo fin) ∧
      camino = nodos.map (fun i => leer g.departamentos i "") ∧ c = pesos.sum := by
  obtain ⟨nodos, pesos, h1, h2, h3, _, h5, h6⟩ :=
    calcular_ruta_cadena g hc hpos hsum inicio fin fuel c camino h
  exact ⟨nodos, pesos, h1, h2, h3, h5, h6⟩

theorem calcularRutaMasCorta_costo_del_camino_witness :
    Construido redMain ∧ PesosNoNegativos redMain ∧ pesoTotal redMain < INF ∧
    redMain.calcularRutaMasCorta "A" "B" 15 = some (Salida.ruta 120 ["A", "3", "7", "B"]) ∧
    ∃ nodos pesos, esRecorrido redMain nodos pesos ∧
      nodos.head? = some (redMain.obtenerIdNodo "A") ∧
      nodos.getLast? = some (redMain.obtenerIdNodo "B") ∧
      ["A", "3", "7", "B"] = nodos.map (fun i => leer redMain.departamentos i "") ∧
      (120 : Int) = pesos.sum :=
  have hsum : pesoTotal redMain < INF := by rw [redMain_eq]; decide
  have hrun : redMain.calcularRutaMasCorta "A" "B" 15 =
      some (Salida.ruta 120 ["A", "3", "7", "B"]) := by decide!
  ⟨redMain_Construido, redMain_PesosNoNegativos, hsum, hrun,
    calcularRutaMasCorta_costo_del_camino redMain redMain_Construido redMain_PesosNoNegativos
      hsum "A" "B" 15 120 _ hrun⟩

/-! ## The store: name lookup, new nodes, mirrored entries -/

theorem leer_natCast {α : Type} (xs : List α) (k : Nat) (d : α) (h : k < xs.length) :
    leer xs (k : Int) d = xs[k] := by
  unfold leer
  have : ¬ ((k : Int) < 0) := by omega
  simp [this, List.getD_eq_getElem?_getD, List.getElem?_eq_getElem h]

theorem obtenerIdNodoDesde_no (nombre : String) (ds : List String) (i : Nat) :
    obtenerIdNodoDesde nombre ds i = -1 ↔ nombre ∉ ds := by
  induction ds generalizing i with
  | nil => simp [obtenerIdNodoDesde]
  | cons d ds ih =>
    unfold obtenerIdNodoDesde
    by_cases hd : d = nombre
    · simp only [hd, if_true, List.mem_cons, true_or, not_true_eq_false, iff_false]
      omega
    · simp only [hd, if_false, List.mem_cons, not_or]
      rw [ih (i + 1)]
      constructor
      · intro h; exact ⟨fun e => hd e.symm, h⟩
      · intro h; exact h.2

theorem obtenerIdNodoDesde_primero (nombre : String) (ds : List String) (i : Nat)
    (h : obtenerIdNodoDesde nombre ds i ≠ -1) (j : Nat)
    (hj : (i : Int) + j < obtenerIdNodoDesde nombre ds i) : ds.getD j "" ≠ nombre := by
  induction ds generalizing i j with
  | nil => simp [obtenerIdNodoDesde] at h
  | cons d ds ih =>
    unfold obtenerIdNodoDesde at h hj
    by_cases hd : d = nombre
    · simp only [hd, if_true] at hj
      omega
    · simp only [hd, if_false] at h hj
      cases j with
      | zero => simpa using hd
      | succ j =>
        rw [List.getD_cons_succ]
        exact ih (i + 1) h j (by push_cast at hj ⊢; omega)

theorem obtenerIdNodo_no (g : grafo) (nombre : String) :
    g.obtenerIdNodo nombre = -1 ↔ nombre ∉ g.departamentos :=
  obtenerIdNodoDesde_no nombre g.departamentos 0

theorem obtenerIdNodo_primero (g : grafo) (nombre : String) (h : g.obtenerIdNodo nombre ≠ -1)
    (j : Int) (h0 : 0 ≤ j) (h1 : j < g.obtenerIdNodo nombre) :
    leer g.departamentos j "" ≠ nombre := by
  have := obtenerIdNodoDesde_primero nombre g.departamentos 0 h j.toNat
    (by unfold grafo.obtenerIdNodo at h1; push_cast; omega)
  unfold leer
  simpa [not_lt.mpr h0] using this

/-- The lookup of the name stored at `i` gives `i` again, when the names are distinct. -/
theorem obtenerIdNodo_leer (g : grafo) (hnd : g.departamentos.Nodup) (i : Int) (h0 : 0 ≤ i)
    (h1 : i < (g.departamentos.length : Int)) :
    g.obtenerIdNodo (leer g.departamentos i "") = i := by
  have hmem : leer g.departamentos i "" ∈ g.departamentos := leer_mem _ _ _ h0 h1
  have hne : g.obtenerIdNodo (leer g.departamentos i "") ≠ -1 := by
    intro hc
    exact (obtenerIdNodo_no g _).mp hc hmem
  obtain ⟨a0, a1, a2⟩ := obtenerIdNodo_spec g _ hne
  generalize g.obtenerIdNodo (leer g.departamentos i "") = k at a0 a1 a2 ⊢
  obtain ⟨kn, rfl⟩ := Int.eq_ofNat_of_zero_le a0
  obtain ⟨n, rfl⟩ := Int.eq_ofNat_of_zero_le h0
  have hk : kn < g.departamentos.length := by omega
  have hn : n < g.departamentos.length := by omega
  rw [leer_natCast _ _ _ hk, leer_natCast _ _ _ hn] at a2
  have := (List.Nodup.getElem_inj_iff hnd).mp a2
  omega

theorem nodup_de_obtenerIdNodo (g : grafo)
    (h : ∀ i : Int, 0 ≤ i → i < (g.departamentos.length : Int) →
      g.obtenerIdNodo (leer g.departamentos i "") = i) : g.departamentos.Nodup := by
  rw [List.nodup_iff_injective_getElem]
  intro a b hab
  simp only at hab
  have ha := h (a.val : Int) (by omega) (by have := a.isLt; omega)
  have hb := h (b.val : Int) (by omega) (by have := b.isLt; omega)
  rw [leer_natCast _ _ _ a.isLt] at ha
  rw [leer_natCast _ _ _ b.isLt] at hb
  rw [hab] at ha
  rw [ha] at hb
  exact Fin.ext (by omega)

/-! ### `agregarNodo` -/

theorem leer_agregarNodo_nodo (g : grafo) (nombre : String) (y : Int) :
    leer (g.agregarNodo nombre).nodo y [] = leer g.nodo y [] := by
  unfold grafo.agregarNodo
  simp only
  by_cases hy : 0 ≤ y ∧ y < (g.nodo.length : Int)
  · unfold leer
    have h1 : ¬ y < 0 := by omega
    have h2 : y.toNat < g.nodo.length := by omega
    simp [h1, List.getD_eq_getElem?_getD, List.getElem?_append_left h2]
  · have h1 : leer g.nodo y [] = [] := leer_fuera _ _ _ (by omega)
    rw [h1]
    by_cases hy2 : y = (g.nodo.length : Int)
    · unfold leer
      have h3 : ¬ y < 0 := by omega
      have h4 : y.toNat = g.nodo.length := by omega
      simp [h3, h4, List.getD_eq_getElem?_getD]
    · exact leer_fuera _ _ _ (by simp only [List.length_append, List.length_singleton]; omega)

/-! ### Mirrored entries are stored equally often -/

theorem pares_leer_agregarVertices (g : grafo) (hwf : BienFormado g) (o d : String) (w : Int)
    (ho : g.obtenerIdNodo o ≠ -1) (hd : g.obtenerIdNodo d ≠ -1) (y : Int) :
    pares (leer (g.agregarVertices o d w).2.nodo y []) =
      pares (leer g.nodo y []) ++
        ((if y = g.obtenerIdNodo o then [(g.obtenerIdNodo d, w)] else []) ++
         (if y = g.obtenerIdNodo d then [(g.obtenerIdNodo o, w)] else [])) := by
  rw [leer_agregarVertices g o d w hwf.longitud ho hd y]
  have hpar : (leer g.nodo y []).length % 2 = 0 := by
    by_cases hy : 0 ≤ y ∧ y < (g.nodo.length : Int)
    · exact hwf.par _ (leer_mem _ _ _ hy.1 hy.2)
    · rw [leer_fuera _ _ _ (by omega)]; rfl
  by_cases hyo : y = g.obtenerIdNodo o
  · by_cases hyd : y = g.obtenerIdNodo d
    · rw [if_pos hyo, if_pos hyd, if_pos hyo, if_pos hyd, pares_append_par _ _ hpar]
      simp only [pares, List.singleton_append]
      rw [← hyo, ← hyd]
    · rw [if_pos hyo, if_neg hyd, if_pos hyo, if_neg hyd, pares_append_par _ _ hpar]
      simp [pares]
  · by_cases hyd : y = g.obtenerIdNodo d
    · rw [if_neg hyo, if_pos hyd, if_neg hyo, if_pos hyd, pares_append_par _ _ hpar]
      simp [pares]
    · rw [if_neg hyo, if_neg hyd, if_neg hyo, if_neg hyd]
      simp

theorem cuenta_simetrica (g : grafo) (hc : Construido g) (u v w : Int) (huv : u ≠ v) :
    (pares (leer g.nodo u [])).count (v, w) = (pares (leer g.nodo v [])).count (u, w) := by
  induction hc with
  | vacio => simp [grafo.vacio, leer, pares]
  | @nodo g0 nombre _ ih =>
    rw [leer_agregarNodo_nodo, leer_agregarNodo_nodo]
    exact ih
  | @arista g0 o d p _ hc0 ih =>
    by_cases hres : g0.obtenerIdNodo o = -1 ∨ g0.obtenerIdNodo d = -1
    · rw [agregarVertices_falla g0 o d p hres]
      exact ih
    · have ho : g0.obtenerIdNodo o ≠ -1 := fun hc => hres (Or.inl hc)
      have hd : g0.obtenerIdNodo d ≠ -1 := fun hc => hres (Or.inr hc)
      have hwf := Construido_BienFormado g0 hc0
      rw [pares_leer_agregarVertices g0 hwf o d p ho hd u,
        pares_leer_agregarVertices g0 hwf o d p ho hd v]
      simp only [List.count_append, ih]
      generalize g0.obtenerIdNodo o = a
      generalize g0.obtenerIdNodo d = b
      by_cases h1 : u = a <;> by_cases h2 : u = b <;> by_cases h3 : v = a <;>
        by_cases h4 : v = b <;> by_cases h5 : p = w <;>
        simp [h1, h2, h3, h4, h5, List.count_cons, List.count_nil] <;>
        first | omega | (subst_vars; simp_all)

/-! ## Claims about the store, continued -/

/-- C11. `agregarNodo` postcondition: in every store state, after `agregarNodo(name)`
there is one more name and one more adjacency record, the new name stands at the old
number of names, the new record (at the old number of records, the same index in a
store with one record per name) is empty, and the names and records at the old indices
are unchanged. The function is total: the call cannot fail, whether the name is
registered already or not. -/
theorem agregarNodo_postcondicion (g : grafo) (nombre : String) :
    (g.agregarNodo nombre).departamentos.length = g.departamentos.length + 1 ∧
    (g.agregarNodo nombre).nodo.length = g.nodo.length + 1 ∧
    (g.agregarNodo nombre).departamentos[g.departamentos.length]? = some nombre ∧
    (g.agregarNodo nombre).nodo[g.nodo.length]? = some [] ∧
    (∀ i, i < g.departamentos.length →
      (g.agregarNodo nombre).departamentos[i]? = g.departamentos[i]?) ∧
    (∀ i, i < g.nodo.length → (g.agregarNodo nombre).nodo[i]? = g.nodo[i]?) ∧
    (g.nodo.length = g.departamentos.length →
      (g.agregarNodo nombre).nodo.length = (g.agregarNodo nombre).departamentos.length) := by
  unfold grafo.agregarNodo
  refine ⟨by simp, by simp, by simp, by simp, ?_, ?_, ?_⟩
  · intro i hi
    simp [List.getElem?_append_left hi]
  · intro i hi
    simp [List.getElem?_append_left hi]
  · intro h
    simp [h]

theorem agregarNodo_postcondicion_witness :
    (redPartida.agregarNodo "A").departamentos = ["A", "B", "C", "A"] ∧
    (redPartida.agregarNodo "A").nodo = [[1, 5], [0, 5], [], []] ∧
    (redPartida.agregarNodo "A").departamentos[3]? = some "A" ∧
    (redPartida.agregarNodo "A").nodo[3]? = some [] :=
  have h := agregarNodo_postcondicion redPartida "A"
  ⟨by decide, by decide, h.2.2.1, h.2.2.2.1⟩

/-- C12. `obtenerIdNodo` is first-match: in every store state it returns `-1` iff no
registered node has the name, and otherwise the smallest index whose name is the one
looked up. -/
theorem obtenerIdNodo_primera_coincidencia (g : grafo) (nombre : String) :
    (g.obtenerIdNodo nombre = -1 ↔ nombre ∉ g.departamentos) ∧
    (g.obtenerIdNodo nombre ≠ -1 →
      0 ≤ g.obtenerIdNodo nombre ∧ g.obtenerIdNodo nombre < (g.departamentos.length : Int) ∧
      leer g.departamentos (g.obtenerIdNodo nombre) "" = nombre ∧
      ∀ j : Int, 0 ≤ j → j < g.obtenerIdNodo nombre → leer g.departamentos j "" ≠ nombre) := by
  refine ⟨obtenerIdNodo_no g nombre, fun h => ?_⟩
  obtain ⟨a, b, c⟩ := obtenerIdNodo_spec g nombre h
  exact ⟨a, b, c, obtenerIdNodo_primero g nombre h⟩

theorem obtenerIdNodo_primera_coincidencia_witness :
    redDuplicada.departamentos = ["A", "A"] ∧ redDuplicada.obtenerIdNodo "A" = 0 ∧
    redDuplicada.obtenerIdNodo "B" = -1 ∧ "B" ∉ redDuplicada.departamentos :=
  have h := obtenerIdNodo_primera_coincidencia redDuplicada "B"
  ⟨by decide, by decide, by decide, h.1.mp (by decide)⟩

/-- C13 (as the code behaves). In a store reached from the empty store by calls of
`agregarNodo` and `agregarVertices`, `obtenerIdNodo(names[i]) = i` holds for every
registered index `i` exactly when the registered names are pairwise distinct, that is
when no name was passed to `agregarNodo` twice. -/
theorem obtenerIdNodo_biyeccion (g : grafo) (_hc : Construido g) :
    g.departamentos.Nodup ↔
      ∀ i : Int, 0 ≤ i → i < (g.departamentos.length : Int) →
        g.obtenerIdNodo (leer g.departamentos i "") = i :=
  ⟨fun hnd i h0 h1 => obtenerIdNodo_leer g hnd i h0 h1, nodup_de_obtenerIdNodo g⟩

theorem obtenerIdNodo_biyeccion_witness :
    Construido redMain ∧ redMain.departamentos.Nodup ∧
    redMain.obtenerIdNodo (leer redMain.departamentos 11 "") = 11 :=
  have hnd : redMain.departamentos.Nodup := by rw [redMain_eq]; decide
  ⟨redMain_Construido, hnd,
    (obtenerIdNodo_biyeccion redMain redMain_Construido).mp hnd 11 (by decide)
      (by rw [redMain_eq]; decide)⟩

/-- C13 as stated fails: after `agregarNodo("A")` twice the second index carries a name
that `obtenerIdNodo` resolves to the first index. -/
theorem biyeccion_falla_con_nombre_repetido :
    Construido redDuplicada ∧ (1 : Int) < (redDuplicada.departamentos.length : Int) ∧
    redDuplicada.obtenerIdNodo (leer redDuplicada.departamentos 1 "") = 0 :=
  ⟨Construido.nodo _ (Construido.nodo _ Construido.vacio), by decide, by decide⟩

/-- C18. Undirectedness: in a store reached from the empty store by calls of
`agregarNodo` and `agregarVertices`, for different indices `u` and `v` and every weight
`w`, the record of `u` holds the entry `(v, w)` as often as the record of `v` holds
`(u, w)`; hence `(v, w)` is an entry of `u` iff `(u, w)` is an entry of `v`. -/
theorem entradas_simetricas (g : grafo) (hc : Construido g) (u v w : Int) (huv : u ≠ v) :
    (pares (leer g.nodo u [])).count (v, w) = (pares (leer g.nodo v [])).count (u, w) ∧
    (Arco g u v w ↔ Arco g v u w) :=
  ⟨cuenta_simetrica g hc u v w huv,
    ⟨arco_simetrico g hc u v w, arco_simetrico g hc v u w⟩⟩

theorem entradas_simetricas_witness :
    Construido redMain ∧ (0 : Int) ≠ 2 ∧
    (pares (leer redMain.nodo 0 [])).count (2, 6) = 1 ∧
    (pares (leer redMain.nodo 2 [])).count (0, 6) = 1 ∧ Arco redMain 2 0 6 :=
  have h := entradas_simetricas redMain redMain_Construido 0 2 6 (by decide)
  have h1 : (pares (leer redMain.nodo 0 [])).count (2, 6) = 1 := by rw [redMain_eq]; decide
  ⟨redMain_Construido, by decide, h1, by rw [← h.1]; exact h1,
    h.2.mp (by rw [redMain_eq]; unfold Arco; decide)⟩

/-! ## Every state of a run satisfies the general invariant -/

theorem Alcanzado_InvG (g : grafo) (hwf : BienFormado g) (s t : Int) (h0 : 0 ≤ s)
    (h1 : s < (g.departamentos.length : Int)) (st : Estado) (h : Alcanzado g s t st) :
    InvG g s (Arco g) st := by
  induction h with
  | inicio => exact estadoInicial_InvG g s h0 h1
  | paso _ hp ih => exact paso_InvG g hwf s t _ _ ih hp

theorem bucle_Alcanzado (g : grafo) (s t : Int) (fuel : Nat) (st : Estado)
    (h : bucle g t fuel (estadoInicial g.departamentos.length s) = some st) :
    ∃ st0, Alcanzado g s t st0 ∧ paso g t st0 = Paso.termina st :=
  bucle_inv g t (Alcanzado g s t) (fun _ _ ha hp => Alcanzado.paso ha hp) fuel _ st
    Alcanzado.inicio h

theorem lecturasRelajar_cota (g : grafo) (s u : Int) (r : List Int) :
    ∀ (A : Int → Int → Int → Prop) (st : Estado), InvG g s A st → st.dist u < INF →
    (∀ e ∈ pares r, 0 ≤ e.1 ∧ e.1 < (g.departamentos.length : Int) ∧ Arco g u e.1 e.2) →
    ∀ x ∈ lecturasRelajar u r st, x < INF := by
  induction r using pares.induct with
  | case1 v peso resto ih =>
    intro A st hI hu hl x hx
    simp only [lecturasRelajar, List.mem_cons] at hx
    obtain ⟨a, b, c⟩ := hl (v, peso) (by simp [pares])
    rcases hx with rfl | hx
    · exact hu
    · obtain ⟨hI1, hu1⟩ := relajarArista_InvG g s A st u v peso hI hu a b c
      exact ih _ _ hI1 hu1 (fun e he => hl e (by simp only [pares]; exact List.mem_cons_of_mem _ he))
        x hx
  | case2 r hr =>
    intro A st _ _ _ x hx
    cases r with
    | nil => simp [lecturasRelajar] at hx
    | cons a r =>
      cases r with
      | nil => simp [lecturasRelajar] at hx
      | cons b r => exact absurd rfl (hr a b r)

/-! ## Claims about the main loop -/

/-- C16 (as the code behaves). Termination of the relaxation loop: on a well-formed
store with non-negative weights and a total edge weight below `INF`, for registered
names, the `while` loop ends: from some fuel on the embedded loop returns one and the
same state, and it is left either with the queue empty or by the early exit at the
target. When moreover the store was built by the two mutators and twice the total edge
weight is at most `INF`, the path loop ends as well and the method is total: from some
fuel on it returns one and the same report. -/
theorem bucle_termina_siempre (g : grafo) (hwf : BienFormado g) (hpos : PesosNoNegativos g)
    (_hsum : pesoTotal g < INF) (inicio fin : String)
    (hi : g.obtenerIdNodo inicio ≠ -1) (hf : g.obtenerIdNodo fin ≠ -1) :
    (∃ N st st0,
      (∀ fuel, N ≤ fuel → bucle g (g.obtenerIdNodo fin) fuel
        (estadoInicial g.departamentos.length (g.obtenerIdNodo inicio)) = some st) ∧
      Alcanzado g (g.obtenerIdNodo inicio) (g.obtenerIdNodo fin) st0 ∧
      ((st0.pq = [] ∧ st = st0) ∨
       (∃ d, top st0.pq = some (d, g.obtenerIdNodo fin) ∧ d ≤ st0.dist (g.obtenerIdNodo fin) ∧
          st = { st0 with pq := st0.pq.erase (d, g.obtenerIdNodo fin) }))) ∧
    (Construido g → 2 * pesoTotal g ≤ INF →
      ∃ N r, ∀ fuel, N ≤ fuel → g.calcularRutaMasCorta inicio fin fuel = some r) := by
  constructor
  · obtain ⟨N, st, hN⟩ := calcular_total g hwf inicio fin hi
    obtain ⟨st0, hA, hfin⟩ := bucle_Alcanzado g _ _ N st (hN N (le_refl _))
    exact ⟨N, st, st0, hN, hA, (paso_termina g _ st0 st hfin).2.2⟩
  · intro hc h2S
    obtain ⟨N, hN⟩ := calcular_correcto g hc hpos h2S inicio fin hi hf
    have key : ∀ r, g.calcularRutaMasCorta inicio fin N = some r →
        ∀ fuel, N ≤ fuel → g.calcularRutaMasCorta inicio fin fuel = some r := by
      intro r hr fuel hfuel
      obtain ⟨k, rfl⟩ := Nat.exists_eq_add_of_le hfuel
      exact calcular_mono g inicio fin N r hr k
    rcases hN N (le_refl _) with ⟨h1, _⟩ | ⟨nodos, pesos, h1, _⟩
    · exact ⟨N, _, key _ h1⟩
    · exact ⟨N, _, key _ h1⟩

theorem bucle_termina_siempre_witness :
    BienFormado redMain ∧ PesosNoNegativos redMain ∧ pesoTotal redMain < INF ∧
    (∃ N st, ∀ fuel, N ≤ fuel → bucle redMain (redMain.obtenerIdNodo "B") fuel
      (estadoInicial redMain.departamentos.length (redMain.obtenerIdNodo "A")) = some st) ∧
    ∃ N r, ∀ fuel, N ≤ fuel → redMain.calcularRutaMasCorta "A" "B" fuel = some r :=
  have hwf : BienFormado redMain := Construido_BienFormado _ redMain_Construido
  have hsum : pesoTotal redMain < INF := by rw [redMain_eq]; decide
  have h := bucle_termina_siempre redMain hwf redMain_PesosNoNegativos hsum "A" "B"
    (by rw [redMain_eq]; decide) (by rw [redMain_eq]; decide)
  ⟨hwf, redMain_PesosNoNegativos, hsum,
    h.1.elim fun N h1 => h1.elim fun st h2 => h2.elim fun _ h3 => ⟨N, st, h3.1⟩,
    h.2 redMain_Construido (by rw [redMain_eq]; decide)⟩

/-- C16 as stated fails: `redDesborde` is well formed, its weights are non-negative and
its total edge weight 1073741829 is below `INF`, the names `A` and `C` are registered and
the `while` loop of the run from `A` to `C` ends; yet the method is not total there: the
path loop never ends, and the run yields no report, whatever the fuel. -/
theorem bucle_termina_y_el_metodo_no :
    BienFormado redDesborde ∧ PesosNoNegativos redDesborde ∧ pesoTotal redDesborde < INF ∧
    redDesborde.obtenerIdNodo "A" ≠ -1 ∧ redDesborde.obtenerIdNodo "C" ≠ -1 ∧
    (∃ st, ∀ k, bucle redDesborde (redDesborde.obtenerIdNodo "C") (5 + k)
      (estadoInicial redDesborde.departamentos.length (redDesborde.obtenerIdNodo "A"))
        = some st) ∧
    ∀ fuel, redDesborde.calcularRutaMasCorta "A" "C" fuel = none := by
  refine ⟨Construido_BienFormado _ redDesborde_Construido, ?_, by decide, by decide,
    by decide, ⟨_, fun k => bucle_mono redDesborde 2 5 _ _ redDesborde_bucle k⟩,
    redDesborde_diverge⟩
  unfold PesosNoNegativos; decide

/-- C17. No relaxation from the sentinel: in every state of a run on a well-formed
store, every queue entry `(d, u)` has `d < INF` and `distancias[u] < INF`; and when the
entries of a node `u` are relaxed, every sum `distancias[u] + peso` reads a value of
`distancias[u]` below `INF`. -/
theorem sin_relajacion_desde_INF (g : grafo) (hwf : BienFormado g) (inicio fin : String)
    (hi : g.obtenerIdNodo inicio ≠ -1) (st : Estado)
    (hA : Alcanzado g (g.obtenerIdNodo inicio) (g.obtenerIdNodo fin) st) :
    (∀ e ∈ st.pq, e.1 < INF ∧ st.dist e.2 < INF) ∧
    (∀ d u, top st.pq = some (d, u) → ¬ d > st.dist u → u ≠ g.obtenerIdNodo fin →
      ∀ x ∈ lecturasRelajar u (leer g.nodo u []) { st with pq := st.pq.erase (d, u) },
        x < INF) := by
  obtain ⟨h0, h1, _⟩ := obtenerIdNodo_spec g inicio hi
  have hI := Alcanzado_InvG g hwf _ _ h0 h1 st hA
  constructor
  · intro e he
    obtain ⟨_, _, a, b⟩ := hI.cola e he
    exact ⟨b, by omega⟩
  · intro d u htop _ _ x hx
    obtain ⟨_, _, a, b⟩ := hI.cola _ (top_mem _ _ htop)
    simp only at a b
    have hI0 := (InvG_pop g _ st d u hI).1
    refine lecturasRelajar_cota g _ u _ _ _ hI0 (by show st.dist u < INF; omega) ?_ x hx
    intro e he
    have harc : Arco g u e.1 e.2 := he
    obtain ⟨c1, c2⟩ := arco_rango g hwf u e.1 e.2 harc
    exact ⟨c1, c2, harc⟩

theorem sin_relajacion_desde_INF_witness :
    BienFormado redPartida ∧ redPartida.obtenerIdNodo "A" ≠ -1 ∧
    Alcanzado redPartida 0 2 (Estado.mk [0, 5, 2147483647] [-1, 0, -1] [(5, 1)]) ∧
    ∀ e ∈ [((5 : Int), (1 : Int))],
      e.1 < INF ∧ (Estado.mk [0, 5, 2147483647] [-1, 0, -1] [(5, 1)]).dist e.2 < INF :=
  have hwf : BienFormado redPartida :=
    { longitud := by decide, par := by decide, vecinos := by decide }
  have hi : redPartida.obtenerIdNodo "A" ≠ -1 := by decide
  have hA : Alcanzado redPartida (redPartida.obtenerIdNodo "A") (redPartida.obtenerIdNodo "C")
      (Estado.mk [0, 5, 2147483647] [-1, 0, -1] [(5, 1)]) :=
    Alcanzado.paso Alcanzado.inicio (by decide)
  ⟨hwf, hi, hA, (sin_relajacion_desde_INF redPartida hwf "A" "C" hi _ hA).1⟩

/-! ## Every walk contains a walk without repeated nodes -/

theorem Senda_props (g : grafo) (s v : Int) (nodos : List Int)
    (arcos : List (Int × Int × Int)) (h : Senda g s v nodos arcos) :
    nodos.getLast? = some v ∧
    (∀ e ∈ arcos, Arco g e.1 e.2.1 e.2.2 ∧ e.1 ∈ nodos ∧ e.2.1 ∈ nodos) ∧
    arcos.Pairwise (fun e f => ¬ mismosExtremos e f) ∧
    Recorrido g s v (arcos.map (fun e => e.2.2)).sum := by
  induction h with
  | raiz => exact ⟨by simp, by simp, by simp, by simpa using Recorrido.nulo⟩
  | @paso u v w nodos arcos _ hnot harc ih =>
    obtain ⟨h2, h4, h5, h6⟩ := ih
    have hu : u ∈ nodos := mem_of_getLast _ _ h2
    refine ⟨by simp, ?_, ?_, ?_⟩
    · intro e he
      rcases List.mem_append.mp he with he | he
      · obtain ⟨a, b, c⟩ := h4 e he
        exact ⟨a, List.mem_append_left _ b, List.mem_append_left _ c⟩
      · simp only [List.mem_singleton] at he
        subst he
        exact ⟨harc, List.mem_append_left _ hu, by simp⟩
    · rw [List.pairwise_append]
      refine ⟨h5, by simp, ?_⟩
      intro a ha b hb
      simp only [List.mem_singleton] at hb
      subst hb
      obtain ⟨_, a1, a2⟩ := h4 a ha
      unfold mismosExtremos
      simp only
      rintro (⟨_, e2⟩ | ⟨e1, _⟩)
      · exact hnot (e2 ▸ a2)
      · exact hnot (e1 ▸ a1)
    · simp only [List.map_append, List.sum_append, List.map_cons, List.map_nil, List.sum_cons,
        List.sum_nil, add_zero]
      exact Recorrido.paso h6 harc

theorem Senda_prefijo (g : grafo) (s v : Int) (nodos : List Int)
    (arcos : List (Int × Int × Int)) (h : Senda g s v nodos arcos) (z : Int)
    (hz : z ∈ nodos) : ∃ n1 a1, Senda g s z n1 a1 := by
  induction h with
  | raiz =>
    simp only [List.mem_singleton] at hz
    subst hz
    exact ⟨[z], [], Senda.raiz⟩
  | @paso u v w nodos arcos hs hnot harc ih =>
    rcases List.mem_append.mp hz with h | h
    · exact ih h
    · simp only [List.mem_singleton] at h
      subst h
      exact ⟨_, _, Senda.paso hs hnot harc⟩

theorem Recorrido_Senda (g : grafo) (s v p : Int) (h : Recorrido g s v p) :
    ∃ nodos arcos, Senda g s v nodos arcos := by
  induction h with
  | nulo => exact ⟨[s], [], Senda.raiz⟩
  | @paso b c p w _ harc ih =>
    obtain ⟨nodos, arcos, hs⟩ := ih
    by_cases hc : c ∈ nodos
    · exact Senda_prefijo g s b nodos arcos hs c hc
    · exact ⟨_, _, Senda.paso hs hc harc⟩

/-- On a built store a target joined to the source by a walk is joined to it by a walk
that weighs at most the total. -/
theorem Recorrido_acotado (g : grafo) (hc : Construido g) (hpos : PesosNoNegativos g)
    (s v p : Int) (h : Recorrido g s v p) : ∃ q, Recorrido g s v q ∧ q ≤ pesoTotal g := by
  obtain ⟨nodos, arcos, hs⟩ := Recorrido_Senda g s v p h
  obtain ⟨_, h4, h5, h6⟩ := Senda_props g s v nodos arcos hs
  exact ⟨_, h6, suma_arcos_le g hc hpos arcos (fun e he => (h4 e he).1) h5⟩

/-- The loop leaves a recorded distance below `INF` at a target that a walk lighter than
`INF` joins to the source. -/
theorem salida_alcanza (g : grafo) (hpos : PesosNoNegativos g) (s t : Int)
    (st0 st1 : Estado) (hI : InvG g s (Arco g) st0)
    (hfin : paso g t st0 = Paso.termina st1) (p : Int) (hr : Recorrido g s t p)
    (hp : p < INF) : st1.dist t < INF := by
  obtain ⟨hD, _, hcase⟩ := paso_termina g t st0 st1 hfin
  have hdist : st1.dist t = st0.dist t := by unfold Estado.dist; rw [hD]
  rw [hdist]
  rcases hcase with ⟨hq, _⟩ | ⟨d, htop, _, _⟩
  · have := cota_recorrido g s st0 INF hI hpos (le_refl _) (by simp [hq]) t p hr hp
    omega
  · obtain ⟨_, _, a, b⟩ := hI.cola _ (top_mem _ _ htop)
    simp only at a b
    omega

/-! ## The sentinel -/

/-- C14 (as the code behaves). Sentinel adequacy under a bound: on a store built by the
two mutators with non-negative weights and a total edge weight below `INF`, for
registered names, if some walk leads from the source to the target then the `while` loop
ends with `distancias[idFin]` different from `INF`, and no run reports 'No hay ruta
posible'. -/
theorem centinela_adecuado (g : grafo) (hc : Construido g) (hpos : PesosNoNegativos g)
    (hsum : pesoTotal g < INF) (inicio fin : String)
    (hi : g.obtenerIdNodo inicio ≠ -1) (_hf : g.obtenerIdNodo fin ≠ -1) (p : Int)
    (hr : Recorrido g (g.obtenerIdNodo inicio) (g.obtenerIdNodo fin) p) :
    (∃ N st, (∀ fuel, N ≤ fuel → bucle g (g.obtenerIdNodo fin) fuel
        (estadoInicial g.departamentos.length (g.obtenerIdNodo inicio)) = some st) ∧
      st.dist (g.obtenerIdNodo fin) ≠ INF) ∧
    ∀ fuel, g.calcularRutaMasCorta inicio fin fuel ≠ some Salida.sinRuta := by
  have hwf := Construido_BienFormado g hc
  obtain ⟨q, hq, hqle⟩ := Recorrido_acotado g hc hpos _ _ p hr
  have key : ∀ fuel st, bucle g (g.obtenerIdNodo fin) fuel
      (estadoInicial g.departamentos.length (g.obtenerIdNodo inicio)) = some st →
      st.dist (g.obtenerIdNodo fin) < INF := by
    intro fuel st hb
    obtain ⟨st0, hI, hfin⟩ := calcular_final g hwf inicio fin fuel st hi hb
    exact salida_alcanza g hpos _ _ st0 st hI hfin q hq (by omega)
  constructor
  · obtain ⟨N, st, hN⟩ := calcular_total g hwf inicio fin hi
    have := key N st (hN N (le_refl _))
    exact ⟨N, st, hN, by omega⟩
  · intro fuel h
    obtain ⟨_, _, st, hb, hd⟩ := calcular_sinRuta g inicio fin fuel h
    have := key fuel st hb
    omega

theorem centinela_adecuado_witness :
    Construido redPartida ∧ PesosNoNegativos redPartida ∧ pesoTotal redPartida < INF ∧
    Recorrido redPartida (redPartida.obtenerIdNodo "A") (redPartida.obtenerIdNodo "B") (0 + 5) ∧
    ∀ fuel, redPartida.calcularRutaMasCorta "A" "B" fuel ≠ some Salida.sinRuta :=
  have hc : Construido redPartida :=
    Construido.arista _ _ _ (by decide)
      (Construido.nodo _ (Construido.nodo _ (Construido.nodo _ Construido.vacio)))
  have hpos : PesosNoNegativos redPartida := by unfold PesosNoNegativos; decide!
  have hsum : pesoTotal redPartida < INF := by decide
  have hr : Recorrido redPartida (redPartida.obtenerIdNodo "A")
      (redPartida.obtenerIdNodo "B") (0 + 5) :=
    Recorrido.paso Recorrido.nulo (by unfold Arco; decide)
  ⟨hc, hpos, hsum, hr,
    (centinela_adecuado redPartida hc hpos hsum "A" "B" (by decide) (by decide) _ hr).2⟩

/-- C14 as stated fails: `redCentinela` is built by the two mutators with the
non-negative `int` weight `INF`, the entry `A-B` is a walk from `A` to `B`, and the run
from `A` to `B` reports 'No hay ruta posible'. -/
theorem centinela_insuficiente :
    Construido redCentinela ∧ PesosNoNegativos redCentinela ∧
    redCentinela.obtenerIdNodo "A" ≠ -1 ∧ redCentinela.obtenerIdNodo "B" ≠ -1 ∧
    Recorrido redCentinela (redCentinela.obtenerIdNodo "A")
      (redCentinela.obtenerIdNodo "B") (0 + 2147483647) ∧
    ∀ k, redCentinela.calcularRutaMasCorta "A" "B" (3 + k) = some Salida.sinRuta :=
  ⟨Construido.arista _ _ _ (by decide)
      (Construido.nodo _ (Construido.nodo _ Construido.vacio)),
    by unfold PesosNoNegativos; decide!, by decide, by decide,
    Recorrido.paso Recorrido.nulo (by unfold Arco; decide),
    fun k => calcular_mono redCentinela "A" "B" 3 _ (by decide!) k⟩

/-! ## The predecessor links along a chain -/

theorem Cadena_enlaces (g : grafo) (s : Int) (st : Estado) (v : Int) (nodos : List Int)
    (arcos : List (Int × Int × Int)) (h : Cadena g s st v nodos arcos) :
    st.prev s = -1 ∧ List.Chain' (fun a b => st.prev b = a) nodos := by
  induction h with
  | raiz hp _ => exact ⟨hp, List.chain'_singleton _⟩
  | @paso u v w nodos arcos hcad hprev _ _ _ ih =>
    refine ⟨ih.1, ?_⟩
    have h2 := (Cadena_props g s st u nodos arcos hcad).2.1
    refine List.Chain'.append ih.2 (List.chain'_singleton _) ?_
    intro x hx y hy
    simp only [List.head?_cons, Option.mem_def, Option.some.injEq] at hy
    rw [h2] at hx
    simp only [Option.mem_def, Option.some.injEq] at hx
    rw [← hy, ← hx]
    exact hprev

theorem Cadena_rango_sup (g : grafo) (hwf : BienFormado g) (s : Int)
    (hs : s < (g.departamentos.length : Int)) (st : Estado)
    (v : Int) (nodos : List Int) (arcos : List (Int × Int × Int))
    (h : Cadena g s st v nodos arcos) : ∀ z ∈ nodos, z < (g.departamentos.length : Int) := by
  induction h with
  | raiz _ _ =>
    intro z hz
    simp only [List.mem_singleton] at hz
    rw [hz]; exact hs
  | @paso u v w nodos arcos _ _ _ harc _ ih =>
    intro z hz
    rcases List.mem_append.mp hz with h | h
    · exact ih z h
    · simp only [List.mem_singleton] at h
      rw [h]
      exact (arco_rango g hwf u v w harc).2

/-- A list of distinct indices below `n` has at most `n` elements. -/
theorem nodup_longitud (n : Nat) (l : List Int) (hnd : l.Nodup)
    (hr : ∀ z ∈ l, 0 ≤ z ∧ z < (n : Int)) : l.length ≤ n := by
  have h1 : l.toFinset ⊆ Finset.Ico (0 : Int) n := by
    intro z hz
    rw [List.mem_toFinset] at hz
    rw [Finset.mem_Ico]
    exact hr z hz
  have h2 := Finset.card_le_card h1
  rw [List.toFinset_card_of_nodup hnd, Int.card_Ico] at h2
  simpa using h2

/-- The chain of the target at the end of a loop in which no sum leaves the range. -/
theorem bucle_cadena (g : grafo) (hc : Construido g) (hpos : PesosNoNegativos g)
    (h2S : 2 * pesoTotal g ≤ INF) (s t : Int) (h0 : 0 ≤ s)
    (h1 : s < (g.departamentos.length : Int)) (fuel : Nat) (st : Estado)
    (hb : bucle g t fuel (estadoInicial g.departamentos.length s) = some st)
    (hne : st.dist t ≠ INF) : ∃ nodos arcos, Cadena g s st t nodos arcos := by
  have hwf := Construido_BienFormado g hc
  obtain ⟨st0, ⟨hI, hP⟩, hfin⟩ := bucle_inv g t
    (fun x => InvG g s (Arco g) x ∧ ∃ proc m, InvP g s x proc m)
    (fun x y hx hxy => ⟨paso_InvG g hwf _ _ x y hx.1 hxy,
      paso_InvP g hc hpos h2S _ _ x y hx.1 hx.2 hxy⟩)
    fuel _ st ⟨estadoInicial_InvG g _ h0 h1, [], 0, estadoInicial_InvP g _ h0 h1⟩ hb
  obtain ⟨proc, m, hP⟩ := hP
  exact salida_cadena g s t st0 st proc m hI hP hfin hne

/-! ## The predecessor links -/

/-- C20 (as the code behaves). Predecessor links are acyclic when twice the total edge
weight is at most `INF`: on a store built by the two mutators with non-negative weights,
when the
`while` loop ends with `distancias[idFin]` different from `INF`, there is a list of
pairwise distinct node indices, of at most `n` elements, that starts at the source, ends
at the target and in which every node is the `previo` of the next one, with
`previo[idInicio] = -1`; and the path loop, given one more test than that list has
elements, returns the names of exactly these nodes. -/
theorem previo_aciclico (g : grafo) (hc : Construido g) (hpos : PesosNoNegativos g)
    (h2S : 2 * pesoTotal g ≤ INF) (inicio fin : String)
    (hi : g.obtenerIdNodo inicio ≠ -1) (_hf : g.obtenerIdNodo fin ≠ -1)
    (fuel : Nat) (st : Estado)
    (hb : bucle g (g.obtenerIdNodo fin) fuel
      (estadoInicial g.departamentos.length (g.obtenerIdNodo inicio)) = some st)
    (hne : st.dist (g.obtenerIdNodo fin) ≠ INF) :
    ∃ nodos : List Int,
      nodos.Nodup ∧ nodos.length ≤ g.departamentos.length ∧
      (∀ z ∈ nodos, 0 ≤ z ∧ z < (g.departamentos.length : Int)) ∧
      nodos.head? = some (g.obtenerIdNodo inicio) ∧
      nodos.getLast? = some (g.obtenerIdNodo fin) ∧
      st.prev (g.obtenerIdNodo inicio) = -1 ∧
      List.Chain' (fun a b => st.prev b = a) nodos ∧
      ∀ k, reconstruir g.departamentos st.previo (nodos.length + 1 + k)
          (g.obtenerIdNodo fin) [] =
        some ((nodos.map (fun i => leer g.departamentos i "")).reverse) := by
  have hwf := Construido_BienFormado g hc
  obtain ⟨h0, h1, _⟩ := obtenerIdNodo_spec g inicio hi
  obtain ⟨nodos, arcos, hcad⟩ := bucle_cadena g hc hpos h2S _ _ h0 h1 fuel st hb hne
  obtain ⟨hnd, hlast, hhead, _⟩ := Cadena_props g _ st _ nodos arcos hcad
  obtain ⟨hraiz, hch⟩ := Cadena_enlaces g _ st _ nodos arcos hcad
  have hinf := Cadena_rango g hwf _ h0 st _ nodos arcos hcad
  have hsup := Cadena_rango_sup g hwf _ h1 st _ nodos arcos hcad
  have hr : ∀ z ∈ nodos, 0 ≤ z ∧ z < (g.departamentos.length : Int) :=
    fun z hz => ⟨hinf z hz, hsup z hz⟩
  refine ⟨nodos, hnd, nodup_longitud _ nodos hnd hr, hr, hhead, hlast, hraiz, hch, ?_⟩
  intro k
  have := reconstruir_Cadena g _ st _ nodos arcos hcad h0 hinf k []
  simpa using this

theorem previo_aciclico_witness :
    Construido redPartida ∧ PesosNoNegativos redPartida ∧ 2 * pesoTotal redPartida ≤ INF ∧
    ∃ nodos : List Int,
      nodos.Nodup ∧ nodos.length ≤ redPartida.departamentos.length ∧
      (∀ z ∈ nodos, 0 ≤ z ∧ z < (redPartida.departamentos.length : Int)) ∧
      nodos.head? = some (redPartida.obtenerIdNodo "A") ∧
      nodos.getLast? = some (redPartida.obtenerIdNodo "B") ∧
      (Estado.mk [0, 5, 2147483647] [-1, 0, -1] []).prev (redPartida.obtenerIdNodo "A") = -1 ∧
      List.Chain' (fun a b => (Estado.mk [0, 5, 2147483647] [-1, 0, -1] []).prev b = a) nodos ∧
      ∀ k, reconstruir redPartida.departamentos [-1, 0, -1] (nodos.length + 1 + k)
          (redPartida.obtenerIdNodo "B") [] =
        some ((nodos.map (fun i => leer redPartida.departamentos i "")).reverse) :=
  have hc : Construido redPartida :=
    Construido.arista _ _ _ (by decide)
      (Construido.nodo _ (Construido.nodo _ (Construido.nodo _ Construido.vacio)))
  have hpos : PesosNoNegativos redPartida := by unfold PesosNoNegativos; decide!
  have h2S : 2 * pesoTotal redPartida ≤ INF := by decide
  ⟨hc, hpos, h2S,
    previo_aciclico redPartida hc hpos h2S "A" "B" (by decide) (by decide) 3
      (Estado.mk [0, 5, 2147483647] [-1, 0, -1] []) (by decide!) (by decide)⟩

/-- C20 as stated fails: `redDesborde` has non-negative weights and the total
1073741829, below `INF`; the loop of the run from `A` to `C` ends with
`distancias[2] = -1073741809`, different from `INF`, and with
`previo = [1, 0, 1]`, so that the links from `C` lead to `B`, `A`, `B`, `A` and so on: the
path loop never reaches `-1`. -/
theorem previo_ciclico_con_total_menor_que_INF :
    Construido redDesborde ∧ PesosNoNegativos redDesborde ∧ pesoTotal redDesborde < INF ∧
    redDesborde.obtenerIdNodo "A" = 0 ∧ redDesborde.obtenerIdNodo "C" = 2 ∧
    ∃ st, (∀ k, bucle redDesborde 2 (5 + k) (estadoInicial redDesborde.departamentos.length 0)
        = some st) ∧
      st.dist 2 ≠ INF ∧ st.prev 2 = 1 ∧ st.prev 1 = 0 ∧ st.prev 0 = 1 ∧
      ∀ fuel acc, reconstruir redDesborde.departamentos st.previo fuel 2 acc = none := by
  refine ⟨redDesborde_Construido, ?_, by decide, by decide, by decide,
    Estado.mk [-2147483638, -1073741809, -1073741809] [1, 0, 1] [(1073741829, 2)],
    ?_, by decide, by decide, by decide, by decide, ?_⟩
  · unfold PesosNoNegativos; decide
  · intro k
    exact bucle_mono redDesborde 2 5 _ _ redDesborde_bucle k
  · intro fuel acc
    have hdeps : redDesborde.departamentos = ["A", "B", "C"] := by decide
    rw [hdeps]
    exact redDesborde_ciclo fuel 2 acc (Or.inr (Or.inr rfl))

/-! ## The checked run agrees with the unchecked one -/

theorem leerV_rango {α : Type} (xs : List α) (i : Int) (d : α) (h0 : 0 ≤ i)
    (h1 : i < (xs.length : Int)) : leerV xs i d = some (leer xs i d) := by
  unfold leerV
  simp [h0, h1]

theorem escribirV_rango {α : Type} (xs : List α) (i : Int) (x : α) (h0 : 0 ≤ i)
    (h1 : i < (xs.length : Int)) : escribirV xs i x = some (escribir xs i x) := by
  unfold escribirV
  simp [h0, h1]

theorem relajarAristaV_eq (u v peso : Int) (st : Estado) (n : Nat)
    (hD : st.distancias.length = n) (hP : st.previo.length = n)
    (hu0 : 0 ≤ u) (hu1 : u < (n : Int)) (hv0 : 0 ≤ v) (hv1 : v < (n : Int)) :
    relajarAristaV u v peso st = some (relajarArista u v peso st) := by
  unfold relajarAristaV relajarArista Estado.dist
  have e1 : ∀ x, escribirV st.distancias v x = some (escribir st.distancias v x) :=
    fun x => escribirV_rango _ v x hv0 (by rw [hD]; exact hv1)
  have e2 : ∀ x, escribirV st.previo v x = some (escribir st.previo v x) :=
    fun x => escribirV_rango _ v x hv0 (by rw [hP]; exact hv1)
  simp only [leerV_rango _ u _ hu0 (by rw [hD]; exact hu1),
    leerV_rango _ v _ hv0 (by rw [hD]; exact hv1), e1, e2]
  split <;> rfl

theorem relajarArista_longitud (u v peso : Int) (st : Estado) :
    (relajarArista u v peso st).distancias.length = st.distancias.length ∧
    (relajarArista u v peso st).previo.length = st.previo.length := by
  rcases relajarArista_caso u v peso st with ⟨_, e⟩ | ⟨_, e⟩
  · rw [e]; exact ⟨rfl, rfl⟩
  · rw [e]; exact ⟨length_escribir _ _ _, length_escribir _ _ _⟩

theorem relajarV_eq (u : Int) (n : Nat) (hu0 : 0 ≤ u) (hu1 : u < (n : Int)) (r : List Int) :
    ∀ st : Estado, st.distancias.length = n → st.previo.length = n →
    r.length % 2 = 0 → (∀ e ∈ pares r, 0 ≤ e.1 ∧ e.1 < (n : Int)) →
    relajarV u r st = some (relajar u r st) := by
  induction r using pares.induct with
  | case1 v peso resto ih =>
    intro st hD hP hpar hv
    obtain ⟨a, b⟩ := hv (v, peso) (by simp [pares])
    obtain ⟨c, d⟩ := relajarArista_longitud u v peso st
    simp only [relajarV, relajar, relajarAristaV_eq u v peso st n hD hP hu0 hu1 a b]
    refine ih _ (by rw [c]; exact hD) (by rw [d]; exact hP) ?_ ?_
    · simp only [List.length_cons] at hpar
      omega
    · intro e he
      exact hv e (by simp only [pares]; exact List.mem_cons_of_mem _ he)
  | case2 r hr =>
    intro st _ _ hpar _
    cases r with
    | nil => simp [relajarV, relajar]
    | cons a r =>
      cases r with
      | nil => simp at hpar
      | cons b r => exact absurd rfl (hr a b r)

theorem pasoV_eq (g : grafo) (hwf : BienFormado g) (s t : Int) (st : Estado)
    (hI : InvG g s (Arco g) st) : pasoV g t st = some (paso g t st) := by
  unfold pasoV paso
  cases htop : top st.pq with
  | none => rfl
  | some e =>
    obtain ⟨d, u⟩ := e
    obtain ⟨hu0, hu1, _, _⟩ := hI.cola _ (top_mem _ _ htop)
    simp only at hu0 hu1
    simp only
    rw [leerV_rango _ u _ hu0 (by rw [hI.lenD]; exact hu1)]
    simp only [Estado.dist]
    split
    · rfl
    · split
      · rfl
      · have hn : u < (g.nodo.length : Int) := by rw [hwf.longitud]; exact hu1
        rw [leerV_rango _ u _ hu0 hn]
        have hm := leer_mem g.nodo u [] hu0 hn
        simp only
        rw [relajarV_eq u g.departamentos.length hu0 hu1 _
          (Estado.mk st.distancias st.previo (st.pq.erase (d, u))) hI.lenD hI.lenP
          (hwf.par _ hm) (hwf.vecinos _ hm)]

theorem bucleV_eq (g : grafo) (hwf : BienFormado g) (s t : Int) (fuel : Nat) :
    ∀ st : Estado, InvG g s (Arco g) st →
    bucleV g t fuel st = Corrida.deOpcion (bucle g t fuel st) := by
  induction fuel with
  | zero => intro st _; rfl
  | succ f ih =>
    intro st hI
    unfold bucleV bucle
    rw [pasoV_eq g hwf s t st hI]
    cases hp : paso g t st with
    | termina st1 => rfl
    | sigue st1 => exact ih st1 (paso_InvG g hwf s t st st1 hI hp)

theorem reconstruirV_eq (deps : List String) (previo : List Int) (n : Nat)
    (hd : deps.length = n) (hp : previo.length = n)
    (hprev : ∀ v, leer previo v (-1) ≠ -1 →
      0 ≤ leer previo v (-1) ∧ leer previo v (-1) < (n : Int))
    (fuel : Nat) :
    ∀ (a : Int) (acc : List String), (a = -1 ∨ (0 ≤ a ∧ a < (n : Int))) →
    reconstruirV deps previo fuel a acc = Corrida.deOpcion (reconstruir deps previo fuel a acc) := by
  induction fuel with
  | zero => intro a acc _; rfl
  | succ f ih =>
    intro a acc ha
    unfold reconstruirV reconstruir
    by_cases h : a = -1
    · simp [h, Corrida.deOpcion]
    · have hr : 0 ≤ a ∧ a < (n : Int) := by
        rcases ha with ha | ha
        · exact absurd ha h
        · exact ha
      simp only [h, if_false]
      rw [leerV_rango _ a _ hr.1 (by rw [hd]; exact hr.2),
        leerV_rango _ a _ hr.1 (by rw [hp]; exact hr.2)]
      simp only
      apply ih
      by_cases h1 : leer previo a (-1) = -1
      · exact Or.inl h1
      · exact Or.inr (hprev a h1)

/-- The predecessor recorded for a node is `-1` or a node index. -/
theorem InvG_prev_rango (g : grafo) (s : Int) (A : Int → Int → Int → Prop) (st : Estado)
    (hI : InvG g s A st) (v : Int) (h : st.prev v ≠ -1) :
    0 ≤ st.prev v ∧ st.prev v < (g.departamentos.length : Int) := by
  have := (hI.previos v h).1
  exact dist_rango st _ hI.lenD (st.prev v) (by omega)

theorem calcularV_eq (g : grafo) (hwf : BienFormado g) (inicio fin : String) (fuel : Nat) :
    g.calcularRutaMasCortaV inicio fin fuel =
      Corrida.deOpcion (g.calcularRutaMasCorta inicio fin fuel) := by
  unfold grafo.calcularRutaMasCortaV grafo.calcularRutaMasCorta
  simp only
  by_cases hinv : g.obtenerIdNodo inicio = -1 ∨ g.obtenerIdNodo fin = -1
  · simp [hinv, Corrida.deOpcion]
  · simp only [hinv, if_false]
    have hi : g.obtenerIdNodo inicio ≠ -1 := fun h => hinv (Or.inl h)
    have hf : g.obtenerIdNodo fin ≠ -1 := fun h => hinv (Or.inr h)
    obtain ⟨a0, a1, _⟩ := obtenerIdNodo_spec g inicio hi
    obtain ⟨b0, b1, _⟩ := obtenerIdNodo_spec g fin hf
    rw [escribirV_rango _ _ _ a0 (by simpa using a1)]
    simp only
    have hI0 := estadoInicial_InvG g _ a0 a1
    have hbV := bucleV_eq g hwf (g.obtenerIdNodo inicio) (g.obtenerIdNodo fin) fuel _ hI0
    unfold estadoInicial at hbV hI0
    rw [hbV]
    cases hb : bucle g (g.obtenerIdNodo fin) fuel
        (Estado.mk (escribir (List.replicate g.departamentos.length INF)
          (g.obtenerIdNodo inicio) 0) (List.replicate g.departamentos.length (-1))
          [(0, g.obtenerIdNodo inicio)]) with
    | none => simp [estadoInicial, hb, Corrida.deOpcion]
    | some st =>
      obtain ⟨st0, hI, hfin⟩ := bucle_final g hwf _ _ _ st hI0 fuel hb
      obtain ⟨hD, hPr, _⟩ := paso_termina g _ st0 st hfin
      have hlenD : st.distancias.length = g.departamentos.length := by rw [hD]; exact hI.lenD
      have hlenP : st.previo.length = g.departamentos.length := by rw [hPr]; exact hI.lenP
      have hprev : ∀ v, leer st.previo v (-1) ≠ -1 →
          0 ≤ leer st.previo v (-1) ∧ leer st.previo v (-1) < (g.departamentos.length : Int) := by
        intro v hv
        rw [hPr] at hv ⊢
        exact InvG_prev_rango g _ _ st0 hI v hv
      have hrV := reconstruirV_eq g.departamentos st.previo _ rfl hlenP hprev fuel
        (g.obtenerIdNodo fin) [] (Or.inr ⟨b0, b1⟩)
      simp only [estadoInicial, hb, Corrida.deOpcion]
      rw [leerV_rango _ _ _ b0 (by rw [hlenD]; exact b1)]
      simp only [Estado.dist]
      split
      · rfl
      · rw [hrV]
        cases reconstruir g.departamentos st.previo fuel (g.obtenerIdNodo fin) [] <;> rfl

/-- The element at an even position of a record of even length is the first component
of one of its pairs. -/
theorem pares_posicion (r : List Int) :
    ∀ (k : Nat) (v : Int), r.length % 2 = 0 → r[2 * k]? = some v → ∃ w, (v, w) ∈ pares r := by
  induction r using pares.induct with
  | case1 v0 peso resto ih =>
    intro k v hpar hk
    cases k with
    | zero =>
      simp only [Nat.mul_zero, List.getElem?_cons_zero, Option.some.injEq] at hk
      subst hk
      exact ⟨peso, by simp [pares]⟩
    | succ j =>
      have e : 2 * (j + 1) = (2 * j + 1) + 1 := by omega
      rw [e, List.getElem?_cons_succ, List.getElem?_cons_succ] at hk
      obtain ⟨w, hw⟩ := ih j v (by simp only [List.length_cons] at hpar; omega) hk
      exact ⟨w, by simp only [pares]; exact List.mem_cons_of_mem _ hw⟩
  | case2 r hr =>
    intro k v hpar hk
    cases r with
    | nil => simp at hk
    | cons a r =>
      cases r with
      | nil => simp at hpar
      | cons b r => exact absurd rfl (hr a b r)

/-! ## Index safety -/

/-- C19. Store well-formedness and index safety: in every store built from the empty
store by `agregarNodo` and `agregarVertices`, there are as many adjacency records as
names, every record has even length, and every element at an even position of a record
is a node index in `[0, n)`; consequently the run of `calcularRutaMasCorta` in which
every subscript is checked never leaves a vector, and it yields what the unchecked run
yields. -/
theorem indices_en_rango (g : grafo) (hc : Construido g) :
    g.nodo.length = g.departamentos.length ∧
    (∀ r ∈ g.nodo, r.length % 2 = 0) ∧
    (∀ r ∈ g.nodo, ∀ (k : Nat) (v : Int), r[2 * k]? = some v →
      0 ≤ v ∧ v < (g.departamentos.length : Int)) ∧
    ∀ (inicio fin : String) (fuel : Nat),
      g.calcularRutaMasCortaV inicio fin fuel ≠ Corrida.fueraDeRango ∧
      g.calcularRutaMasCortaV inicio fin fuel =
        Corrida.deOpcion (g.calcularRutaMasCorta inicio fin fuel) := by
  have hwf := Construido_BienFormado g hc
  refine ⟨hwf.longitud, hwf.par, ?_, ?_⟩
  · intro r hr k v hk
    obtain ⟨w, hw⟩ := pares_posicion r k v (hwf.par r hr) hk
    exact hwf.vecinos r hr (v, w) hw
  · intro inicio fin fuel
    have h := calcularV_eq g hwf inicio fin fuel
    refine ⟨?_, h⟩
    rw [h]
    cases g.calcularRutaMasCorta inicio fin fuel <;> simp [Corrida.deOpcion]

theorem indices_en_rango_witness :
    Construido redMain ∧
    redMain.calcularRutaMasCortaV "A" "B" 40 =
      Corrida.deOpcion (redMain.calcularRutaMasCorta "A" "B" 40) :=
  ⟨redMain_Construido, ((indices_en_rango redMain redMain_Construido).2.2.2 "A" "B" 40).2⟩

/-! ## The loop without the early exit -/

theorem pasoCompleto_eq (g : grafo) (st : Estado) (h : ∀ e ∈ st.pq, 0 ≤ e.2) :
    pasoCompleto g st = paso g (-1) st := by
  unfold pasoCompleto paso
  cases htop : top st.pq with
  | none => rfl
  | some e =>
    obtain ⟨d, u⟩ := e
    have hu := h _ (top_mem _ _ htop)
    simp only at hu
    have hne : u ≠ -1 := by omega
    simp only [hne, if_false]

theorem bucleCompleto_eq (g : grafo) (hwf : BienFormado g) (s : Int) (fuel : Nat) :
    ∀ st : Estado, InvG g s (Arco g) st → bucleCompleto g fuel st = bucle g (-1) fuel st := by
  induction fuel with
  | zero => intro st _; rfl
  | succ f ih =>
    intro st hI
    unfold bucleCompleto bucle
    rw [pasoCompleto_eq g st (fun e he => (hI.cola e he).1)]
    cases hp : paso g (-1) st with
    | termina st1 => rfl
    | sigue st1 => exact ih st1 (paso_InvG g hwf s (-1) st st1 hI hp)

/-- An iteration that does not leave the loop is the same without the early exit. -/
theorem paso_sigue_completo (g : grafo) (t : Int) (st st1 : Estado)
    (h : paso g t st = Paso.sigue st1) (hq : ∀ e ∈ st.pq, 0 ≤ e.2) :
    paso g (-1) st = Paso.sigue st1 := by
  unfold paso at h ⊢
  cases htop : top st.pq with
  | none => simp [htop] at h
  | some e =>
    obtain ⟨d, u⟩ := e
    have hu := hq _ (top_mem _ _ htop)
    simp only at hu
    have hne : u ≠ -1 := by omega
    simp only [htop] at h
    simp only [hne, if_false]
    split at h
    · rename_i hgt
      simp only [hgt, if_true]
      exact h
    · rename_i hgt
      simp only [hgt, if_false]
      split at h
      · simp at h
      · exact h

/-! ## Recorded distances only go down -/

theorem Desciende_refl (st : Estado) : Desciende st st :=
  ⟨rfl, rfl, fun _ => ⟨le_refl _, fun _ => rfl⟩⟩

theorem Desciende_trans (a b c : Estado) (h1 : Desciende a b) (h2 : Desciende b c) :
    Desciende a c := by
  obtain ⟨a1, a2, a3⟩ := h1
  obtain ⟨b1, b2, b3⟩ := h2
  refine ⟨by rw [b1, a1], by rw [b2, a2], ?_⟩
  intro z
  obtain ⟨c1, c2⟩ := a3 z
  obtain ⟨d1, d2⟩ := b3 z
  refine ⟨by omega, ?_⟩
  intro he
  have e1 : b.dist z = a.dist z := by omega
  have e2 : c.dist z = b.dist z := by omega
  rw [d2 e2, c2 e1]

theorem relajarArista_Desciende (u v w : Int) (st : Estado) (h0 : 0 ≤ v)
    (h1 : v < (st.distancias.length : Int)) (h2 : v < (st.previo.length : Int)) :
    Desciende st (relajarArista u v w st) := by
  obtain ⟨l1, l2⟩ := relajarArista_longitud u v w st
  refine ⟨l1, l2, ?_⟩
  rcases relajarArista_efecto u v w st h0 h1 h2 with ⟨_, e⟩ | ⟨hlt, hd, hp, _, _, _⟩
  · rw [e]; exact fun _ => ⟨le_refl _, fun _ => rfl⟩
  · intro z
    rw [hd z, hp z]
    by_cases hz : z = v
    · subst hz
      simp only [if_true]
      exact ⟨by omega, fun he => by omega⟩
    · simp [hz]

theorem foldl_Desciende (u : Int) (n : Nat) (l : List (Int × Int)) :
    ∀ st : Estado, st.distancias.length = n → st.previo.length = n →
    (∀ e ∈ l, 0 ≤ e.1 ∧ e.1 < (n : Int)) →
    Desciende st (l.foldl (fun s e => relajarArista u e.1 e.2 s) st) := by
  induction l with
  | nil => intro st _ _ _; exact Desciende_refl st
  | cons e l ih =>
    intro st hD hP hl
    obtain ⟨a, b⟩ := hl e (List.mem_cons_self _ _)
    have h1 := relajarArista_Desciende u e.1 e.2 st a (by rw [hD]; exact b) (by rw [hP]; exact b)
    simp only [List.foldl_cons]
    exact Desciende_trans _ _ _ h1
      (ih _ (by rw [h1.1]; exact hD) (by rw [h1.2.1]; exact hP)
        (fun x hx => hl x (List.mem_cons_of_mem _ hx)))

theorem paso_Desciende (g : grafo) (hwf : BienFormado g) (t : Int) (st st1 : Estado)
    (hD : st.distancias.length = g.departamentos.length)
    (hP : st.previo.length = g.departamentos.length)
    (h : paso g t st = Paso.sigue st1) : Desciende st st1 := by
  obtain ⟨d, u, _, hc⟩ := paso_sigue g t st st1 h
  rcases hc with ⟨_, rfl⟩ | ⟨_, _, rfl⟩
  · exact ⟨rfl, rfl, fun _ => ⟨le_refl _, fun _ => rfl⟩⟩
  · have := foldl_Desciende u g.departamentos.length (pares (leer g.nodo u []))
      (Estado.mk st.distancias st.previo (st.pq.erase (d, u))) hD hP
      (fun e he => arco_rango g hwf u e.1 e.2 he)
    exact ⟨this.1, this.2.1, this.2.2⟩

theorem bucle_Desciende (g : grafo) (hwf : BienFormado g) (t : Int) (fuel : Nat) :
    ∀ st st1 : Estado, st.distancias.length = g.departamentos.length →
    st.previo.length = g.departamentos.length →
    bucle g t fuel st = some st1 → Desciende st st1 := by
  induction fuel with
  | zero => intro st st1 _ _ h; simp [bucle] at h
  | succ f ih =>
    intro st st1 hD hP h
    unfold bucle at h
    cases hp : paso g t st with
    | termina s =>
      simp only [hp, Option.some.injEq] at h
      subst h
      obtain ⟨e1, e2, _⟩ := paso_termina g t st s hp
      refine ⟨by rw [e1], by rw [e2], ?_⟩
      intro z
      unfold Estado.dist Estado.prev
      rw [e1, e2]
      exact ⟨le_refl _, fun _ => rfl⟩
    | sigue s =>
      simp only [hp] at h
      have h1 := paso_Desciende g hwf t st s hD hP hp
      exact Desciende_trans _ _ _ h1 (ih s st1 (by rw [h1.1]; exact hD)
        (by rw [h1.2.1]; exact hP) h)

/-- Along a chain the recorded distances do not decrease. -/
theorem Cadena_dist_le (g : grafo) (hpos : PesosNoNegativos g) (s : Int) (st : Estado)
    (v : Int) (nodos : List Int) (arcos : List (Int × Int × Int))
    (h : Cadena g s st v nodos arcos) : ∀ z ∈ nodos, st.dist z ≤ st.dist v := by
  induction h with
  | raiz _ _ =>
    intro z hz
    simp only [List.mem_singleton] at hz
    rw [hz]
  | @paso u v w nodos arcos hcad _ _ harc hdist ih =>
    intro z hz
    have hw := arco_peso g hpos u v w harc
    rcases List.mem_append.mp hz with h | h
    · have := ih z h
      omega
    · simp only [List.mem_singleton] at h
      rw [h]

/-! ## What the iterations after the early exit leave untouched -/

/-- With the queue empty and no sum out of range, a recorded distance below `INF` is the
weight of a walk from the source. -/
theorem cola_vacia_recorrido (g : grafo) (s : Int) (st : Estado) (proc : List Int) (m : Int)
    (hP : InvP g s st proc m) (hq : st.pq = []) (z : Int) (hz : st.dist z < INF) :
    Recorrido g s z (st.dist z) := by
  rcases hP.tocado z hz with h | h
  · rw [hq] at h; simp at h
  · obtain ⟨nodos, arcos, hc1, _⟩ := hP.cadenas z h
    obtain ⟨_, h2, h3, _, _, h6, h7⟩ := Cadena_props g s st z nodos arcos hc1
    rw [h6]
    exact esRecorrido_Recorrido g nodos _ s z h7 h3 h2

/-- The state in which the loop without the early exit is left. -/
theorem bucle_completo_final (g : grafo) (hc : Construido g) (hpos : PesosNoNegativos g)
    (h2S : 2 * pesoTotal g ≤ INF) (s : Int) (fuel : Nat) (st st2 : Estado)
    (hI : InvG g s (Arco g) st) (hP : ∃ proc m, InvP g s st proc m)
    (hb : bucle g (-1) fuel st = some st2) :
    InvG g s (Arco g) st2 ∧ (∃ proc m, InvP g s st2 proc m) ∧ st2.pq = [] := by
  have hwf := Construido_BienFormado g hc
  obtain ⟨st0, ⟨hI0, hP0⟩, hfin⟩ := bucle_inv g (-1)
    (fun x => InvG g s (Arco g) x ∧ ∃ proc m, InvP g s x proc m)
    (fun x y hx hxy => ⟨paso_InvG g hwf _ _ x y hx.1 hxy,
      paso_InvP g hc hpos h2S _ _ x y hx.1 hx.2 hxy⟩)
    fuel st st2 ⟨hI, hP⟩ hb
  obtain ⟨_, _, hcase⟩ := paso_termina g (-1) st0 st2 hfin
  rcases hcase with ⟨hq, rfl⟩ | ⟨d, htop, _, _⟩
  · exact ⟨hI0, hP0, hq⟩
  · have := (hI0.cola _ (top_mem _ _ htop)).1
    simp only at this
    omega

theorem salida_completa (g : grafo) (hc : Construido g) (hpos : PesosNoNegativos g)
    (h2S : 2 * pesoTotal g ≤ INF) (s t : Int) (st0 st1 st2 : Estado) (F : Nat)
    (hI : InvG g s (Arco g) st0) (hP : ∃ proc m, InvP g s st0 proc m)
    (hfin : paso g t st0 = Paso.termina st1) (hb2 : bucle g (-1) F st0 = some st2) :
    st2.dist t = st1.dist t ∧
    (st1.dist t ≠ INF → ∃ nodos arcos, Cadena g s st1 t nodos arcos ∧
      Cadena g s st2 t nodos arcos) := by
  have hwf := Construido_BienFormado g hc
  obtain ⟨hD, hPr, hcase⟩ := paso_termina g t st0 st1 hfin
  have hdist : ∀ v, st1.dist v = st0.dist v := by
    intro v; unfold Estado.dist; rw [hD]
  have hprev : ∀ v, st1.prev v = st0.prev v := by
    intro v; unfold Estado.prev; rw [hPr]
  obtain ⟨proc, m, hP0⟩ := hP
  have hcad : st1.dist t ≠ INF → ∃ nodos arcos, Cadena g s st1 t nodos arcos :=
    fun hne => salida_cadena g s t st0 st1 proc m hI hP0 hfin hne
  rcases hcase with ⟨hq, hst⟩ | ⟨d, htop, hle, _⟩
  · have h21 : st2 = st1 := by
      cases F with
      | zero => simp [bucle] at hb2
      | succ f =>
        unfold bucle paso at hb2
        rw [hq] at hb2
        simp only [top, Option.some.injEq] at hb2
        rw [← hb2, hst]
    rw [h21]
    refine ⟨rfl, fun hne => ?_⟩
    obtain ⟨nodos, arcos, h⟩ := hcad hne
    exact ⟨nodos, arcos, h, h⟩
  · have hDes := bucle_Desciende g hwf (-1) F st0 st2 hI.lenD hI.lenP hb2
    obtain ⟨hI2, ⟨proc2, m2, hP2⟩, hq2⟩ :=
      bucle_completo_final g hc hpos h2S s F st0 st2 hI ⟨proc, m, hP0⟩ hb2
    obtain ⟨_, _, hcola, hdI⟩ := hI.cola _ (top_mem _ _ htop)
    simp only at hcola hdI
    have hkeys : ∀ e ∈ st0.pq, st0.dist t ≤ e.1 := by
      intro e he
      have := top_le_fst _ _ htop e he
      simp only at this
      omega
    have key : ∀ z, st0.dist z ≤ st0.dist t → st2.dist z = st0.dist z := by
      intro z hz
      have hle2 := (hDes.2.2 z).1
      have hr := cola_vacia_recorrido g s st2 proc2 m2 hP2 hq2 z (by omega)
      by_cases hlt : st2.dist z < st0.dist t
      · have := cota_recorrido g s st0 (st0.dist t) hI hpos (by omega) hkeys z _ hr hlt
        omega
      · omega
    refine ⟨by rw [hdist]; exact key t (le_refl _), fun hne => ?_⟩
    obtain ⟨nodos, arcos, h⟩ := hcad hne
    refine ⟨nodos, arcos, h, Cadena_congr g s st1 st2 t nodos arcos h ?_⟩
    intro z hz
    have h1 := Cadena_dist_le g hpos s st1 t nodos arcos h z hz
    rw [hdist, hdist] at h1
    have h2 := key z h1
    exact ⟨by rw [hprev]; exact (hDes.2.2 z).2 h2, by rw [hdist]; exact h2⟩

/-- The runs with and without the early exit, started in the same state. -/
theorem completo_desde (g : grafo) (hc : Construido g) (hpos : PesosNoNegativos g)
    (h2S : 2 * pesoTotal g ≤ INF) (s t : Int) (fuel : Nat) :
    ∀ st : Estado, InvG g s (Arco g) st → (∃ proc m, InvP g s st proc m) →
    ∀ st1, bucle g t fuel st = some st1 → ∀ F st2, bucle g (-1) F st = some st2 →
    st2.dist t = st1.dist t ∧
    (st1.dist t ≠ INF → ∃ nodos arcos, Cadena g s st1 t nodos arcos ∧
      Cadena g s st2 t nodos arcos) := by
  have hwf := Construido_BienFormado g hc
  induction fuel with
  | zero => intro st _ _ st1 h; simp [bucle] at h
  | succ f ih =>
    intro st hI hP st1 h F st2 hb2
    unfold bucle at h
    cases hp : paso g t st with
    | termina x =>
      simp only [hp, Option.some.injEq] at h
      subst h
      exact salida_completa g hc hpos h2S s t st x st2 F hI hP hp hb2
    | sigue x =>
      simp only [hp] at h
      have hp2 := paso_sigue_completo g t st x hp (fun e he => (hI.cola e he).1)
      cases F with
      | zero => simp [bucle] at hb2
      | succ k =>
        unfold bucle at hb2
        simp only [hp2] at hb2
        exact ih x (paso_InvG g hwf s t st x hI hp)
          (paso_InvP g hc hpos h2S s t st x hI hP hp) st1 h k st2 hb2

/-! ## The early exit -/

/-- C15 (as the code behaves). The early exit is sound when twice the total edge weight
is at most `INF`: on a store built by the two mutators with non-negative weights, for
registered
names, the method and the method without the line `if (u == idFin) break;` both end,
and they report the same thing: 'No hay ruta posible', or the same cost with the same
path. -/
theorem salida_temprana_correcta (g : grafo) (hc : Construido g) (hpos : PesosNoNegativos g)
    (h2S : 2 * pesoTotal g ≤ INF) (inicio fin : String)
    (hi : g.obtenerIdNodo inicio ≠ -1) (hf : g.obtenerIdNodo fin ≠ -1) :
    ∃ N r, ∀ fuel, N ≤ fuel →
      g.calcularRutaMasCorta inicio fin fuel = some r ∧
      g.calcularSinSalidaTemprana inicio fin fuel = some r := by
  have hwf := Construido_BienFormado g hc
  obtain ⟨h0, h1, _⟩ := obtenerIdNodo_spec g inicio hi
  have hI0 := estadoInicial_InvG g _ h0 h1
  have hP0 := estadoInicial_InvP g _ h0 h1
  obtain ⟨N1, st1, hN1⟩ := calcular_total g hwf inicio fin hi
  obtain ⟨st2, hst2⟩ := bucle_total g hwf _ (-1) _ hI0
    (medida (estadoInicial g.departamentos.length (g.obtenerIdNodo inicio)) + 1) (by omega)
  generalize hN2 : medida (estadoInicial g.departamentos.length (g.obtenerIdNodo inicio)) + 1
    = N2 at hst2
  have hb2 : ∀ fuel, N2 ≤ fuel → bucleCompleto g fuel
      (estadoInicial g.departamentos.length (g.obtenerIdNodo inicio)) = some st2 := by
    intro fuel hfuel
    rw [bucleCompleto_eq g hwf _ fuel _ hI0]
    exact bucle_mono_le g _ N2 fuel _ st2 hst2 hfuel
  obtain ⟨hd, hcad⟩ := completo_desde g hc hpos h2S _ (g.obtenerIdNodo fin) N1 _ hI0
    ⟨[], 0, hP0⟩ st1 (hN1 N1 (le_refl _)) N2 st2 hst2
  by_cases hinf : st1.dist (g.obtenerIdNodo fin) = INF
  · refine ⟨max N1 N2, Salida.sinRuta, fun fuel hfuel => ⟨?_, ?_⟩⟩
    · exact calcular_sinRuta_intro g inicio fin fuel st1 hi hf
        (hN1 fuel (le_trans (le_max_left _ _) hfuel)) hinf
    · unfold grafo.calcularSinSalidaTemprana
      simp [hi, hf, hb2 fuel (le_trans (le_max_right _ _) hfuel), hd, hinf]
  · obtain ⟨nodos, arcos, hc1, hc2⟩ := hcad hinf
    have hr := Cadena_rango g hwf _ h0 st1 _ nodos arcos hc1
    refine ⟨max (max N1 N2) (nodos.length + 1),
      Salida.ruta (st1.dist (g.obtenerIdNodo fin))
        ((nodos.map (fun i => leer g.departamentos i "")).reverse).reverse,
      fun fuel hfuel => ?_⟩
    have g1 : N1 ≤ fuel := le_trans (le_trans (le_max_left _ _) (le_max_left _ _)) hfuel
    have g2 : N2 ≤ fuel := le_trans (le_trans (le_max_right _ _) (le_max_left _ _)) hfuel
    obtain ⟨k, hk⟩ := Nat.exists_eq_add_of_le (le_trans (le_max_right _ _) hfuel)
    have r1 := reconstruir_Cadena g _ st1 _ nodos arcos hc1 h0 hr k []
    have r2 := reconstruir_Cadena g _ st2 _ nodos arcos hc2 h0 hr k []
    rw [← hk] at r1 r2
    constructor
    · unfold grafo.calcularRutaMasCorta
      simp [hi, hf, hN1 fuel g1, hinf, r1]
    · unfold grafo.calcularSinSalidaTemprana
      simp [hi, hf, hb2 fuel g2, hinf, r2, hd]

theorem salida_temprana_correcta_witness :
    Construido redMain ∧ PesosNoNegativos redMain ∧ 2 * pesoTotal redMain ≤ INF ∧
    ∃ N r, ∀ fuel, N ≤ fuel →
      redMain.calcularRutaMasCorta "A" "B" fuel = some r ∧
      redMain.calcularSinSalidaTemprana "A" "B" fuel = some r :=
  have h2S : 2 * pesoTotal redMain ≤ INF := by rw [redMain_eq]; decide
  ⟨redMain_Construido, redMain_PesosNoNegativos, h2S,
    salida_temprana_correcta redMain redMain_Construido redMain_PesosNoNegativos h2S "A" "B"
      (by rw [redMain_eq]; decide) (by rw [redMain_eq]; decide)⟩

/-- C15 as stated fails: `redDesborde` has non-negative weights and the total
1073741829, below `INF`; the run from `A` to `B` reports the cost 1073741829 with the
path `A`, `B`, while without the early exit the loop goes on, a sum wraps, the loop ends
with `previo = [1, 0, 1]`, and the path loop never reaches `-1`: nothing is reported. -/
theorem salida_temprana_difiere :
    Construido redDesborde ∧ PesosNoNegativos redDesborde ∧ pesoTotal redDesborde < INF ∧
    redDesborde.obtenerIdNodo "A" ≠ -1 ∧ redDesborde.obtenerIdNodo "B" ≠ -1 ∧
    (∀ k, redDesborde.calcularRutaMasCorta "A" "B" (3 + k) =
      some (Salida.ruta 1073741829 ["A", "B"])) ∧
    ∀ fuel, redDesborde.calcularSinSalidaTemprana "A" "B" fuel = none := by
  refine ⟨redDesborde_Construido, ?_, by decide, by decide, by decide, ?_, ?_⟩
  · unfold PesosNoNegativos; decide
  · intro k
    exact calcular_mono redDesborde "A" "B" 3 _ (by decide!) k
  · intro fuel
    have hwf := Construido_BienFormado _ redDesborde_Construido
    have hA : redDesborde.obtenerIdNodo "A" = 0 := by decide
    have hB : redDesborde.obtenerIdNodo "B" = 1 := by decide
    have hlen : redDesborde.departamentos.length = 3 := by decide
    have hdeps : redDesborde.departamentos = ["A", "B", "C"] := by decide
    have hI0 := estadoInicial_InvG redDesborde 0 (by decide) (by decide)
    rw [hlen] at hI0
    have h7 : bucle redDesborde (-1) 8 (estadoInicial 3 0) =
        some (Estado.mk [-2147483638, -1073741809, -1073741809] [1, 0, 1] []) := by
      rw [redDesborde_eq]
      decide!
    unfold grafo.calcularSinSalidaTemprana
    simp only [hA, hB, hlen]
    rw [bucleCompleto_eq redDesborde hwf 0 fuel _ hI0]
    cases hb : bucle redDesborde (-1) fuel (estadoInicial 3 0) with
    | none => simp
    | some st =>
      have e1 := bucle_mono_le redDesborde (-1) fuel (max fuel 8) _ st hb (le_max_left _ _)
      have e2 := bucle_mono_le redDesborde (-1) 8 (max fuel 8) _ _ h7 (le_max_right _ _)
      rw [e1] at e2
      have hst := Option.some.inj e2
      subst hst
      have hne : (Estado.mk [-2147483638, -1073741809, -1073741809] [1, 0, 1] []).dist 1
          ≠ INF := by decide
      simp only [hdeps]
      rw [redDesborde_ciclo fuel 1 [] (Or.inr (Or.inl rfl))]
      simp [hne]

end OSPF
